import Mathlib

/-!
Verification development for the 3DPenCraft mesh-to-path pipeline.

The development shallowly embeds the algorithmic core of the repository:

* the progressive mesh-simplification engine (GeometryModifier /
  VerticesAndFaces: edge-collapse decimation, cost-sorted vertex index,
  vertex and face removal, face hashes);
* the path-search engine (sequential walk, nearest-neighbor search,
  wrapping path search, greedy edge selection over the face-dual graph);
* the curve builder's sampling-interval computation.

Numbers are modelled by rationals (the source computes with IEEE doubles;
the claims under study are about control flow, counting and exact algebraic
structure, not rounding).  Geometric primitives supplied by the three.js
library (distances, dot products, normals, centroids) are abstracted as an
explicit dictionary of functions, so every theorem quantifies over the
geometry; vertices and faces live in an arena addressed by stable numeric
ids, mirroring the object identity of the source.
-/

set_option maxHeartbeats 1600000

namespace PenCraft

/-- The geometric primitives that the decimation code obtains from the
three.js Vector3 class: point-to-point distance, normal dot products and
the normal/centroid recomputation of a triangle from its three vertex
positions.  They are parameters of the embedding. -/
structure Geom (Pos Nrm : Type) where
  distanceTo : Pos → Pos → ℚ
  dot : Nrm → Nrm → ℚ
  faceNormal : Pos → Pos → Pos → Nrm
  faceCenter : Pos → Pos → Pos → Pos

/-- The Vertex class of the geometry modifier: position, its index in the
owning list, incident faces, neighboring vertices, and the cached collapse
data (collapseCost, minCost, totalCost, collapseNeighbor).  Faces and
vertices are referred to by arena ids. -/
structure Vtx (Pos : Type) where
  position : Pos
  index : Nat
  faces : List Nat
  neighbors : List Nat
  collapseCost : ℚ
  minCost : ℚ
  totalCost : ℚ
  collapseNeighbor : Option Nat

/-- The Triangle class: three vertex references, normal, centroid, the
content hash and the path-search degree counter.  (The constructor's
write-only fields a, b, c are omitted: nothing reads them.) -/
structure Fc (Pos Nrm : Type) where
  v1 : Nat
  v2 : Nat
  v3 : Nat
  normal : Nrm
  center : Pos
  hash : String
  degree : Nat

/-- The VerticesAndFaces container: the vertex arena, the face arena, the
vertex list (order = index order), the face list, and the cost-sorted index
array arrVerticesByCost (whose entries are positions in arrVertices). -/
structure VF (Pos Nrm : Type) where
  vtx : Nat → Vtx Pos
  fc : Nat → Fc Pos Nrm
  arrVertices : List Nat
  arrFaces : List Nat
  arrVerticesByCost : List Nat

variable {Pos Nrm : Type}

/-- Update one vertex in the arena. -/

def setVtx (s : VF Pos Nrm) (i : Nat) (v : Vtx Pos) : VF Pos Nrm :=
  { s with vtx := fun j => if j = i then v else s.vtx j }

/-- Update one face in the arena. -/

def setFc (s : VF Pos Nrm) (i : Nat) (f : Fc Pos Nrm) : VF Pos Nrm :=
  { s with fc := fun j => if j = i then f else s.fc j }

/-- The three vertex references of a face, as a list. -/

def fverts (f : Fc Pos Nrm) : List Nat := [f.v1, f.v2, f.v3]

/-- Triangle.hasVertex: identity comparison of the argument against the
face's three vertex references. -/

def Fc.hasVertex (f : Fc Pos Nrm) (v : Nat) : Prop :=
  v = f.v1 ∨ v = f.v2 ∨ v = f.v3

instance (f : Fc Pos Nrm) (v : Nat) : Decidable (f.hasVertex v) := by
  unfold Fc.hasVertex; infer_instance

/-- Vertex.addUniqueNeighbor: append the vertex unless already present. -/

def addUniqueNeighbor (s : VF Pos Nrm) (vid nid : Nat) : VF Pos Nrm :=
  let v := s.vtx vid
  if nid ∈ v.neighbors then s
  else setVtx s vid { v with neighbors := v.neighbors ++ [nid] }

/-- Vertex.removeIfNonNeighbor: drop nid from vid's neighbor list unless it
is absent or some face of vid still contains nid. -/

def removeIfNonNeighbor (s : VF Pos Nrm) (vid nid : Nat) : VF Pos Nrm :=
  let v := s.vtx vid
  if nid ∉ v.neighbors then s
  else if ∃ f ∈ v.faces, (s.fc f).hasVertex nid then s
  else setVtx s vid { v with neighbors := v.neighbors.erase nid }

/-- computeEdgeCollapseCost(u, v): edge length times a curvature factor.
The side faces are the faces of u that also contain v; with exactly two
side faces the curvature is accumulated over all faces of u starting from
0, otherwise (border) it is 1. -/

def computeEdgeCollapseCost (g : Geom Pos Nrm) (s : VF Pos Nrm) (uid vid : Nat) : ℚ :=
  let u := s.vtx uid
  let v := s.vtx vid
  let edgelength := g.distanceTo v.position u.position
  let sideFaces := u.faces.filter (fun fid => decide ((s.fc fid).hasVertex vid))
  let curvature : ℚ :=
    if sideFaces.length = 2 then
      u.faces.foldl (fun curvature fid =>
        let f := s.fc fid
        let dotProd := max (g.dot f.normal (s.fc (sideFaces.getD 0 0)).normal)
                           (g.dot f.normal (s.fc (sideFaces.getD 1 0)).normal)
        let minCurvature := min 1 ((1 - dotProd) / 2)
        max curvature minCurvature) 0
    else 1
  edgelength * curvature

/-- The fold performed by computeEdgeCostAtVertex over the neighbor list:
the accumulator carries (collapseNeighbor, minCost, totalCost); the first
neighbor initialises all three, later neighbors add to the total and take
over the cached minimum on a strictly smaller cost. -/

def costFoldStep (g : Geom Pos Nrm) (s : VF Pos Nrm) (vid : Nat)
    (acc : Option Nat × ℚ × ℚ) (n : Nat) : Option Nat × ℚ × ℚ :=
  let collapseCost := computeEdgeCollapseCost g s vid n
  match acc.1 with
  | none => (some n, collapseCost, collapseCost)
  | some m =>
    let total := acc.2.2 + collapseCost
    if collapseCost < acc.2.1 then (some n, collapseCost, total)
    else (some m, acc.2.1, total)

/-- computeEdgeCostAtVertex(v): an isolated vertex gets the sentinel cost
-0.01 and no collapse neighbor; otherwise the neighbors are scanned for the
least-cost edge and the vertex's collapseCost becomes the average cost. -/

def computeEdgeCostAtVertex (g : Geom Pos Nrm) (s : VF Pos Nrm) (vid : Nat) : VF Pos Nrm :=
  let v := s.vtx vid
  if v.neighbors = [] then
    setVtx s vid { v with collapseNeighbor := none, collapseCost := -(1/100 : ℚ) }
  else
    let costCount := v.neighbors.length
    let acc := v.neighbors.foldl (costFoldStep g s vid) (none, v.minCost, v.totalCost)
    setVtx s vid { v with collapseNeighbor := acc.1, minCost := acc.2.1,
                          totalCost := acc.2.2, collapseCost := acc.2.2 / (costCount : ℚ) }

/-- The paired neighbor pruning performed for each edge of a removed face. -/

def removeNonNeighbors (s : VF Pos Nrm) (a b : Nat) : VF Pos Nrm :=
  removeIfNonNeighbor (removeIfNonNeighbor s a b) b a

/-- VerticesAndFaces.removeFace: detach the face from the face list and
from its three vertices' face lists, then prune the neighbor relations of
its three vertex pairs when no remaining face connects them. -/

def removeFace (s : VF Pos Nrm) (fid : Nat) : VF Pos Nrm :=
  let f := s.fc fid
  let s1 := { s with arrFaces := s.arrFaces.erase fid }
  let s2 := [f.v1, f.v2, f.v3].foldl (fun t vid =>
    let v := t.vtx vid
    setVtx t vid { v with faces := v.faces.erase fid }) s1
  let s3 := removeNonNeighbors s2 f.v1 f.v2
  let s4 := removeNonNeighbors s3 f.v2 f.v3
  removeNonNeighbors s4 f.v3 f.v1

/-- The index-renumbering loop of removeVertex: assign index k, k+1, ... to
the given suffix of the vertex list. -/

def renumberAux : List Nat → Nat → VF Pos Nrm → VF Pos Nrm
  | [], _, s => s
  | id :: rest, k, s =>
    renumberAux rest (k + 1) (setVtx s id { s.vtx id with index := k })

/-- VerticesAndFaces.removeVertex: drop the vertex from all its neighbors'
neighbor lists, remove it from the vertex list, renumber the subsequent
vertices' indices, and synchronise arrVerticesByCost (remove the entry for
the removed position, decrement the entries above it). -/

def removeVertex (s : VF Pos Nrm) (uid : Nat) : VF Pos Nrm :=
  let u := s.vtx uid
  let s1 := u.neighbors.reverse.foldl (fun t n =>
    let nv := t.vtx n
    setVtx t n { nv with neighbors := nv.neighbors.erase uid }) s
  let s2 := setVtx s1 uid { s1.vtx uid with neighbors := [] }
  let index := u.index
  let s3 := { s2 with arrVertices := s2.arrVertices.eraseIdx index }
  let s4 := renumberAux (s3.arrVertices.drop index) index s3
  let byCost := s4.arrVerticesByCost
  let byCost1 := if index ∈ byCost then byCost.erase index else byCost
  { s4 with arrVerticesByCost := byCost1.map (fun j => if index < j then j - 1 else j) }

/-- The binary search shared by addVertex and the re-insertion step of
collapse: low starts at 0, high at length - 1, and the probe positions are
bisected until low = high; note high never starts at length, so the search
cannot answer the final slot of a nonempty array.  The fuel argument is the
array length, which bounds the number of bisection steps. -/

def bsGo (f : Nat → ℚ) (cost : ℚ) : Nat → Nat → Nat → Nat
  | 0, low, _ => low
  | fuel + 1, low, high =>
    if low < high then
      let mid := (low + high) / 2
      if f mid < cost then bsGo f cost fuel (mid + 1) high
      else bsGo f cost fuel low mid
    else low

/-- Entry point of the binary search over an array of the given length. -/

def binarySearchPos (f : Nat → ℚ) (len : Nat) (cost : ℚ) : Nat :=
  bsGo f cost len 0 (len - 1)

/-- JavaScript splice(i, 0, x): insert at position i, clamped to the end of
the list when i exceeds its length. -/

def insertClamped (l : List Nat) (i : Nat) (x : Nat) : List Nat :=
  if i ≤ l.length then l.insertIdx i x else l ++ [x]

/-- VerticesAndFaces.addVertex: store the vertex under a fresh arena id,
give it the next index, append it to the vertex list, and insert its index
into arrVerticesByCost at the position the binary search reports. -/

def addVertex (s : VF Pos Nrm) (vidNew : Nat) (v : Vtx Pos) : VF Pos Nrm :=
  let index := s.arrVertices.length
  let s1 := setVtx s vidNew { v with index := index }
  let s2 := { s1 with arrVertices := s1.arrVertices ++ [vidNew] }
  let cost := v.collapseCost
  let byCost := s2.arrVerticesByCost
  let low := binarySearchPos
    (fun mid => (s2.vtx (s2.arrVertices.getD (byCost.getD mid 0) 0)).collapseCost)
    byCost.length cost
  { s2 with arrVerticesByCost := insertClamped byCost low index }

/-- The downward loop of collapse that deletes the faces on the edge u-v:
the counter starts at the initial length of u's face list and the entry at
position counter - 1 of the current face list is removed when it contains
v (the optional-chaining guard of the source skips missing positions). -/

def deleteUVFaces (vidTarget uid : Nat) : Nat → VF Pos Nrm → VF Pos Nrm
  | 0, s => s
  | i + 1, s =>
    let s' :=
      match (s.vtx uid).faces.get? i with
      | some fid => if (s.fc fid).hasVertex vidTarget then removeFace s fid else s
      | none => s
    deleteUVFaces vidTarget uid i s'

/-- The move stage of one face-rewrite iteration of collapse: splice the
face out of u's list at position i, push it onto v's list, and replace the
first u-slot among its vertex references by v. -/

def rewriteMove (uid vid fid i : Nat) (s : VF Pos Nrm) : VF Pos Nrm :=
  let u := s.vtx uid
  let s1 := setVtx s uid { u with faces := u.faces.eraseIdx i }
  let v := s1.vtx vid
  let s2 := setVtx s1 vid { v with faces := v.faces ++ [fid] }
  let f := s2.fc fid
  setFc s2 fid
    (if uid = f.v1 then { f with v1 := vid }
     else if uid = f.v2 then { f with v2 := vid }
     else if uid = f.v3 then { f with v3 := vid }
     else f)

/-- The six removeIfNonNeighbor calls of the rewrite iteration, pairing u
against the face's (already rewritten) three vertex references; the
neighbor-editing calls do not change the face arena, so the references are
read once. -/

def rewritePairs (uid fid : Nat) (s : VF Pos Nrm) : VF Pos Nrm :=
  let fr := s.fc fid
  removeNonNeighbors (removeNonNeighbors (removeNonNeighbors s uid fr.v1)
    uid fr.v2) uid fr.v3

/-- The six addUniqueNeighbor calls of the rewrite iteration, connecting
the face's three current vertex references pairwise. -/

def rewriteAdds (fid : Nat) (s : VF Pos Nrm) : VF Pos Nrm :=
  let fr := s.fc fid
  addUniqueNeighbor (addUniqueNeighbor (addUniqueNeighbor (addUniqueNeighbor
    (addUniqueNeighbor (addUniqueNeighbor s fr.v1 fr.v2) fr.v1 fr.v3)
    fr.v2 fr.v1) fr.v2 fr.v3) fr.v3 fr.v1) fr.v3 fr.v2

/-- face.computeNormal() and face.computeCenter() after the rewrite. -/

def recomputeFace (g : Geom Pos Nrm) (fid : Nat) (s : VF Pos Nrm) : VF Pos Nrm :=
  let f2 := s.fc fid
  setFc s fid { f2 with
    normal := g.faceNormal (s.vtx f2.v1).position (s.vtx f2.v2).position
      (s.vtx f2.v3).position,
    center := g.faceCenter (s.vtx f2.v1).position (s.vtx f2.v2).position
      (s.vtx f2.v3).position }

/-- One iteration of the face-rewrite loop of collapse, at position i of
u's current face list: move the face from u's list to v's list, replace the
(first) u-reference among its vertex slots by v, re-derive the neighbor
relations of u and of the face's three current vertices, and recompute the
face's normal and centroid. -/

def rewriteFaceAt (g : Geom Pos Nrm) (uid vid i : Nat) (s : VF Pos Nrm) : VF Pos Nrm :=
  match (s.vtx uid).faces.get? i with
  | none => s
  | some fid =>
    recomputeFace g fid (rewriteAdds fid (rewritePairs uid fid
      (rewriteMove uid vid fid i s)))

/-- The downward face-rewrite loop of collapse. -/

def rewriteFaces (g : Geom Pos Nrm) (uid vid : Nat) : Nat → VF Pos Nrm → VF Pos Nrm
  | 0, s => s
  | i + 1, s => rewriteFaces g uid vid i (rewriteFaceAt g uid vid i s)

/-- The re-insertion step at the end of a collapse iteration, for one
former neighbor t of the removed vertex: recompute t's collapse cost, take
t's index out of arrVerticesByCost (the source's unguarded splice removes
the last entry when the index is absent), and re-insert it at the position
the binary search reports. -/

def reinsertVertex (g : Geom Pos Nrm) (s : VF Pos Nrm) (tid : Nat) : VF Pos Nrm :=
  let s1 := computeEdgeCostAtVertex g s tid
  let cost := (s1.vtx tid).collapseCost
  let tindex := (s1.vtx tid).index
  let byCost := s1.arrVerticesByCost
  let byCost1 := if tindex ∈ byCost then byCost.erase tindex else byCost.dropLast
  let low := binarySearchPos
    (fun mid => (s1.vtx (s1.arrVertices.getD (byCost1.getD mid 0) 0)).collapseCost)
    byCost1.length cost
  { s1 with arrVerticesByCost := insertClamped byCost1 low tindex }

/-- One iteration of the main collapse loop: pop the vertex u at the head
of arrVerticesByCost; an isolated u (no collapse neighbor) is simply
removed, otherwise the edge to the collapse neighbor v is collapsed: the
faces on the edge u-v are deleted, the remaining faces of u are rewritten
to reference v, u is removed, and the former neighbors of u get their costs
recomputed and re-inserted into arrVerticesByCost. -/

def collapseStep (g : Geom Pos Nrm) (s : VF Pos Nrm) : VF Pos Nrm :=
  match s.arrVerticesByCost with
  | [] => s
  | pos :: _ =>
    let uid := s.arrVertices.getD pos 0
    let u := s.vtx uid
    match u.collapseNeighbor with
    | none => removeVertex s uid
    | some vid =>
      let tmpVertices := u.neighbors
      let s1 := deleteUVFaces vid uid u.faces.length s
      let s2 := rewriteFaces g uid vid ((s1.vtx uid).faces.length) s1
      let s3 := removeVertex s2 uid
      tmpVertices.foldl (reinsertVertex g) s3

/-- VerticesAndFaces.collapse(count): when the requested count exceeds the
vertex count, the target becomes half the vertex count (the source computes
vertices_count / 2 in floating point and the loop bound i < count then
yields ceil(n / 2) iterations); the collapse iteration then runs that many
times.  The final statement of the source reads the computeFaceHashes
property without invoking it, so no hash recomputation happens here. -/

def collapse (g : Geom Pos Nrm) (s : VF Pos Nrm) (count : Nat) : VF Pos Nrm :=
  let verticesCount := s.arrVertices.length
  let iters := if verticesCount < count then (verticesCount + 1) / 2 else count
  (collapseStep g)^[iters] s

/-- Triangle.computeHash: the comma-joined ascending sort of the three
current vertex indices. -/

def computeHash (s : VF Pos Nrm) (fid : Nat) : String :=
  let f := s.fc fid
  let ixs := List.insertionSort (· ≤ ·)
    [(s.vtx f.v1).index, (s.vtx f.v2).index, (s.vtx f.v3).index]
  Nat.repr (ixs.getD 0 0) ++ "," ++ Nat.repr (ixs.getD 1 0) ++ "," ++ Nat.repr (ixs.getD 2 0)

/-- VerticesAndFaces.computeFaceHashes: recompute every face's hash. -/

def computeFaceHashes (s : VF Pos Nrm) : VF Pos Nrm :=
  s.arrFaces.foldl (fun t fid => setFc t fid { t.fc fid with hash := computeHash t fid }) s

/-! ## Structural well-formedness of a populated mesh graph

These are the invariants that VerticesAndFaces.populateFromGeometry
establishes for a welded mesh and that the spec states for the data model:
contiguous correct indices, the cost-sorted index array a permutation of
the valid positions, faces with three distinct live vertices, exact
vertex-face incidence lists, a symmetric irreflexive neighbor relation
containing all co-face pairs, and a collapse-neighbor cache that points
into the neighbor list (or is empty exactly for neighborless vertices). -/

/-- The vertex stored at a given position of arrVertices records that
position as its index. -/

def IndexOk (s : VF Pos Nrm) : Prop :=
  ∀ i < s.arrVertices.length, (s.vtx (s.arrVertices.getD i 0)).index = i

/-- Every face of the face list has three mutually distinct vertices, all
present in the vertex list. -/

def FaceOk (s : VF Pos Nrm) : Prop :=
  ∀ fid ∈ s.arrFaces,
    (s.fc fid).v1 ≠ (s.fc fid).v2 ∧ (s.fc fid).v2 ≠ (s.fc fid).v3 ∧
    (s.fc fid).v1 ≠ (s.fc fid).v3 ∧
    (s.fc fid).v1 ∈ s.arrVertices ∧ (s.fc fid).v2 ∈ s.arrVertices ∧
    (s.fc fid).v3 ∈ s.arrVertices

/-- A vertex's face list holds, without duplicates, exactly the live faces
that contain it. -/

def FacesListOk (s : VF Pos Nrm) : Prop :=
  ∀ vid ∈ s.arrVertices,
    (s.vtx vid).faces.Nodup ∧
    (∀ fid ∈ (s.vtx vid).faces, fid ∈ s.arrFaces ∧ (s.fc fid).hasVertex vid) ∧
    (∀ fid ∈ s.arrFaces, (s.fc fid).hasVertex vid → fid ∈ (s.vtx vid).faces)

/-- Neighbor lists are duplicate-free, irreflexive, live and symmetric. -/

def NbrOk (s : VF Pos Nrm) : Prop :=
  ∀ vid ∈ s.arrVertices,
    (s.vtx vid).neighbors.Nodup ∧ vid ∉ (s.vtx vid).neighbors ∧
    ∀ x ∈ (s.vtx vid).neighbors, x ∈ s.arrVertices ∧ vid ∈ (s.vtx x).neighbors

/-- Any two distinct vertices of a live face are neighbors. -/

def FaceNbrOk (s : VF Pos Nrm) : Prop :=
  ∀ fid ∈ s.arrFaces, ∀ a ∈ fverts (s.fc fid), ∀ b ∈ fverts (s.fc fid),
    a ≠ b → b ∈ (s.vtx a).neighbors

/-- Auxiliary shape of the collapse-neighbor invariant. -/

def cnOkAux : Option Nat → List Nat → Prop
  | none, l => l = []
  | some z, l => z ∈ l

instance cnOkAuxDec : ∀ (o : Option Nat) (l : List Nat), Decidable (cnOkAux o l)
  | none, l => inferInstanceAs (Decidable (l = []))
  | some z, l => inferInstanceAs (Decidable (z ∈ l))

/-- The cached collapse neighbor is a current neighbor; it is absent
exactly when the vertex has no neighbors. -/

def CnOk (s : VF Pos Nrm) (vid : Nat) : Prop :=
  cnOkAux (s.vtx vid).collapseNeighbor (s.vtx vid).neighbors

/-- Full structural well-formedness of a populated mesh graph. -/

def WF (s : VF Pos Nrm) : Prop :=
  s.arrVertices.Nodup ∧ s.arrFaces.Nodup ∧ IndexOk s ∧
  s.arrVerticesByCost.Perm (List.range s.arrVertices.length) ∧
  FaceOk s ∧ FacesListOk s ∧ NbrOk s ∧ FaceNbrOk s ∧
  ∀ vid ∈ s.arrVertices, CnOk s vid

instance wfDecidable (s : VF Pos Nrm) : Decidable (WF s) := by
  unfold WF IndexOk FaceOk FacesListOk NbrOk FaceNbrOk CnOk
  infer_instance

/-- The collapse cost stored for the vertex sitting at a given position of
arrVertices. -/

def costAt (s : VF Pos Nrm) (pos : Nat) : ℚ :=
  (s.vtx (s.arrVertices.getD pos 0)).collapseCost

/-- The sortedness half of the spec's invariant for arrVerticesByCost:
entries ordered by non-decreasing stored collapse cost. -/

def SortedByCost (s : VF Pos Nrm) : Prop :=
  s.arrVerticesByCost.Pairwise (fun i j => costAt s i ≤ costAt s j)

instance sortedByCostDec (s : VF Pos Nrm) : Decidable (SortedByCost s) := by
  unfold SortedByCost
  infer_instance

/-! ## Concrete instances used by counterexamples and witnesses -/

/-- Degenerate geometry over trivial positions and normals. -/

def gUnit : Geom Unit Unit :=
  { distanceTo := fun _ _ => 0, dot := fun _ _ => 0,
    faceNormal := fun _ _ _ => (), faceCenter := fun _ _ _ => () }

/-- One-dimensional rational geometry: positions are rationals and the
distance is the squared difference (a legitimate nonnegative metric-like
length for the counterexamples; only its size matters). -/

def gLine : Geom ℚ Unit :=
  { distanceTo := fun a b => (a - b) * (a - b), dot := fun _ _ => 0,
    faceNormal := fun _ _ _ => (), faceCenter := fun a _ _ => a }

/-- Vertex constructor for concrete instances. -/

def mkV (p : Pos) (ix : Nat) (fs ns : List Nat) (cost : ℚ) (cn : Option Nat) : Vtx Pos :=
  { position := p, index := ix, faces := fs, neighbors := ns,
    collapseCost := cost, minCost := 0, totalCost := 0, collapseNeighbor := cn }

/-- Face constructor for concrete instances. -/

def mkF (a b c : Nat) (h : String) : Fc Unit Unit :=
  { v1 := a, v2 := b, v3 := c, normal := (), center := (), hash := h, degree := 0 }

/-- A two-triangle strip: vertices 0-3, faces 0 = (0,1,2) and 1 = (1,2,3),
with the incidence, neighbor and hash data populateFromGeometry would
produce. -/

def sStrip : VF Unit Unit :=
  { vtx := fun i =>
      if i = 0 then mkV () 0 [0] [1, 2] 0 (some 1)
      else if i = 1 then mkV () 1 [0, 1] [0, 2, 3] 0 (some 0)
      else if i = 2 then mkV () 2 [0, 1] [0, 1, 3] 0 (some 0)
      else mkV () 3 [1] [1, 2] 0 (some 1)
    fc := fun i => if i = 0 then mkF 0 1 2 "0,1,2" else mkF 1 2 3 "1,2,3"
    arrVertices := [0, 1, 2, 3]
    arrFaces := [0, 1]
    arrVerticesByCost := [0, 1, 2, 3] }

/-- A regular tetrahedron's connectivity: vertices 0-3, faces (0,1,2),
(0,1,3), (0,2,3), (1,2,3); every vertex pair is an edge. -/

def sTetra : VF Unit Unit :=
  { vtx := fun i =>
      if i = 0 then mkV () 0 [0, 1, 2] [1, 2, 3] 0 (some 1)
      else if i = 1 then mkV () 1 [0, 1, 3] [0, 2, 3] 0 (some 0)
      else if i = 2 then mkV () 2 [0, 2, 3] [0, 1, 3] 0 (some 0)
      else mkV () 3 [1, 2, 3] [0, 1, 2] 0 (some 0)
    fc := fun i =>
      if i = 0 then mkF 0 1 2 "0,1,2"
      else if i = 1 then mkF 0 1 3 "0,1,3"
      else if i = 2 then mkF 0 2 3 "0,2,3"
      else mkF 1 2 3 "1,2,3"
    arrVertices := [0, 1, 2, 3]
    arrFaces := [0, 1, 2, 3]
    arrVerticesByCost := [0, 1, 2, 3] }

/-- A mesh with two faceless vertices of costs 0 and 1, used to feed
addVertex. -/

def sAddDemo : VF ℚ Unit :=
  { vtx := fun i =>
      if i = 0 then mkV 0 0 [] [] 0 none
      else mkV 1 1 [] [] 1 none
    fc := fun _ => { v1 := 0, v2 := 0, v3 := 0, normal := (), center := 0,
                     hash := "", degree := 0 }
    arrVertices := [0, 1]
    arrFaces := []
    arrVerticesByCost := [0, 1] }

/-- A fresh vertex of collapse cost 2 (larger than every stored cost). -/

def vNewDemo : Vtx ℚ := mkV 2 0 [] [] 2 none

/-- Three faceless vertices at positions 0, 0, 10: vertex 0 collapses
into vertex 1; recomputing vertex 1's cost afterwards yields the edge
length 10 to vertex 2, larger than every other stored cost. -/

def sStepDemo : VF ℚ Unit :=
  { vtx := fun i =>
      if i = 0 then mkV 0 0 [] [1] 0 (some 1)
      else if i = 1 then mkV 0 1 [] [0, 2] 0 (some 0)
      else mkV 10 2 [] [1] 0 (some 1)
    fc := fun _ => { v1 := 0, v2 := 0, v3 := 0, normal := (), center := 0,
                     hash := "", degree := 0 }
    arrVertices := [0, 1, 2]
    arrFaces := []
    arrVerticesByCost := [0, 1, 2] }

/-! ## Curve Builder: the sampling interval (CurveIntrapolationProcess) -/

/-- The polyline length of the incoming paths, accumulated pairwise with
point.distanceTo(prevPoint) exactly as the startProcess loop does. -/

def totalLengthOf (dist : Pos → Pos → ℚ) (paths : List (List Pos)) : ℚ :=
  (paths.map (fun path => ((path.zip path.tail).map (fun pr => dist pr.2 pr.1)).sum)).sum

/-- The initial sampling interval: Math.min(0.0012, Math.max(0.001,
shortestEdge / 2)). -/

def pointIntervalInitial (shortestEdge : ℚ) : ℚ :=
  min (12/10000 : ℚ) (max (1/1000 : ℚ) (shortestEdge / 2))

/-- The sampling interval finally used: the initial interval is replaced
by totalLength / (3 * pointCount) when pointCount exceeds 2 and the sample
count totalLength / interval would exceed 3 * pointCount. -/

def pointIntervalUsed (shortestEdge totalLength pointCount : ℚ) : ℚ :=
  if 2 < pointCount ∧ 3 * pointCount < totalLength / pointIntervalInitial shortestEdge then
    totalLength / (3 * pointCount)
  else pointIntervalInitial shortestEdge

/-! ## The cost formulas (claim C4)

The spec-side formulations below follow the specification text: the side
faces (wings) of an edge, the per-face curvature term, the maximum over the
incident faces, the mean over the neighbors and the first neighbor
attaining the minimum.  The theorem relates them to the fold-based code
definitions. -/

/-- The faces of u that also contain v: the wings of edge (u, v). -/

def sideFacesOf (s : VF Pos Nrm) (uid vid : Nat) : List Nat :=
  (s.vtx uid).faces.filter (fun fid => decide ((s.fc fid).hasVertex vid))

/-- The spec's per-face curvature term
min(1, (1 - max(dot(f.normal, w1.normal), dot(f.normal, w2.normal))) / 2). -/

def curvatureTerm (g : Geom Pos Nrm) (s : VF Pos Nrm) (fid w1 w2 : Nat) : ℚ :=
  min 1 ((1 - max (g.dot (s.fc fid).normal (s.fc w1).normal)
                  (g.dot (s.fc fid).normal (s.fc w2).normal)) / 2)

/-! ## The well-formedness core and its transport lemmas

The collapse-neighbor cache invariant CnOk is intentionally split off: a
collapse iteration temporarily breaks it for the former neighbors of the
collapsed vertex and repairs it in the re-insertion loop, while the
remaining structural invariants hold at every operation boundary. -/

/-- Everything of WF except the collapse-neighbor cache invariant. -/

structure WFcore (s : VF Pos Nrm) : Prop where
  ndV : s.arrVertices.Nodup
  ndF : s.arrFaces.Nodup
  idx : IndexOk s
  perm : s.arrVerticesByCost.Perm (List.range s.arrVertices.length)
  face : FaceOk s
  flists : FacesListOk s
  nbr : NbrOk s
  fnbr : FaceNbrOk s

/-- FaceNbrOk for every live face except one distinguished id (used while
the rewritten face's new neighbor relations are being re-derived). -/

def FaceNbrOkExcept (s : VF Pos Nrm) (f0 : Nat) : Prop :=
  ∀ fid ∈ s.arrFaces, fid ≠ f0 →
    ∀ a ∈ fverts (s.fc fid), ∀ b ∈ fverts (s.fc fid), a ≠ b → b ∈ (s.vtx a).neighbors

/-- t differs from s only in the vertices' neighbor lists. -/

def NbrOnly (s t : VF Pos Nrm) : Prop :=
  t.arrVertices = s.arrVertices ∧ t.arrFaces = s.arrFaces ∧
  t.arrVerticesByCost = s.arrVerticesByCost ∧ t.fc = s.fc ∧
  ∀ w, ∃ nb, t.vtx w = { s.vtx w with neighbors := nb }

/-- The WFcore fields that do not mention the neighbor relation; during a
face rewrite the neighbor cover of the touched face is transiently broken
while these survive throughout. -/

structure WFpre (s : VF Pos Nrm) : Prop where
  ndV : s.arrVertices.Nodup
  ndF : s.arrFaces.Nodup
  idx : IndexOk s
  perm : s.arrVerticesByCost.Perm (List.range s.arrVertices.length)
  face : FaceOk s
  flists : FacesListOk s

/-! ## The path-search processes (SearchProcess)

Points and vectors are three.js objects; they enter the model through an
abstract geometry dictionary, while face connectivity, degrees, and the
collected paths are modeled exactly. Faces live in an arena indexed by
their position in the faces array; the mutable degree counters form an
explicit map in the search state. -/

/-- The vector operations of three.js used by the search process. -/

structure PGeom (Pt Vec : Type) where
  sub : Pt → Pt → Vec
  dotv : Vec → Vec → ℚ
  normalize : Vec → Vec
  vlen : Vec → ℚ
  smul : ℚ → Pt → Pt
  padd : Pt → Pt → Pt
  dist2 : Pt → Pt → ℚ

/-- A face as seen by the search: geometric data, neighbor indices into the
faces array, and the populate-time hash. -/

structure SFc (Pt Vec : Type) where
  center : Pt
  normal : Vec
  pv1 : Pt
  pv2 : Pt
  pv3 : Pt
  neighbors : List Nat
  shash : String

/-- The faces array of one geometry data entry. -/

structure SMesh (Pt Vec : Type) where
  count : Nat
  fc : Nat → SFc Pt Vec

/-- Mutable search-process state: previousPoint, previousVector,
shortestEdge (none encodes Infinity) and the faces' degree counters. -/

structure SSt (Pt Vec : Type) where
  prevPoint : Option Pt
  prevVector : Option Vec
  shortestEdge : Option ℚ
  deg : Nat → Nat

/-- face.degree++ for the face stored at index i. -/

def bumpDeg (d : Nat → Nat) (i : Nat) : Nat → Nat :=
  fun j => if j = i then d i + 1 else d j

/-- resetPreviousPoint(). -/

def resetPrev (st : SSt Pt Vec) : SSt Pt Vec :=
  { st with prevPoint := none, prevVector := none }

/-- SearchProcess.getNextPoint(face). -/

def getNextPoint (g : PGeom Pt Vec) (f : SFc Pt Vec) (st : SSt Pt Vec) :
    Pt × SSt Pt Vec :=
  match st.prevPoint with
  | none => (f.center, { st with prevPoint := some f.center })
  | some prevPoint =>
    match st.prevVector with
    | none =>
      (f.center, { st with prevVector := some (g.sub f.center prevPoint),
                           prevPoint := some f.center })
    | some prevVector =>
      let ka := g.dotv (g.sub f.pv1 prevPoint) prevVector
      let kb := g.dotv (g.sub f.pv2 prevPoint) prevVector
      let kc := g.dotv (g.sub f.pv3 prevPoint) prevVector
      let newPoint :=
        if 0 < min ka (min kb kc) then
          let sum := ka + kb + kc
          g.padd (g.padd (g.smul (ka / sum) f.pv1) (g.smul (kb / sum) f.pv2))
            (g.smul (kc / sum) f.pv3)
        else if kb < ka ∧ kc < ka then g.smul (1/2 : ℚ) (g.padd f.pv1 f.center)
        else if kc < kb then g.smul (1/2 : ℚ) (g.padd f.pv2 f.center)
        else g.smul (1/2 : ℚ) (g.padd f.pv3 f.center)
      let newVec := g.sub newPoint prevPoint
      let distance := g.vlen newVec
      let se := match st.shortestEdge with
        | none => some distance
        | some se => if distance < se then some distance else some se
      (newPoint, { st with prevVector := some newVec, prevPoint := some newPoint,
                           shortestEdge := se })

/-- The candidate scan of getNearestNeighbor when previousVector is null:
strictly improving normal-alignment cost starting from 0. -/

def nnScanNoVecStep (g : PGeom Pt Vec) (m : SMesh Pt Vec) (d : Nat → Nat)
    (fnormal : Vec) (acc : Option Nat × ℚ) (nb : Nat) : Option Nat × ℚ :=
  if d nb < 1 then
    let ncost := g.dotv fnormal (m.fc nb).normal
    if acc.2 < ncost then (some nb, ncost) else acc
  else acc

def nnScanNoVec (g : PGeom Pt Vec) (m : SMesh Pt Vec) (d : Nat → Nat)
    (fnormal : Vec) (ns : List Nat) : Option Nat × ℚ :=
  ns.foldl (nnScanNoVecStep g m d fnormal) (none, 0)

/-- The candidate scan of getNearestNeighbor when previousVector exists:
the cost threshold is re-initialised to 1 for every neighbor, so the last
degree-0 neighbor with cost below 1 wins. -/

def nnScanVecStep (g : PGeom Pt Vec) (m : SMesh Pt Vec) (d : Nat → Nat)
    (fcenter : Pt) (pv : Vec) (acc : Option Nat) (nb : Nat) : Option Nat :=
  if d nb < 1 then
    let vec := g.normalize (g.sub (m.fc nb).center fcenter)
    let ncost := 1 - g.dotv pv vec
    if ncost < 1 then some nb else acc
  else acc

def nnScanVec (g : PGeom Pt Vec) (m : SMesh Pt Vec) (d : Nat → Nat)
    (fcenter : Pt) (pv : Vec) (ns : List Nat) : Option Nat :=
  ns.foldl (nnScanVecStep g m d fcenter pv) none

/-- SearchProcess.getNearestNeighbor(face): picks an unvisited neighbor by
the applicable cost rule and increments its degree. -/

def getNearestNeighbor (g : PGeom Pt Vec) (m : SMesh Pt Vec)
    (st : SSt Pt Vec) (fid : Nat) : Option Nat × SSt Pt Vec :=
  let f := m.fc fid
  if f.neighbors = [] then (none, st)
  else
    let best := match st.prevVector with
      | none => (nnScanNoVec g m st.deg f.normal f.neighbors).1
      | some pv => nnScanVec g m st.deg f.center (g.normalize pv) f.neighbors
    match best with
    | none => (none, st)
    | some nb => (some nb, { st with deg := bumpDeg st.deg nb })

/-- One directed walk of nearestNeighborSearch: visit the current face
(degree++, collect its point) and continue to the nearest unvisited
neighbor while one exists.  The fuel bounds the number of visits; none
reports exhaustion. -/

def nnWalkGo (g : PGeom Pt Vec) (m : SMesh Pt Vec) :
    Nat → Nat → SSt Pt Vec → Option (List Pt × SSt Pt Vec)
  | 0, _, _ => none
  | fuel + 1, fid, st =>
    let st1 := { st with deg := bumpDeg st.deg fid }
    let r := getNextPoint g (m.fc fid) st1
    match getNearestNeighbor g m r.2 fid with
    | (none, st3) => some ([r.1], st3)
    | (some nid, st3) =>
      match nnWalkGo g m fuel nid st3 with
      | none => none
      | some (pts, st4) => some (r.1 :: pts, st4)

/-- The getStartFace helper of nearestNeighborSearch: first face of the
array with degree 0. -/

def getStartFace (m : SMesh Pt Vec) (st : SSt Pt Vec) : Option Nat :=
  (List.range m.count).find? (fun i => st.deg i = 0)

/-- The outer selection loop of nearestNeighborSearch: run a forward walk
and a backward walk from the current start face, keep the combined path
when it has at least two points, and continue from the next unvisited
face. -/

def nnOuter (g : PGeom Pt Vec) (m : SMesh Pt Vec) :
    Nat → Option Nat → SSt Pt Vec → Nat → List (List Pt) →
    Option (List (List Pt) × SSt Pt Vec)
  | 0, _, _, _, _ => none
  | fuel + 1, cur, st, sc, paths =>
    match cur with
    | none => some (paths, st)
    | some fid =>
      if sc < m.count then
        match nnWalkGo g m (m.count + 1) fid (resetPrev st) with
        | none => none
        | some (fwdPts, st1) =>
          let r := getNextPoint g (m.fc fid) (resetPrev st1)
          match getNearestNeighbor g m r.2 fid with
          | (none, st3) =>
            let path := fwdPts
            let paths' := if 1 < path.length then paths ++ [path] else paths
            nnOuter g m fuel (getStartFace m st3) st3 (sc + fwdPts.length) paths'
          | (some nid, st3) =>
            match nnWalkGo g m (m.count + 1) nid st3 with
            | none => none
            | some (bwdPts, st4) =>
              let path := bwdPts.reverse ++ fwdPts
              let paths' := if 1 < path.length then paths ++ [path] else paths
              nnOuter g m fuel (getStartFace m st4) st4
                (sc + fwdPts.length + bwdPts.length) paths'
      else some (paths, st)

/-- SearchProcess.nearestNeighborSearch(data): fewer than two faces yields
no paths; otherwise the outer selection loop starts from face 0. -/

def nearestNeighborSearch (g : PGeom Pt Vec) (m : SMesh Pt Vec)
    (st : SSt Pt Vec) : Option (List (List Pt) × SSt Pt Vec) :=
  if m.count < 2 then some ([], st)
  else nnOuter g m (m.count + 2) (some 0) st 0 []

/-- SearchProcess.sequentialWalk(data): walk the faces array in order,
starting a new path whenever the current face is not connected to the
previous one, and keep only paths with more than one point. -/

def seqStep (g : PGeom Pt Vec) (m : SMesh Pt Vec)
    (acc : List (List Pt) × List Pt × Option Nat × SSt Pt Vec) (i : Nat) :
    List (List Pt) × List Pt × Option Nat × SSt Pt Vec :=
  let paths := acc.1
  let path := acc.2.1
  let prevFace := acc.2.2.1
  let st := acc.2.2.2
  let f := m.fc i
  match prevFace with
  | none =>
    let r := getNextPoint g f st
    (paths, path ++ [r.1], some i, r.2)
  | some pf =>
    if f.neighbors.any (fun nb => (m.fc nb).shash = (m.fc pf).shash) then
      let r := getNextPoint g f st
      (paths, path ++ [r.1], some i, r.2)
    else
      let paths' := if 1 < path.length then paths ++ [path] else paths
      let r := getNextPoint g f (resetPrev st)
      (paths', [r.1], some i, { r.2 with prevPoint := some r.1 })

def sequentialWalk (g : PGeom Pt Vec) (m : SMesh Pt Vec) (st0 : SSt Pt Vec) :
    List (List Pt) :=
  let r := (List.range m.count).foldl (seqStep g m) ([], [], none, resetPrev st0)
  if 1 < r.2.1.length then r.1 ++ [r.2.1] else r.1

/-- The getUnconnectedNeighbors helper of findPathFromFace: the degree-0
neighbors of the listed faces, de-duplicated in encounter order. -/

def getUnconnectedNeighbors (m : SMesh Pt Vec) (d : Nat → Nat)
    (searchNeighbors : List Nat) : List Nat :=
  searchNeighbors.foldl (fun acc fid =>
    (m.fc fid).neighbors.foldl (fun acc2 c =>
      if d c = 0 ∧ c ∉ acc2 then acc2 ++ [c] else acc2) acc) []

/-- The scan of removeNearestNeighbor: index of a strictly closest listed
neighbor that is also a direct neighbor of the current face. -/

def rnnScan (g : PGeom Pt Vec) (m : SMesh Pt Vec) (validArray : List Nat)
    (facePoint : Pt) (ns : List Nat) : Option (Nat × Nat × ℚ) :=
  (ns.enum.foldl (fun acc p =>
    if p.2 ∈ validArray then
      let d2 := g.dist2 facePoint (m.fc p.2).center
      match acc with
      | none => some (p.2, p.1, d2)
      | some best => if d2 < best.2.2 then some (p.2, p.1, d2) else acc
    else acc) none)

/-- The removeNearestNeighbor helper of findPathFromFace. -/

def removeNearestNeighbor (g : PGeom Pt Vec) (m : SMesh Pt Vec)
    (ns : List Nat) (fid : Nat) : Option Nat × List Nat :=
  match rnnScan g m (m.fc fid).neighbors (m.fc fid).center ns with
  | none => (none, ns)
  | some best => (some best.1, ns.eraseIdx best.2.1)

/-- The differenceArray helper: remove the first occurrence of every
member of B from A. -/

def differenceArray (A B : List Nat) : List Nat :=
  B.foldl (fun a b => a.erase b) A

/-- The inner neighbor-consuming loop of findPathFromFace; the fuel is the
length of the remaining candidate list plus one, which the loop cannot
exceed since every step removes a candidate or clears the list. -/

def fpInner (g : PGeom Pt Vec) (m : SMesh Pt Vec) :
    Nat → Nat → List Nat → List Nat → (Nat → Nat) → List Nat →
    (List Nat × Nat × List Nat × (Nat → Nat))
  | 0, cur, _, act, d, path => (path, cur, act, d)
  | fuel + 1, cur, cns, act, d, path =>
    if cns = [] then (path, cur, act, d)
    else
      match removeNearestNeighbor g m cns cur with
      | (some tf, cns') =>
        fpInner g m fuel tf cns' act (bumpDeg d tf) (path ++ [tf])
      | (none, _) => (path, cur, differenceArray act cns, d)

/-- The outer frontier loop of findPathFromFace. -/

def fpOuter (g : PGeom Pt Vec) (m : SMesh Pt Vec) :
    Nat → Nat → List Nat → (Nat → Nat) → List Nat →
    Option (List Nat × (Nat → Nat))
  | 0, _, _, _, _ => none
  | fuel + 1, cur, act, d, path =>
    if act = [] then some (path, d)
    else
      let cns := getUnconnectedNeighbors m d act
      let r := fpInner g m (cns.length + 1) cur cns cns d path
      fpOuter g m fuel r.2.1 r.2.2.1 r.2.2.2 r.1

/-- SearchProcess.findPathFromFace(startFace): greedy frontier expansion
collecting a face path; every face added to the path gets its degree
incremented. -/

def findPathFromFace (g : PGeom Pt Vec) (m : SMesh Pt Vec) (fuel : Nat)
    (startFid : Nat) (d : Nat → Nat) : Option (List Nat × (Nat → Nat)) :=
  fpOuter g m fuel startFid [startFid] (bumpDeg d startFid) [startFid]

/-- Threading getNextPoint over a face path (the point-collection loop of
WrappingPathSearch). -/

def collectPoints (g : PGeom Pt Vec) (m : SMesh Pt Vec) :
    List Nat → SSt Pt Vec → List Pt × SSt Pt Vec
  | [], st => ([], st)
  | fid :: rest, st =>
    let r := getNextPoint g (m.fc fid) st
    let r2 := collectPoints g m rest r.2
    (r.1 :: r2.1, r2.2)

/-- The ascending scan of getNextFace in WrappingPathSearch; the fuel is
the number of remaining array positions. -/

def wpGetNextGo (d : Nat → Nat) (n : Nat) : Nat → Nat → Option Nat
  | 0, _ => none
  | fuel + 1, k =>
    if k < n then (if d k = 0 then some k else wpGetNextGo d n fuel (k + 1))
    else none

/-- The getNextFace helper of WrappingPathSearch: first face at or after
the scan position with degree 0. -/

def wpGetNext (m : SMesh Pt Vec) (d : Nat → Nat) (startIdx : Nat) : Option Nat :=
  wpGetNextGo d m.count (m.count - startIdx) startIdx

/-- The outer loop of WrappingPathSearch. -/

def wpOuter (g : PGeom Pt Vec) (m : SMesh Pt Vec) (innerFuel : Nat) :
    Nat → Nat → SSt Pt Vec → List (List Pt) →
    Option (List (List Pt) × SSt Pt Vec)
  | 0, _, _, _ => none
  | fuel + 1, startIdx, st, paths =>
    match wpGetNext m st.deg startIdx with
    | none => some (paths, st)
    | some i =>
      match findPathFromFace g m innerFuel i st.deg with
      | none => none
      | some (facePath, d') =>
        let r := collectPoints g m facePath (resetPrev { st with deg := d' })
        wpOuter g m innerFuel fuel (i + 1) r.2 (paths ++ [r.1])

/-- SearchProcess.WrappingPathSearch(data). -/

def WrappingPathSearch (g : PGeom Pt Vec) (m : SMesh Pt Vec) (fuel : Nat)
    (st : SSt Pt Vec) : Option (List (List Pt) × SSt Pt Vec) :=
  wpOuter g m fuel (fuel + 1) 0 st []

/-! ## Degree bookkeeping of the search processes -/

/-- Number of faces of the array that have been visited at least once. -/

def zCount (m : SMesh Pt Vec) (d : Nat → Nat) : Nat :=
  (List.range m.count).countP (fun i => decide (1 ≤ d i))

/-- Trivial point geometry over a mesh of two mutually neighboring faces,
used to exercise the searches concretely. -/

def gUnitP : PGeom Unit Unit :=
  { sub := fun _ _ => (), dotv := fun _ _ => 0, normalize := fun v => v,
    vlen := fun _ => 0, smul := fun _ _ => (), padd := fun _ _ => (),
    dist2 := fun _ _ => 0 }

def wFace (ns : List Nat) (h : String) : SFc Unit Unit :=
  { center := (), normal := (), pv1 := (), pv2 := (), pv3 := (),
    neighbors := ns, shash := h }

def wMesh : SMesh Unit Unit :=
  { count := 2, fc := fun i => if i = 0 then wFace [1] "0,1,2" else wFace [0] "1,2,3" }

def stZero : SSt Unit Unit :=
  { prevPoint := none, prevVector := none, shortestEdge := none, deg := fun _ => 0 }

/-! ## The greedy search selection phase (Edge / EdgeCollection)

Edges of the face-dual graph carry the two face objects, the combined
hash built from the two face hashes, and a cost.  Face identity is hash
comparison (Triangle.equals); the mutable degree counters are an explicit
map keyed by the faces' array positions.  The edge registry and the
selected-edge collection are lists in arrEdgesByCost order; the lookup
table is kept consistent with the array by construction, so the list
carries both. -/

structure GFace where
  gid : Nat
  fh : String

structure GEdge where
  gf1 : GFace
  gf2 : GFace
  eh : String
  ecost : ℚ

/-- Number of selected edges incident to the face at position i
(face.degree under the degree-consistency invariant). -/

def degOfE (sel : List GEdge) (i : Nat) : Nat :=
  sel.countP (fun e => decide (e.gf1.gid = i ∨ e.gf2.gid = i))

/-- Edge.incrementFaceDegrees(). -/

def bumpEdgeDegrees (d : Nat → Nat) (e : GEdge) : Nat → Nat :=
  bumpDeg (bumpDeg d e.gf1.gid) e.gf2.gid

/-- EdgeCollection.add(edge): skip when an edge with the same hash is
already contained, otherwise insert at the position reported by the
binary search over the cost-sorted array. -/

def ecAdd (sel : List GEdge) (e : GEdge) : List GEdge :=
  if sel.any (fun e2 => e2.eh = e.eh) then sel
  else
    let low := bsGo (fun mid => (sel.getD mid e).ecost) e.ecost sel.length 0
      (sel.length - 1)
    sel.insertIdx low e

/-- JavaScript String.prototype.startsWith: the argument's character
sequence is a prefix of the receiver's. -/

def strStartsWith (s p : String) : Bool := p.data.isPrefixOf s.data

/-- JavaScript String.prototype.endsWith: the argument's character
sequence is a suffix of the receiver's. -/

def strEndsWith (s p : String) : Bool := p.data.isSuffixOf s.data

/-- EdgeCollection.getMatchingEdge(edgeToExclude, faceToMatch): first edge
of the cost-sorted array whose hash starts or ends with the face's hash
and that is not the excluded edge; the excluded edge of a null argument is
encoded by the empty string. -/

def getMatchingEdgeE (sel : List GEdge) (excludeHash fh : String) : Option GEdge :=
  sel.find? (fun c => decide ((strStartsWith c.eh fh ∨ strEndsWith c.eh fh)
    ∧ c.eh ≠ excludeHash))

/-- The chain walk of EdgeCollection.addIfNonLooping: follow matching
edges away from the target's second face; true means "no loop found, add
the target".  The fuel bounds the number of steps; the selection loop
always calls it with more fuel than the walk can consume, and an
exhausted walk conservatively reports a loop. -/

def aINLGo (d : Nat → Nat) (sel : List GEdge) (testFace : GFace) :
    Nat → String → GFace → Bool
  | 0, _, _ => false
  | fuel + 1, excludeHash, chainFace =>
    match getMatchingEdgeE sel excludeHash chainFace.fh with
    | none => true
    | some ce =>
      let nextFace := if ce.gf1.fh = chainFace.fh then ce.gf2 else ce.gf1
      if d nextFace.gid = 1 ∧ nextFace.fh ≠ testFace.fh then true
      else if nextFace.fh = testFace.fh then false
      else aINLGo d sel testFace fuel ce.eh nextFace

/-- EdgeCollection.addIfNonLooping(target). -/

def addIfNonLooping (d : Nat → Nat) (sel : List GEdge) (target : GEdge) :
    (Nat → Nat) × List GEdge :=
  if aINLGo d sel target.gf1 (sel.length + 1) target.eh target.gf2
  then (bumpEdgeDegrees d target, ecAdd sel target)
  else (d, sel)

/-- One iteration of the selection loop of greedySearch, for the edge
popped from the registry. -/

def selStep (st : (Nat → Nat) × List GEdge) (target : GEdge) :
    (Nat → Nat) × List GEdge :=
  if st.1 target.gf1.gid < 2 ∧ st.1 target.gf2.gid < 2 then
    if st.1 target.gf1.gid = 0 ∧ st.1 target.gf2.gid = 0 then
      (bumpEdgeDegrees st.1 target, ecAdd st.2 target)
    else addIfNonLooping st.1 st.2 target
  else st

/-- The whole selection loop: the registry pops its cost-sorted edges one
by one until empty, so the loop is a fold over the popped order. -/

def greedySelect (es : List GEdge) (d0 : Nat → Nat) : (Nat → Nat) × List GEdge :=
  es.foldl selStep (d0, [])

/-! ### Disjoint simple-path decompositions of the selected edges -/

/-- Consecutive pairs of a vertex list. -/

def chainPairs : List Nat → List (Nat × Nat)
  | a :: b :: rest => (a, b) :: chainPairs (b :: rest)
  | _ => []

/-- Order normalization of an unordered pair. -/

def pnorm (ab : Nat × Nat) : Nat × Nat := (min ab.1 ab.2, max ab.1 ab.2)

/-- The normalized face pair of an edge. -/

def enorm (e : GEdge) : Nat × Nat := pnorm (e.gf1.gid, e.gf2.gid)

/-- The selected edges form a disjoint union of simple paths: the listed
paths are simple and vertex-disjoint, and their consecutive pairs are
exactly the selected edges' face pairs. -/

def IsPathSet (sel : List GEdge) (paths : List (List Nat)) : Prop :=
  (∀ p ∈ paths, 2 ≤ p.length ∧ p.Nodup) ∧
  paths.Pairwise (fun p q => ∀ v ∈ p, v ∉ q) ∧
  (sel.map enorm).Perm ((paths.map chainPairs).join.map pnorm)

/-- Membership of a face index in an index pair. -/

def compMem (v : Nat) (ab : Nat × Nat) : Prop := v = ab.1 ∨ v = ab.2

instance compMemDec (v : Nat) (ab : Nat × Nat) : Decidable (compMem v ab) := by
  unfold compMem; infer_instance

/-- The face belongs to one of the registry's edges. -/

def EsFaceOf (es : List GEdge) (k : GFace) : Prop :=
  ∃ e ∈ es, k = e.gf1 ∨ k = e.gf2

/-- Hash matching between an edge and a face is exact: the prefix/suffix
test of getMatchingEdge succeeds exactly when the face hash is one of the
edge's two face hashes.  The combined edge hash always contains each face
hash at one of its ends, so the right-to-left direction always holds in
the source; the converse rules out accidental prefix collisions between
distinct face hashes. -/

def CleanPair (e : GEdge) (k : GFace) : Prop :=
  (strStartsWith e.eh k.fh = true ∨ strEndsWith e.eh k.fh = true) ↔
    (e.gf1.fh = k.fh ∨ e.gf2.fh = k.fh)

/-- Hash matching is clean for every registry edge against every registry
face. -/

def CleanHashes (es : List GEdge) : Prop :=
  ∀ e ∈ es, ∀ f ∈ es, CleanPair e f.gf1 ∧ CleanPair e f.gf2

/-- Two faces agree on their hash exactly when they are the same face of
the arrFaces array (Triangle.equals is hash comparison). -/

def HashInjPair (k l : GFace) : Prop := k.fh = l.fh ↔ k.gid = l.gid

/-- Face hashes identify faces across the whole registry. -/

def FaceHashInj (es : List GEdge) : Prop :=
  ∀ e ∈ es, ∀ f ∈ es,
    HashInjPair e.gf1 f.gf1 ∧ HashInjPair e.gf1 f.gf2 ∧
    HashInjPair e.gf2 f.gf1 ∧ HashInjPair e.gf2 f.gf2

/-- The invariant of the selection loop after processing the popped edges
in done: the degree counters agree with the incidence counts over the
selected edges, every selected edge is a processed registry edge, the
selected hashes are distinct, and the selected edges decompose into
disjoint simple paths. -/

def SelectionInv (es done : List GEdge) (st : (Nat → Nat) × List GEdge) : Prop :=
  (∀ i, st.1 i = degOfE st.2 i) ∧
  (∀ e ∈ st.2, e ∈ es ∧ e.eh ∈ done.map (fun x => x.eh)) ∧
  (st.2.map (fun e => e.eh)).Nodup ∧
  (∃ paths, IsPathSet st.2 paths)

/-! ### Hypothesis packages are decidable, and a concrete registry -/

instance decCleanPair (e : GEdge) (k : GFace) : Decidable (CleanPair e k) := by
  unfold CleanPair
  infer_instance

instance decCleanHashes (es : List GEdge) : Decidable (CleanHashes es) := by
  unfold CleanHashes
  infer_instance

instance decHashInjPair (k l : GFace) : Decidable (HashInjPair k l) := by
  unfold HashInjPair
  infer_instance

instance decFaceHashInj (es : List GEdge) : Decidable (FaceHashInj es) := by
  unfold FaceHashInj
  infer_instance

def wgEs : List GEdge :=
  [⟨⟨0, "a"⟩, ⟨1, "b"⟩, "a-b", 0⟩,
   ⟨⟨1, "b"⟩, ⟨2, "c"⟩, "b-c", 1⟩,
   ⟨⟨0, "a"⟩, ⟨2, "c"⟩, "a-c", 2⟩]

/-- C9: the Curve Builder's sampling interval equals
min(0.0012, max(0.001, shortestEdge / 2)); whenever the target pointCount
exceeds 2 and totalLength / interval exceeds 3 * pointCount the interval is
replaced by totalLength / (3 * pointCount); and the interval finally used
satisfies totalLength / interval ≤ 3 * pointCount whenever pointCount > 2. -/

theorem curve_sampling_interval {Pos : Type} (dist : Pos → Pos → ℚ)
    (paths : List (List Pos)) (shortestEdge pointCount : ℚ) (hc : 2 < pointCount) :
    pointIntervalInitial shortestEdge
        = min (12/10000 : ℚ) (max (1/1000 : ℚ) (shortestEdge / 2)) ∧
    (3 * pointCount < totalLengthOf dist paths / pointIntervalInitial shortestEdge →
      pointIntervalUsed shortestEdge (totalLengthOf dist paths) pointCount =
        totalLengthOf dist paths / (3 * pointCount)) ∧
    totalLengthOf dist paths / pointIntervalUsed shortestEdge (totalLengthOf dist paths) pointCount
      ≤ 3 * pointCount := by
  have hipos : 0 < pointIntervalInitial shortestEdge := by
    unfold pointIntervalInitial
    have h1 : (0:ℚ) < 12/10000 := by norm_num
    have h2 : (0:ℚ) < max (1/1000 : ℚ) (shortestEdge / 2) :=
      lt_of_lt_of_le (by norm_num) (le_max_left _ _)
    exact lt_min h1 h2
  refine ⟨rfl, ?_, ?_⟩
  · intro h
    unfold pointIntervalUsed
    rw [if_pos ⟨hc, h⟩]
  · set L := totalLengthOf dist paths with hL
    unfold pointIntervalUsed
    split_ifs with h
    · obtain ⟨-, h3⟩ := h
      have hcpos : (0:ℚ) < 3 * pointCount := by linarith
      have hLpos : 0 < L := by
        by_contra hneg
        push_neg at hneg
        have : L / pointIntervalInitial shortestEdge ≤ 0 :=
          div_nonpos_of_nonpos_of_nonneg hneg (le_of_lt hipos)
        linarith
      have : L / (L / (3 * pointCount)) = 3 * pointCount := by
        rw [div_div_eq_mul_div, mul_comm, mul_div_assoc, div_self (ne_of_gt hLpos), mul_one]
      rw [this]
    · push_neg at h
      exact h hc

/-- C9 witness: the hypothesis pointCount > 2 holds at pointCount = 3, and
the theorem yields the sample-count bound there. -/

theorem curve_sampling_interval_witness :
    (2:ℚ) < 3 ∧
    totalLengthOf (fun (_ _ : Unit) => 0) []
        / pointIntervalUsed 0 (totalLengthOf (fun (_ _ : Unit) => 0) []) 3 ≤ 3 * 3 :=
  ⟨by norm_num, (curve_sampling_interval (fun (_ _ : Unit) => 0) [] 0 3 (by norm_num)).2.2⟩

/-! ## The cost-sorted index array: the binary search cannot reach the
final slot (claim C3) and face hashes stay stale after collapse (claim
C5).

Batteries marks the rational arithmetic operations irreducible, which
blocks elaboration-time evaluation of concrete states; they are restored
to their ordinary reducibility for the concrete evaluations below. -/

section ConcreteEvaluation

attribute [local semireducible] Rat.add Rat.sub Rat.mul Rat.inv

/-- C3 evidence: the binary-search insertion starts with high = length - 1
and therefore cannot insert past the last occupied slot.  Adding a vertex
whose cost exceeds every stored cost leaves arrVerticesByCost unsorted, and
a collapse step whose re-inserted vertex has a new largest cost puts that
vertex at the head of the array even though its cost is not minimal. -/
theorem byCost_sorted_invariant_fails :
    (SortedByCost sAddDemo ∧
      (addVertex sAddDemo 2 vNewDemo).arrVerticesByCost = [0, 2, 1] ∧
      ¬ SortedByCost (addVertex sAddDemo 2 vNewDemo)) ∧
    (WF sStepDemo ∧ SortedByCost sStepDemo ∧
      ¬ SortedByCost (collapseStep gLine sStepDemo) ∧
      (collapseStep gLine sStepDemo).arrVerticesByCost = [0, 1] ∧
      costAt (collapseStep gLine sStepDemo) 1 < costAt (collapseStep gLine sStepDemo) 0) := by
  decide

/-- C5 evidence: collapse ends by reading the computeFaceHashes property
without calling it, so after collapse(1) on the two-triangle strip the
surviving face still carries its pre-collapse hash "1,2,3" even though its
vertices' renumbered indices now hash to "0,1,2"; an actual call to
computeFaceHashes would repair it. -/
theorem face_hash_stale_after_collapse :
    WF sStrip ∧
    (∀ fid ∈ sStrip.arrFaces, (sStrip.fc fid).hash = computeHash sStrip fid) ∧
    (collapse gUnit sStrip 1).arrFaces = [1] ∧
    ((collapse gUnit sStrip 1).fc 1).hash = "1,2,3" ∧
    computeHash (collapse gUnit sStrip 1) 1 = "0,1,2" ∧
    ((collapse gUnit sStrip 1).fc 1).hash ≠ computeHash (collapse gUnit sStrip 1) 1 ∧
    ((computeFaceHashes (collapse gUnit sStrip 1)).fc 1).hash
      = computeHash (collapse gUnit sStrip 1) 1 := by
  exact ⟨by decide, by decide, rfl, rfl, rfl, by decide, rfl⟩

end ConcreteEvaluation

lemma foldl_max_bounds (l : List ℚ) (a : ℚ) :
    a ≤ l.foldl max a ∧ ∀ t ∈ l, t ≤ l.foldl max a := by
  induction l generalizing a with
  | nil => exact ⟨le_refl a, by simp⟩
  | cons x l ih =>
    obtain ⟨h1, h2⟩ := ih (max a x)
    refine ⟨le_trans (le_max_left a x) h1, ?_⟩
    intro t ht
    rcases List.mem_cons.mp ht with rfl | ht
    · exact le_trans (le_max_right a t) h1
    · exact h2 t ht

lemma foldl_max_mem (l : List ℚ) (a : ℚ) :
    l.foldl max a = a ∨ l.foldl max a ∈ l := by
  induction l generalizing a with
  | nil => exact Or.inl rfl
  | cons x l ih =>
    rcases ih (max a x) with h | h
    · rcases max_choice a x with hm | hm
      · exact Or.inl (by rw [List.foldl_cons, h, hm])
      · exact Or.inr (by rw [List.foldl_cons, h, hm]; exact List.mem_cons_self _ _)
    · exact Or.inr (List.mem_cons_of_mem _ h)

lemma costFold_some (g : Geom Pos Nrm) (s : VF Pos Nrm) (vid : Nat) (l : List Nat) :
    ∀ (m : Nat) (tc : ℚ),
      (l.foldl (costFoldStep g s vid) (some m, computeEdgeCollapseCost g s vid m, tc)).2.2
          = tc + (l.map (computeEdgeCollapseCost g s vid)).sum ∧
      ∃ n, (l.foldl (costFoldStep g s vid) (some m, computeEdgeCollapseCost g s vid m, tc)).1
              = some n ∧
        (l.foldl (costFoldStep g s vid) (some m, computeEdgeCollapseCost g s vid m, tc)).2.1
              = computeEdgeCollapseCost g s vid n ∧
        ((n = m ∧ ∀ x ∈ l, computeEdgeCollapseCost g s vid m ≤ computeEdgeCollapseCost g s vid x) ∨
         (∃ l1 l2, l = l1 ++ n :: l2 ∧
            computeEdgeCollapseCost g s vid n < computeEdgeCollapseCost g s vid m ∧
            (∀ x ∈ l1, computeEdgeCollapseCost g s vid n < computeEdgeCollapseCost g s vid x) ∧
            (∀ x ∈ l, computeEdgeCollapseCost g s vid n ≤ computeEdgeCollapseCost g s vid x))) := by
  induction l with
  | nil =>
    intro m tc
    exact ⟨by simp, m, rfl, rfl, Or.inl ⟨rfl, by simp⟩⟩
  | cons x l ih =>
    intro m tc
    by_cases hx :
        computeEdgeCollapseCost g s vid x < computeEdgeCollapseCost g s vid m
    · have hstep : costFoldStep g s vid
          (some m, computeEdgeCollapseCost g s vid m, tc) x
          = (some x, computeEdgeCollapseCost g s vid x,
              tc + computeEdgeCollapseCost g s vid x) := by
        simp [costFoldStep, hx]
      obtain ⟨hsum, n, hn1, hn2, hn3⟩ := ih x (tc + computeEdgeCollapseCost g s vid x)
      rw [List.foldl_cons, hstep]
      refine ⟨by rw [hsum]; simp; ring, n, hn1, hn2, Or.inr ?_⟩
      rcases hn3 with ⟨rfl, hall⟩ | ⟨l1, l2, hsplit, hlt, hl1, hall⟩
      · exact ⟨[], l, by simp, hx, by simp, by
          intro y hy
          rcases List.mem_cons.mp hy with rfl | hy
          · exact le_refl _
          · exact hall y hy⟩
      · refine ⟨x :: l1, l2, by rw [hsplit]; simp, lt_trans hlt hx, ?_, ?_⟩
        · intro y hy
          rcases List.mem_cons.mp hy with rfl | hy
          · exact hlt
          · exact hl1 y hy
        · intro y hy
          rcases List.mem_cons.mp hy with rfl | hy
          · exact le_of_lt hlt
          · exact hall y hy
    · have hstep : costFoldStep g s vid
          (some m, computeEdgeCollapseCost g s vid m, tc) x
          = (some m, computeEdgeCollapseCost g s vid m,
              tc + computeEdgeCollapseCost g s vid x) := by
        simp [costFoldStep, hx]
      obtain ⟨hsum, n, hn1, hn2, hn3⟩ := ih m (tc + computeEdgeCollapseCost g s vid x)
      rw [List.foldl_cons, hstep]
      refine ⟨by rw [hsum]; simp; ring, n, hn1, hn2, ?_⟩
      push_neg at hx
      rcases hn3 with ⟨rfl, hall⟩ | ⟨l1, l2, hsplit, hlt, hl1, hall⟩
      · refine Or.inl ⟨rfl, ?_⟩
        intro y hy
        rcases List.mem_cons.mp hy with rfl | hy
        · exact hx
        · exact hall y hy
      · refine Or.inr ⟨x :: l1, l2, by rw [hsplit]; simp, hlt, ?_, ?_⟩
        · intro y hy
          rcases List.mem_cons.mp hy with rfl | hy
          · exact lt_of_lt_of_le hlt hx
          · exact hl1 y hy
        · intro y hy
          rcases List.mem_cons.mp hy with rfl | hy
          · exact le_trans (le_of_lt hlt) hx
          · exact hall y hy

/-- C4: computeEdgeCollapseCost(u, v) returns edge length times curvature,
where curvature is 1 when the number of faces of u containing v is not
exactly two, and otherwise is the maximum over u's faces of the wing
curvature term min(1, (1 - max(dot, dot)) / 2); and
computeEdgeCostAtVertex(v) stores the mean of the neighbor edge costs as
v's collapseCost and caches the first neighbor (in list order) attaining
the minimum cost as v's collapseNeighbor. -/

theorem edge_cost_formulas (g : Geom Pos Nrm) (s : VF Pos Nrm) (uid vid wid : Nat)
    (hsym : ∀ a b, g.distanceTo a b = g.distanceTo b a) :
    ((sideFacesOf s uid vid).length ≠ 2 →
      computeEdgeCollapseCost g s uid vid
        = g.distanceTo (s.vtx uid).position (s.vtx vid).position * 1) ∧
    (∀ w1 w2, sideFacesOf s uid vid = [w1, w2] →
      (∀ fid ∈ (s.vtx uid).faces, 0 ≤ curvatureTerm g s fid w1 w2) →
      ∃ m, computeEdgeCollapseCost g s uid vid
              = g.distanceTo (s.vtx uid).position (s.vtx vid).position * m ∧
        m ∈ (s.vtx uid).faces.map (fun fid => curvatureTerm g s fid w1 w2) ∧
        ∀ t ∈ (s.vtx uid).faces.map (fun fid => curvatureTerm g s fid w1 w2), t ≤ m) ∧
    ((s.vtx wid).neighbors ≠ [] →
      ((computeEdgeCostAtVertex g s wid).vtx wid).collapseCost
          = ((s.vtx wid).neighbors.map (fun n => computeEdgeCollapseCost g s wid n)).sum
              / ((s.vtx wid).neighbors.length : ℚ) ∧
      ∃ n l1 l2, ((computeEdgeCostAtVertex g s wid).vtx wid).collapseNeighbor = some n ∧
        (s.vtx wid).neighbors = l1 ++ n :: l2 ∧
        (∀ x ∈ l1, computeEdgeCollapseCost g s wid n < computeEdgeCollapseCost g s wid x) ∧
        (∀ x ∈ (s.vtx wid).neighbors,
          computeEdgeCollapseCost g s wid n ≤ computeEdgeCollapseCost g s wid x)) := by
  refine ⟨?_, ?_, ?_⟩
  · intro h
    unfold sideFacesOf at h
    unfold computeEdgeCollapseCost
    dsimp only
    rw [if_neg h, hsym]
  · intro w1 w2 hsplit hnn
    have hw1 : w1 ∈ (s.vtx uid).faces := by
      have : w1 ∈ sideFacesOf s uid vid := by rw [hsplit]; simp
      exact List.mem_of_mem_filter this
    have hlen : (sideFacesOf s uid vid).length = 2 := by rw [hsplit]; rfl
    unfold sideFacesOf at hsplit hlen
    refine ⟨((s.vtx uid).faces.map (fun fid => curvatureTerm g s fid w1 w2)).foldl max 0,
      ?_, ?_, ?_⟩
    · unfold computeEdgeCollapseCost
      dsimp only
      rw [if_pos hlen, hsym, hsplit]
      rw [List.foldl_map]
      rfl
    · rcases foldl_max_mem
        ((s.vtx uid).faces.map (fun fid => curvatureTerm g s fid w1 w2)) 0 with h0 | hmem
      · have hterm : curvatureTerm g s w1 w1 w2
            ∈ (s.vtx uid).faces.map (fun fid => curvatureTerm g s fid w1 w2) :=
          List.mem_map_of_mem _ hw1
        have hle := (foldl_max_bounds
          ((s.vtx uid).faces.map (fun fid => curvatureTerm g s fid w1 w2)) 0).2 _ hterm
        have hge : 0 ≤ curvatureTerm g s w1 w1 w2 := hnn w1 hw1
        rw [h0] at hle
        have : curvatureTerm g s w1 w1 w2 = 0 := le_antisymm hle hge
        rw [h0, ← this]
        exact hterm
      · exact hmem
    · exact (foldl_max_bounds _ 0).2
  · intro hnb
    obtain ⟨h, rest, hcons⟩ := List.exists_cons_of_ne_nil hnb
    have hfold : (s.vtx wid).neighbors.foldl (costFoldStep g s wid)
        (none, (s.vtx wid).minCost, (s.vtx wid).totalCost)
        = rest.foldl (costFoldStep g s wid)
            (some h, computeEdgeCollapseCost g s wid h, computeEdgeCollapseCost g s wid h) := by
      rw [hcons, List.foldl_cons]
      rfl
    obtain ⟨hsum, n, hn1, hn2, hn3⟩ := costFold_some g s wid rest h
      (computeEdgeCollapseCost g s wid h)
    have hres : computeEdgeCostAtVertex g s wid
        = setVtx s wid { s.vtx wid with
            collapseNeighbor := (rest.foldl (costFoldStep g s wid)
              (some h, computeEdgeCollapseCost g s wid h,
                computeEdgeCollapseCost g s wid h)).1,
            minCost := (rest.foldl (costFoldStep g s wid)
              (some h, computeEdgeCollapseCost g s wid h,
                computeEdgeCollapseCost g s wid h)).2.1,
            totalCost := (rest.foldl (costFoldStep g s wid)
              (some h, computeEdgeCollapseCost g s wid h,
                computeEdgeCollapseCost g s wid h)).2.2,
            collapseCost := (rest.foldl (costFoldStep g s wid)
              (some h, computeEdgeCollapseCost g s wid h,
                computeEdgeCollapseCost g s wid h)).2.2
              / ((s.vtx wid).neighbors.length : ℚ) } := by
      unfold computeEdgeCostAtVertex
      dsimp only
      rw [if_neg hnb, hfold]
    constructor
    · rw [hres]
      simp only [setVtx, if_true]
      rw [hsum, hcons]
      simp
    · have hcn : ((computeEdgeCostAtVertex g s wid).vtx wid).collapseNeighbor = some n := by
        rw [hres]
        simp only [setVtx, if_true]
        exact hn1
      rcases hn3 with ⟨rfl, hall⟩ | ⟨l1, l2, hsplit2, hlt, hl1, hall⟩
      · refine ⟨n, [], rest, hcn, by rw [hcons]; rfl, by simp, ?_⟩
        intro x hx
        rw [hcons] at hx
        rcases List.mem_cons.mp hx with rfl | hx
        · exact le_refl _
        · exact hall x hx
      · refine ⟨n, h :: l1, l2, hcn, by rw [hcons, hsplit2]; rfl, ?_, ?_⟩
        · intro x hx
          rcases List.mem_cons.mp hx with rfl | hx
          · exact hlt
          · exact hl1 x hx
        · intro x hx
          rw [hcons] at hx
          rcases List.mem_cons.mp hx with rfl | hx
          · exact le_of_lt hlt
          · exact hall x hx

/-- C4 witness: on the two-triangle strip with trivial geometry the
distance is symmetric, so the cost formulas apply at vertices 0 and 1. -/

theorem edge_cost_formulas_witness :
    ((sideFacesOf sStrip 0 1).length ≠ 2 →
      computeEdgeCollapseCost gUnit sStrip 0 1
        = gUnit.distanceTo (sStrip.vtx 0).position (sStrip.vtx 1).position * 1) ∧
    (∀ w1 w2, sideFacesOf sStrip 0 1 = [w1, w2] →
      (∀ fid ∈ (sStrip.vtx 0).faces, 0 ≤ curvatureTerm gUnit sStrip fid w1 w2) →
      ∃ m, computeEdgeCollapseCost gUnit sStrip 0 1
              = gUnit.distanceTo (sStrip.vtx 0).position (sStrip.vtx 1).position * m ∧
        m ∈ (sStrip.vtx 0).faces.map (fun fid => curvatureTerm gUnit sStrip fid w1 w2) ∧
        ∀ t ∈ (sStrip.vtx 0).faces.map (fun fid => curvatureTerm gUnit sStrip fid w1 w2),
          t ≤ m) ∧
    ((sStrip.vtx 1).neighbors ≠ [] →
      ((computeEdgeCostAtVertex gUnit sStrip 1).vtx 1).collapseCost
          = ((sStrip.vtx 1).neighbors.map
                (fun n => computeEdgeCollapseCost gUnit sStrip 1 n)).sum
              / ((sStrip.vtx 1).neighbors.length : ℚ) ∧
      ∃ n l1 l2, ((computeEdgeCostAtVertex gUnit sStrip 1).vtx 1).collapseNeighbor = some n ∧
        (sStrip.vtx 1).neighbors = l1 ++ n :: l2 ∧
        (∀ x ∈ l1, computeEdgeCollapseCost gUnit sStrip 1 n
            < computeEdgeCollapseCost gUnit sStrip 1 x) ∧
        (∀ x ∈ (sStrip.vtx 1).neighbors,
          computeEdgeCollapseCost gUnit sStrip 1 n
            ≤ computeEdgeCollapseCost gUnit sStrip 1 x)) :=
  edge_cost_formulas gUnit sStrip 0 1 1 (fun _ _ => rfl)

/-! ## Projection and frame lemmas for the state operations -/

@[simp] lemma setVtx_vtx (s : VF Pos Nrm) (i : Nat) (v : Vtx Pos) (j : Nat) :
    (setVtx s i v).vtx j = if j = i then v else s.vtx j := rfl

@[simp] lemma setVtx_fc (s : VF Pos Nrm) (i : Nat) (v : Vtx Pos) :
    (setVtx s i v).fc = s.fc := rfl

@[simp] lemma setVtx_arrVertices (s : VF Pos Nrm) (i : Nat) (v : Vtx Pos) :
    (setVtx s i v).arrVertices = s.arrVertices := rfl

@[simp] lemma setVtx_arrFaces (s : VF Pos Nrm) (i : Nat) (v : Vtx Pos) :
    (setVtx s i v).arrFaces = s.arrFaces := rfl

@[simp] lemma setVtx_arrVerticesByCost (s : VF Pos Nrm) (i : Nat) (v : Vtx Pos) :
    (setVtx s i v).arrVerticesByCost = s.arrVerticesByCost := rfl

@[simp] lemma setFc_fc (s : VF Pos Nrm) (i : Nat) (f : Fc Pos Nrm) (j : Nat) :
    (setFc s i f).fc j = if j = i then f else s.fc j := rfl

@[simp] lemma setFc_vtx (s : VF Pos Nrm) (i : Nat) (f : Fc Pos Nrm) :
    (setFc s i f).vtx = s.vtx := rfl

@[simp] lemma setFc_arrVertices (s : VF Pos Nrm) (i : Nat) (f : Fc Pos Nrm) :
    (setFc s i f).arrVertices = s.arrVertices := rfl

@[simp] lemma setFc_arrFaces (s : VF Pos Nrm) (i : Nat) (f : Fc Pos Nrm) :
    (setFc s i f).arrFaces = s.arrFaces := rfl

@[simp] lemma setFc_arrVerticesByCost (s : VF Pos Nrm) (i : Nat) (f : Fc Pos Nrm) :
    (setFc s i f).arrVerticesByCost = s.arrVerticesByCost := rfl

/-! ## List helper lemmas -/

lemma nodup_erase_eq_eraseIdx {l : List Nat} {i : Nat} {a : Nat}
    (hnd : l.Nodup) (hget : l.get? i = some a) : l.erase a = l.eraseIdx i := by
  induction l generalizing i with
  | nil => rw [List.get?_nil] at hget; exact absurd hget (by simp)
  | cons x l ih =>
    cases i with
    | zero =>
      rw [List.get?_cons_zero] at hget
      obtain rfl : x = a := Option.some.inj hget
      simp [List.erase_cons]
    | succ i =>
      rw [List.get?_cons_succ] at hget
      have hx : x ≠ a := by
        intro h
        subst h
        exact (List.nodup_cons.mp hnd).1 (List.get?_mem hget)
      rw [List.erase_cons_tail, List.eraseIdx_cons_succ]
      · rw [ih (List.nodup_cons.mp hnd).2 hget]
      · simp [hx]

lemma drop_eraseIdx_same {α : Type} (l : List α) (i : Nat) :
    (l.eraseIdx i).drop i = l.drop (i + 1) := by
  induction l generalizing i with
  | nil => simp
  | cons x l ih =>
    cases i with
    | zero => simp
    | succ i => simpa using ih i

lemma drop_eq_cons_of_get? {α : Type} {l : List α} {i : Nat} {a : α}
    (hget : l.get? i = some a) : l.drop i = a :: l.drop (i + 1) := by
  induction l generalizing i with
  | nil => simp at hget
  | cons x l ih =>
    cases i with
    | zero => simp_all
    | succ i => simpa using ih hget

lemma range_erase_map_dec {n i : Nat} (h : i < n) :
    ((List.range n).erase i).map (fun j => if i < j then j - 1 else j)
      = List.range (n - 1) := by
  induction n with
  | zero => omega
  | succ n ih =>
    rcases Nat.lt_or_ge i n with hi | hi
    · rw [List.range_succ, List.erase_append_left _ (List.mem_range.mpr hi),
        List.map_append, ih hi]
      have hn1 : 1 ≤ n := Nat.one_le_iff_ne_zero.mpr (by omega)
      have : (if i < n then n - 1 else n) = n - 1 := if_pos (by omega)
      simp only [List.map_cons, List.map_nil, this]
      have : List.range (n - 1) ++ [n - 1] = List.range (n - 1 + 1) := by
        rw [List.range_succ]
      rw [this]
      congr 1
      omega
    · have hin : i = n := by omega
      subst hin
      rw [List.range_succ, List.erase_append_right _ (by simp), List.map_append]
      simp only [List.erase_cons_head, List.append_nil, Nat.succ_sub_one]
      have hmap : (List.range i).map (fun j => if i < j then j - 1 else j)
          = (List.range i).map id := by
        apply List.map_congr_left
        intro j hj
        simp only [List.mem_range] at hj
        simp only [id_eq]
        exact if_neg (by omega)
      rw [hmap, List.map_id]
      simp

lemma insertClamped_perm (l : List Nat) (i x : Nat) :
    (insertClamped l i x).Perm (x :: l) := by
  unfold insertClamped
  split_ifs with h
  · exact l.perm_insertIdx x h
  · exact List.perm_append_singleton x l

lemma WF_iff (s : VF Pos Nrm) :
    WF s ↔ WFcore s ∧ ∀ vid ∈ s.arrVertices, CnOk s vid := by
  unfold WF
  constructor
  · rintro ⟨h1, h2, h3, h4, h5, h6, h7, h8, h9⟩
    exact ⟨⟨h1, h2, h3, h4, h5, h6, h7, h8⟩, h9⟩
  · rintro ⟨⟨h1, h2, h3, h4, h5, h6, h7, h8⟩, h9⟩
    exact ⟨h1, h2, h3, h4, h5, h6, h7, h8, h9⟩

lemma faceNbrOk_of_except {s : VF Pos Nrm} {f0 : Nat}
    (h : FaceNbrOkExcept s f0) (hdead : f0 ∉ s.arrFaces) : FaceNbrOk s := by
  intro fid hfid
  exact h fid hfid (fun he => hdead (he ▸ hfid))

lemma nbrOnly_refl (s : VF Pos Nrm) : NbrOnly s s :=
  ⟨rfl, rfl, rfl, rfl, fun w => ⟨(s.vtx w).neighbors, rfl⟩⟩

lemma nbrOnly_trans {s t u : VF Pos Nrm} (h1 : NbrOnly s t) (h2 : NbrOnly t u) :
    NbrOnly s u := by
  obtain ⟨a1, a2, a3, a4, a5⟩ := h1
  obtain ⟨b1, b2, b3, b4, b5⟩ := h2
  refine ⟨b1.trans a1, b2.trans a2, b3.trans a3, b4.trans a4, fun w => ?_⟩
  obtain ⟨nb1, e1⟩ := a5 w
  obtain ⟨nb2, e2⟩ := b5 w
  exact ⟨nb2, by rw [e2, e1]⟩

lemma nbrOnly_vtx_faces {s t : VF Pos Nrm} (h : NbrOnly s t) (w : Nat) :
    (t.vtx w).faces = (s.vtx w).faces := by
  obtain ⟨nb, e⟩ := h.2.2.2.2 w
  rw [e]

lemma nbrOnly_vtx_index {s t : VF Pos Nrm} (h : NbrOnly s t) (w : Nat) :
    (t.vtx w).index = (s.vtx w).index := by
  obtain ⟨nb, e⟩ := h.2.2.2.2 w
  rw [e]

lemma nbrOnly_vtx_cn {s t : VF Pos Nrm} (h : NbrOnly s t) (w : Nat) :
    (t.vtx w).collapseNeighbor = (s.vtx w).collapseNeighbor := by
  obtain ⟨nb, e⟩ := h.2.2.2.2 w
  rw [e]

lemma nbrOnly_indexOk {s t : VF Pos Nrm} (h : NbrOnly s t) (hi : IndexOk s) :
    IndexOk t := by
  intro i hlen
  rw [h.1] at hlen ⊢
  rw [nbrOnly_vtx_index h]
  exact hi i hlen

lemma nbrOnly_faceOk {s t : VF Pos Nrm} (h : NbrOnly s t) (hf : FaceOk s) :
    FaceOk t := by
  intro fid hfid
  rw [h.2.1] at hfid
  rw [h.1, h.2.2.2.1]
  exact hf fid hfid

lemma nbrOnly_facesListOk {s t : VF Pos Nrm} (h : NbrOnly s t) (hf : FacesListOk s) :
    FacesListOk t := by
  intro vid hvid
  rw [h.1] at hvid
  rw [h.2.1, h.2.2.2.1, nbrOnly_vtx_faces h]
  exact hf vid hvid

/-- Transport of all WFcore fields that do not mention neighbor lists. -/

lemma nbrOnly_wfcore {s t : VF Pos Nrm} (h : NbrOnly s t) (hc : WFcore s)
    (hn : NbrOk t) (hfn : FaceNbrOk t) : WFcore t := by
  refine ⟨?_, ?_, nbrOnly_indexOk h hc.idx, ?_, nbrOnly_faceOk h hc.face,
    nbrOnly_facesListOk h hc.flists, hn, hfn⟩
  · rw [h.1]; exact hc.ndV
  · rw [h.2.1]; exact hc.ndF
  · rw [h.2.2.1, h.1]; exact hc.perm

/-! ## Characterizations of the neighbor-editing operations -/

lemma rIN_eq (s : VF Pos Nrm) (a b : Nat) :
    removeIfNonNeighbor s a b =
      if b ∈ (s.vtx a).neighbors ∧ ¬ ∃ f ∈ (s.vtx a).faces, (s.fc f).hasVertex b
      then setVtx s a { s.vtx a with neighbors := (s.vtx a).neighbors.erase b }
      else s := by
  unfold removeIfNonNeighbor
  by_cases h1 : b ∈ (s.vtx a).neighbors
  · by_cases h2 : ∃ f ∈ (s.vtx a).faces, (s.fc f).hasVertex b
    · rw [if_neg (by simpa using h1), if_pos h2, if_neg (by simp [h1, h2])]
    · rw [if_neg (by simpa using h1), if_neg h2, if_pos ⟨h1, h2⟩]
  · rw [if_pos h1, if_neg (by simp [h1])]

/-- Under exact incidence lists the pruning condition of
removeIfNonNeighbor is symmetric in the two vertices. -/

lemma rIN_cond_symm {s : VF Pos Nrm} {a b : Nat} (hFL : FacesListOk s)
    (ha : a ∈ s.arrVertices) (hb : b ∈ s.arrVertices) :
    (∃ f ∈ (s.vtx a).faces, (s.fc f).hasVertex b)
      ↔ (∃ f ∈ (s.vtx b).faces, (s.fc f).hasVertex a) := by
  obtain ⟨-, hafwd, habwd⟩ := hFL a ha
  obtain ⟨-, hbfwd, hbbwd⟩ := hFL b hb
  constructor
  · rintro ⟨f, hf, hfb⟩
    obtain ⟨hlive, hfa⟩ := hafwd f hf
    exact ⟨f, hbbwd f hlive hfb, hfa⟩
  · rintro ⟨f, hf, hfa⟩
    obtain ⟨hlive, hfb⟩ := hbfwd f hf
    exact ⟨f, habwd f hlive hfa, hfb⟩

lemma addUnique_nbrOnly (s : VF Pos Nrm) (a b : Nat) :
    NbrOnly s (addUniqueNeighbor s a b) ∧
    (∀ w, w ≠ a → (addUniqueNeighbor s a b).vtx w = s.vtx w) ∧
    (∀ w x, x ∈ ((addUniqueNeighbor s a b).vtx w).neighbors ↔
      (x ∈ (s.vtx w).neighbors ∨ (w = a ∧ x = b))) := by
  unfold addUniqueNeighbor
  dsimp only
  split_ifs with h
  · refine ⟨nbrOnly_refl s, fun w _ => rfl, fun w x => ?_⟩
    constructor
    · exact fun hx => Or.inl hx
    · rintro (hx | ⟨rfl, rfl⟩)
      · exact hx
      · exact h
  · refine ⟨⟨rfl, rfl, rfl, rfl, fun w => ?_⟩, fun w hw => by simp [hw], fun w x => ?_⟩
    · by_cases hw : w = a
      · subst hw
        exact ⟨(s.vtx w).neighbors ++ [b], by simp⟩
      · exact ⟨(s.vtx w).neighbors, by simp [hw]⟩
    · by_cases hw : w = a
      · subst hw
        simp [List.mem_append]
      · simp [hw]

/-- The combined effect of the two pruning calls performed for an edge
(a, b): either no live face still connects a and b and the two neighbor
lists drop each other, or nothing changes; all structural invariants are
preserved. -/

lemma removeNonNeighbors_spec (s : VF Pos Nrm) (a b : Nat)
    (hFL : FacesListOk s) (hN : NbrOk s)
    (ha : a ∈ s.arrVertices) (hb : b ∈ s.arrVertices) :
    NbrOnly s (removeNonNeighbors s a b) ∧
    (∀ w, w ≠ a → w ≠ b → (removeNonNeighbors s a b).vtx w = s.vtx w) ∧
    (∀ w x, x ∈ ((removeNonNeighbors s a b).vtx w).neighbors → x ∈ (s.vtx w).neighbors) ∧
    NbrOk (removeNonNeighbors s a b) ∧
    (∀ f0, FaceNbrOkExcept s f0 → FaceNbrOkExcept (removeNonNeighbors s a b) f0) := by
  unfold removeNonNeighbors
  rw [rIN_eq s a b]
  by_cases hmem : b ∈ (s.vtx a).neighbors
  · have hab : b ≠ a := fun he => (hN a ha).2.1 (he ▸ hmem)
    have hmem2 : a ∈ (s.vtx b).neighbors := ((hN a ha).2.2 b hmem).2
    by_cases hcond : ∃ f ∈ (s.vtx a).faces, (s.fc f).hasVertex b
    · have hcond2 : ∃ f ∈ (s.vtx b).faces, (s.fc f).hasVertex a :=
        (rIN_cond_symm hFL ha hb).mp hcond
      rw [if_neg (fun hc => hc.2 hcond), rIN_eq, if_neg (fun hc => hc.2 hcond2)]
      exact ⟨nbrOnly_refl s, fun _ _ _ => rfl, fun _ _ h => h, hN, fun _ h => h⟩
    · rw [if_pos ⟨hmem, hcond⟩, rIN_eq]
      have hv_b : (setVtx s a { s.vtx a with
          neighbors := (s.vtx a).neighbors.erase b }).vtx b = s.vtx b := by
        simp [setVtx, hab]
      have hcond2 : ¬ ∃ f ∈ ((setVtx s a { s.vtx a with
          neighbors := (s.vtx a).neighbors.erase b }).vtx b).faces,
          (((setVtx s a { s.vtx a with
            neighbors := (s.vtx a).neighbors.erase b })).fc f).hasVertex a := by
        rw [hv_b]
        exact fun hx => hcond ((rIN_cond_symm hFL ha hb).mpr hx)
      rw [if_pos ⟨by rw [hv_b]; exact hmem2, hcond2⟩]
      rw [hv_b]
      have hba : ¬ a = b := fun h => hab h.symm
      have hvtx : ∀ w, (setVtx (setVtx s a { s.vtx a with
            neighbors := (s.vtx a).neighbors.erase b }) b
            { s.vtx b with neighbors := (s.vtx b).neighbors.erase a }).vtx w
          = if w = b then { s.vtx b with neighbors := (s.vtx b).neighbors.erase a }
            else if w = a then { s.vtx a with neighbors := (s.vtx a).neighbors.erase b }
            else s.vtx w := by
        intro w
        by_cases hwb : w = b
        · simp [setVtx, hwb]
        · by_cases hwa : w = a
          · simp [setVtx, hwa, hwb, hba]
          · simp [setVtx, hwa, hwb]
      have hnbrs : ∀ w, ((setVtx (setVtx s a { s.vtx a with
            neighbors := (s.vtx a).neighbors.erase b }) b
            { s.vtx b with neighbors := (s.vtx b).neighbors.erase a }).vtx w).neighbors
          = if w = b then (s.vtx b).neighbors.erase a
            else if w = a then (s.vtx a).neighbors.erase b
            else (s.vtx w).neighbors := by
        intro w
        rw [hvtx w]
        by_cases hwb : w = b
        · simp [hwb]
        · by_cases hwa : w = a <;> simp [hwa, hwb, hba]
      have hmem_iff : ∀ w x, x ∈ ((setVtx (setVtx s a { s.vtx a with
            neighbors := (s.vtx a).neighbors.erase b }) b
            { s.vtx b with neighbors := (s.vtx b).neighbors.erase a }).vtx w).neighbors
          ↔ (x ∈ (s.vtx w).neighbors ∧ ¬(w = a ∧ x = b) ∧ ¬(w = b ∧ x = a)) := by
        intro w x
        rw [hnbrs w]
        by_cases hwb : w = b
        · rw [if_pos hwb]
          rw [List.Nodup.mem_erase_iff (hN b hb).1]
          subst hwb
          constructor
          · rintro ⟨hxa, hx⟩
            exact ⟨hx, fun hc => hab hc.1, fun hc => hxa hc.2⟩
          · rintro ⟨hx, -, hc2⟩
            exact ⟨fun he => hc2 ⟨rfl, he⟩, hx⟩
        · rw [if_neg hwb]
          by_cases hwa : w = a
          · rw [if_pos hwa]
            rw [List.Nodup.mem_erase_iff (hN a ha).1]
            subst hwa
            constructor
            · rintro ⟨hxb, hx⟩
              exact ⟨hx, fun hc => hxb hc.2, fun hc => hwb hc.1⟩
            · rintro ⟨hx, hc1, -⟩
              exact ⟨fun he => hc1 ⟨rfl, he⟩, hx⟩
          · rw [if_neg hwa]
            constructor
            · intro hx
              exact ⟨hx, fun hc => hwa hc.1, fun hc => hwb hc.1⟩
            · exact fun hx => hx.1
      refine ⟨?_, ?_, ?_, ?_, ?_⟩
      · refine ⟨rfl, rfl, rfl, rfl, fun w => ?_⟩
        rw [hvtx w]
        by_cases hwb : w = b
        · subst hwb
          exact ⟨(s.vtx w).neighbors.erase a, by rw [if_pos rfl]⟩
        · by_cases hwa : w = a
          · subst hwa
            exact ⟨(s.vtx w).neighbors.erase b, by rw [if_neg hwb, if_pos rfl]⟩
          · exact ⟨(s.vtx w).neighbors, by rw [if_neg hwb, if_neg hwa]⟩
      · intro w hwa hwb
        rw [hvtx w, if_neg hwb, if_neg hwa]
      · intro w x hx
        exact ((hmem_iff w x).mp hx).1
      · intro w hw
        have hw' : w ∈ s.arrVertices := hw
        refine ⟨?_, ?_, ?_⟩
        · rw [hnbrs w]
          by_cases hwb : w = b
          · rw [if_pos hwb]; subst hwb; exact List.Nodup.erase _ (hN w hw').1
          · rw [if_neg hwb]
            by_cases hwa : w = a
            · rw [if_pos hwa]; subst hwa; exact List.Nodup.erase _ (hN w hw').1
            · rw [if_neg hwa]; exact (hN w hw').1
        · intro hcontra
          exact (hN w hw').2.1 ((hmem_iff w w).mp hcontra).1
        · intro x hx
          obtain ⟨hxs, hc1, hc2⟩ := (hmem_iff w x).mp hx
          obtain ⟨hxlive, hsymm⟩ := (hN w hw').2.2 x hxs
          refine ⟨hxlive, ?_⟩
          rw [hmem_iff x w]
          exact ⟨hsymm, fun hc => hc2 ⟨hc.2, hc.1⟩, fun hc => hc1 ⟨hc.2, hc.1⟩⟩
      · intro f0 hEx fid hfid hne c hc d hd hcd
        have hfid' : fid ∈ s.arrFaces := hfid
        have hds : d ∈ (s.vtx c).neighbors := hEx fid hfid' hne c hc d hd hcd
        rw [hmem_iff c d]
        have hcface : ∀ x y, x ∈ fverts (s.fc fid) → y ∈ fverts (s.fc fid) →
            x ∈ s.arrVertices → (∃ f ∈ (s.vtx x).faces, (s.fc f).hasVertex y) := by
          intro x y hx hy hxl
          obtain ⟨-, -, hbwd⟩ := hFL x hxl
          refine ⟨fid, hbwd fid hfid' ?_, ?_⟩
          · unfold fverts at hx
            unfold Fc.hasVertex
            simpa using hx
          · unfold fverts at hy
            unfold Fc.hasVertex
            simpa using hy
        refine ⟨hds, ?_, ?_⟩
        · rintro ⟨rfl, rfl⟩
          exact hcond (hcface c d hc hd ha)
        · rintro ⟨rfl, rfl⟩
          exact hcond (hcface d c hd hc ha)
  · have hmem2 : a ∉ (s.vtx b).neighbors := fun hx => hmem (((hN b hb).2.2 a hx).2)
    rw [if_neg (fun hc => hmem hc.1), rIN_eq, if_neg (fun hc => hmem2 hc.1)]
    exact ⟨nbrOnly_refl s, fun _ _ _ => rfl, fun _ _ h => h, hN, fun _ h => h⟩

lemma eraseFaceFold_spec (fid : Nat) (vs : List Nat) (hnd : vs.Nodup) :
    ∀ t : VF Pos Nrm,
      (vs.foldl (fun t vid =>
          let v := t.vtx vid
          setVtx t vid { v with faces := v.faces.erase fid }) t).arrVertices
        = t.arrVertices ∧
      (vs.foldl (fun t vid =>
          let v := t.vtx vid
          setVtx t vid { v with faces := v.faces.erase fid }) t).arrFaces = t.arrFaces ∧
      (vs.foldl (fun t vid =>
          let v := t.vtx vid
          setVtx t vid { v with faces := v.faces.erase fid }) t).arrVerticesByCost
        = t.arrVerticesByCost ∧
      (vs.foldl (fun t vid =>
          let v := t.vtx vid
          setVtx t vid { v with faces := v.faces.erase fid }) t).fc = t.fc ∧
      (∀ w, w ∉ vs →
        (vs.foldl (fun t vid =>
          let v := t.vtx vid
          setVtx t vid { v with faces := v.faces.erase fid }) t).vtx w = t.vtx w) ∧
      (∀ w ∈ vs,
        (vs.foldl (fun t vid =>
          let v := t.vtx vid
          setVtx t vid { v with faces := v.faces.erase fid }) t).vtx w
          = { t.vtx w with faces := (t.vtx w).faces.erase fid }) := by
  induction vs with
  | nil => exact fun t => ⟨rfl, rfl, rfl, rfl, fun _ _ => rfl, fun w hw => absurd hw (by simp)⟩
  | cons v rest ih =>
    intro t
    obtain ⟨hvr, hndr⟩ := List.nodup_cons.mp hnd
    obtain ⟨i1, i2, i3, i4, i5, i6⟩ := ih hndr
      (setVtx t v { t.vtx v with faces := (t.vtx v).faces.erase fid })
    rw [List.foldl_cons]
    refine ⟨by rw [i1]; rfl, by rw [i2]; rfl, by rw [i3]; rfl, by rw [i4]; rfl, ?_, ?_⟩
    · intro w hw
      have hwv : w ≠ v := fun he => hw (he ▸ List.mem_cons_self v rest)
      have hwr : w ∉ rest := fun he => hw (List.mem_cons_of_mem v he)
      rw [i5 w hwr]
      simp [setVtx, hwv]
    · intro w hw
      rcases List.mem_cons.mp hw with rfl | hwr
      · rw [i5 w hvr]
        simp [setVtx]
      · have hwv : w ≠ v := fun he => hvr (he ▸ hwr)
        rw [i6 w hwr]
        simp [setVtx, hwv]

/-- Full effect and invariance of VerticesAndFaces.removeFace on a
well-formed graph. -/

lemma removeFace_spec (s : VF Pos Nrm) (fid : Nat)
    (hc : WFcore s) (hf : fid ∈ s.arrFaces) :
    WFcore (removeFace s fid) ∧
    (removeFace s fid).arrVertices = s.arrVertices ∧
    (removeFace s fid).arrVerticesByCost = s.arrVerticesByCost ∧
    (removeFace s fid).arrFaces = s.arrFaces.erase fid ∧
    (removeFace s fid).fc = s.fc ∧
    (∀ w, w ∉ fverts (s.fc fid) → (removeFace s fid).vtx w = s.vtx w) ∧
    (∀ w, ((removeFace s fid).vtx w).index = (s.vtx w).index ∧
          ((removeFace s fid).vtx w).collapseNeighbor = (s.vtx w).collapseNeighbor ∧
          ((removeFace s fid).vtx w).collapseCost = (s.vtx w).collapseCost) ∧
    (∀ w x, x ∈ ((removeFace s fid).vtx w).neighbors → x ∈ (s.vtx w).neighbors) ∧
    (∀ w, ((removeFace s fid).vtx w).faces
        = if w ∈ fverts (s.fc fid) then (s.vtx w).faces.erase fid
          else (s.vtx w).faces) := by
  obtain ⟨h12, h23, h13, hl1, hl2, hl3⟩ := hc.face fid hf
  have hndv : [(s.fc fid).v1, (s.fc fid).v2, (s.fc fid).v3].Nodup := by
    simp [h12, h23, h13]
  obtain ⟨e1, e2, e3, e4, e5, e6⟩ := eraseFaceFold_spec fid _ hndv
    { s with arrFaces := s.arrFaces.erase fid }
  set s2 := [(s.fc fid).v1, (s.fc fid).v2, (s.fc fid).v3].foldl (fun t vid =>
      let v := t.vtx vid
      setVtx t vid { v with faces := v.faces.erase fid })
      { s with arrFaces := s.arrFaces.erase fid } with hs2def
  have hdef : removeFace s fid
      = removeNonNeighbors (removeNonNeighbors (removeNonNeighbors s2
          (s.fc fid).v1 (s.fc fid).v2) (s.fc fid).v2 (s.fc fid).v3)
          (s.fc fid).v3 (s.fc fid).v1 := rfl
  have hfaces2 : ∀ w, (s2.vtx w).faces
      = if w ∈ fverts (s.fc fid) then (s.vtx w).faces.erase fid
        else (s.vtx w).faces := by
    intro w
    by_cases hw : w ∈ fverts (s.fc fid)
    · rw [if_pos hw, e6 w hw]
    · rw [if_neg hw, e5 w hw]
  have hfields2 : ∀ w, (s2.vtx w).index = (s.vtx w).index ∧
      (s2.vtx w).collapseNeighbor = (s.vtx w).collapseNeighbor ∧
      (s2.vtx w).collapseCost = (s.vtx w).collapseCost ∧
      (s2.vtx w).neighbors = (s.vtx w).neighbors := by
    intro w
    by_cases hw : w ∈ fverts (s.fc fid)
    · rw [e6 w hw]
      exact ⟨rfl, rfl, rfl, rfl⟩
    · rw [e5 w hw]
      exact ⟨rfl, rfl, rfl, rfl⟩
  have harrV2 : s2.arrVertices = s.arrVertices := e1
  have harrF2 : s2.arrFaces = s.arrFaces.erase fid := e2
  have hfc2 : s2.fc = s.fc := e4
  have hfid_dead : fid ∉ s2.arrFaces := by
    rw [harrF2]
    exact fun hx => (List.Nodup.mem_erase_iff hc.ndF).mp hx |>.1 rfl
  have hFL2 : FacesListOk s2 := by
    intro vid hvid
    rw [harrV2] at hvid
    obtain ⟨hnd0, hfwd0, hbwd0⟩ := hc.flists vid hvid
    rw [hfaces2 vid, harrF2, hfc2]
    by_cases hw : vid ∈ fverts (s.fc fid)
    · rw [if_pos hw]
      refine ⟨List.Nodup.erase _ hnd0, ?_, ?_⟩
      · intro f hf2
        rw [List.Nodup.mem_erase_iff hnd0] at hf2
        obtain ⟨hne, hmem0⟩ := hf2
        obtain ⟨hlive, hhv⟩ := hfwd0 f hmem0
        exact ⟨(List.Nodup.mem_erase_iff hc.ndF).mpr ⟨hne, hlive⟩, hhv⟩
      · intro f hlive hhv
        rw [List.Nodup.mem_erase_iff hc.ndF] at hlive
        rw [List.Nodup.mem_erase_iff hnd0]
        exact ⟨hlive.1, hbwd0 f hlive.2 hhv⟩
    · rw [if_neg hw]
      refine ⟨hnd0, ?_, ?_⟩
      · intro f hmem0
        obtain ⟨hlive, hhv⟩ := hfwd0 f hmem0
        have hne : f ≠ fid := by
          rintro rfl
          unfold Fc.hasVertex at hhv
          apply hw
          unfold fverts
          rcases hhv with h | h | h <;> simp [h]
        exact ⟨(List.Nodup.mem_erase_iff hc.ndF).mpr ⟨hne, hlive⟩, hhv⟩
      · intro f hlive hhv
        rw [List.Nodup.mem_erase_iff hc.ndF] at hlive
        exact hbwd0 f hlive.2 hhv
  have hN2 : NbrOk s2 := by
    intro vid hvid
    rw [harrV2] at hvid
    obtain ⟨hn1, hn2, hn3⟩ := hc.nbr vid hvid
    rw [(hfields2 vid).2.2.2]
    refine ⟨hn1, hn2, ?_⟩
    intro x hx
    obtain ⟨hxl, hxs⟩ := hn3 x hx
    rw [harrV2, (hfields2 x).2.2.2]
    exact ⟨hxl, hxs⟩
  have hFN2 : FaceNbrOkExcept s2 fid := by
    intro f hf2 hne c hcmem d hdmem hcd
    rw [harrF2] at hf2
    rw [hfc2] at hcmem hdmem
    rw [(hfields2 c).2.2.2]
    exact hc.fnbr f (List.mem_of_mem_erase hf2) c hcmem d hdmem hcd
  have hlive1 : (s.fc fid).v1 ∈ s2.arrVertices := by rw [harrV2]; exact hl1
  have hlive2 : (s.fc fid).v2 ∈ s2.arrVertices := by rw [harrV2]; exact hl2
  have hlive3 : (s.fc fid).v3 ∈ s2.arrVertices := by rw [harrV2]; exact hl3
  obtain ⟨p1no, p1un, p1sh, p1N, p1Ex⟩ :=
    removeNonNeighbors_spec s2 (s.fc fid).v1 (s.fc fid).v2 hFL2 hN2 hlive1 hlive2
  set t3 := removeNonNeighbors s2 (s.fc fid).v1 (s.fc fid).v2 with ht3
  have hFL3 : FacesListOk t3 := nbrOnly_facesListOk p1no hFL2
  obtain ⟨p2no, p2un, p2sh, p2N, p2Ex⟩ :=
    removeNonNeighbors_spec t3 (s.fc fid).v2 (s.fc fid).v3 hFL3 p1N
      (by rw [p1no.1]; exact hlive2) (by rw [p1no.1]; exact hlive3)
  set t4 := removeNonNeighbors t3 (s.fc fid).v2 (s.fc fid).v3 with ht4
  have hFL4 : FacesListOk t4 := nbrOnly_facesListOk p2no hFL3
  obtain ⟨p3no, p3un, p3sh, p3N, p3Ex⟩ :=
    removeNonNeighbors_spec t4 (s.fc fid).v3 (s.fc fid).v1 hFL4 p2N
      (by rw [p2no.1, p1no.1]; exact hlive3) (by rw [p2no.1, p1no.1]; exact hlive1)
  set t5 := removeNonNeighbors t4 (s.fc fid).v3 (s.fc fid).v1 with ht5
  have hno25 : NbrOnly s2 t5 := nbrOnly_trans (nbrOnly_trans p1no p2no) p3no
  have hEx5 : FaceNbrOkExcept t5 fid := p3Ex fid (p2Ex fid (p1Ex fid hFN2))
  have hdead5 : fid ∉ t5.arrFaces := by
    rw [hno25.2.1]
    exact hfid_dead
  have hFN5 : FaceNbrOk t5 := faceNbrOk_of_except hEx5 hdead5
  have hcore2 : WFcore s2 := by
    refine ⟨by rw [harrV2]; exact hc.ndV, by rw [harrF2]; exact List.Nodup.erase _ hc.ndF,
      ?_, by rw [e3, harrV2]; exact hc.perm, ?_, hFL2, hN2, ?_⟩
    · intro i hlen
      rw [harrV2] at hlen ⊢
      rw [(hfields2 _).1]
      exact hc.idx i hlen
    · intro f hf2
      rw [harrF2] at hf2
      have hfs : f ∈ s.arrFaces := List.mem_of_mem_erase hf2
      obtain ⟨q1, q2, q3, q4, q5, q6⟩ := hc.face f hfs
      rw [hfc2, harrV2]
      exact ⟨q1, q2, q3, q4, q5, q6⟩
    · intro f hf2 c hcmem d hdmem hcd
      rw [harrF2] at hf2
      rw [hfc2] at hcmem hdmem
      rw [(hfields2 c).2.2.2]
      exact hc.fnbr f (List.mem_of_mem_erase hf2) c hcmem d hdmem hcd
  have hcore5 : WFcore t5 := nbrOnly_wfcore hno25 hcore2 p3N hFN5
  rw [hdef]
  refine ⟨hcore5, ?_, ?_, ?_, ?_, ?_, ?_, ?_, ?_⟩
  · rw [hno25.1, harrV2]
  · rw [hno25.2.2.1, e3]
  · rw [hno25.2.1, harrF2]
  · rw [hno25.2.2.2.1, hfc2]
  · intro w hw
    have hw1 : w ≠ (s.fc fid).v1 := fun he => hw (he ▸ by unfold fverts; simp)
    have hw2 : w ≠ (s.fc fid).v2 := fun he => hw (he ▸ by unfold fverts; simp)
    have hw3 : w ≠ (s.fc fid).v3 := fun he => hw (he ▸ by unfold fverts; simp)
    rw [p3un w hw3 hw1, p2un w hw2 hw3, p1un w hw1 hw2, e5 w (fun hx => hw hx)]
  · intro w
    have hix : ((t5.vtx w)).index = (s2.vtx w).index := nbrOnly_vtx_index hno25 w
    have hcn : ((t5.vtx w)).collapseNeighbor = (s2.vtx w).collapseNeighbor :=
      nbrOnly_vtx_cn hno25 w
    have hcc : ((t5.vtx w)).collapseCost = (s2.vtx w).collapseCost := by
      obtain ⟨nb, e⟩ := hno25.2.2.2.2 w
      rw [e]
    rw [hix, hcn, hcc]
    exact ⟨(hfields2 w).1, (hfields2 w).2.1, (hfields2 w).2.2.1⟩
  · intro w x hx
    have h2 : x ∈ (s2.vtx w).neighbors := p1sh w x (p2sh w x (p3sh w x hx))
    rw [(hfields2 w).2.2.2] at h2
    exact h2
  · intro w
    rw [nbrOnly_vtx_faces hno25 w]
    exact hfaces2 w

lemma hasVertex_iff_mem_fverts (f : Fc Pos Nrm) (w : Nat) :
    f.hasVertex w ↔ w ∈ fverts f := by
  unfold Fc.hasVertex fverts
  simp

/-- Invariance of the edge-face deletion loop of collapse: the loop keeps
the graph well-formed, touches only u and its neighbors, and afterwards no
remaining face of u contains the collapse target. -/

lemma deleteUVFaces_spec (vidT uid : Nat) :
    ∀ (i : Nat) (s : VF Pos Nrm), WFcore s → uid ∈ s.arrVertices →
      WFcore (deleteUVFaces vidT uid i s) ∧
      (deleteUVFaces vidT uid i s).arrVertices = s.arrVertices ∧
      (deleteUVFaces vidT uid i s).arrVerticesByCost = s.arrVerticesByCost ∧
      (deleteUVFaces vidT uid i s).fc = s.fc ∧
      (∀ w, ((deleteUVFaces vidT uid i s).vtx w).index = (s.vtx w).index ∧
            ((deleteUVFaces vidT uid i s).vtx w).collapseNeighbor
              = (s.vtx w).collapseNeighbor ∧
            ((deleteUVFaces vidT uid i s).vtx w).collapseCost
              = (s.vtx w).collapseCost) ∧
      (∀ w x, x ∈ ((deleteUVFaces vidT uid i s).vtx w).neighbors
          → x ∈ (s.vtx w).neighbors) ∧
      (∀ w, w ≠ uid → w ∉ (s.vtx uid).neighbors →
          (deleteUVFaces vidT uid i s).vtx w = s.vtx w) ∧
      ((∀ f ∈ ((s.vtx uid).faces).drop i, ¬ (s.fc f).hasVertex vidT) →
        ∀ f ∈ ((deleteUVFaces vidT uid i s).vtx uid).faces,
          ¬ (s.fc f).hasVertex vidT) := by
  intro i
  induction i with
  | zero =>
    intro s hc hu
    exact ⟨hc, rfl, rfl, rfl, fun w => ⟨rfl, rfl, rfl⟩, fun w x h => h,
      fun w _ _ => rfl, fun hP => by simpa using hP⟩
  | succ i ih =>
    intro s hc hu
    rcases hget : (s.vtx uid).faces.get? i with - | fid
    · have h0 : deleteUVFaces vidT uid (i + 1) s
          = deleteUVFaces vidT uid i
              (match (s.vtx uid).faces.get? i with
               | some fid => if (s.fc fid).hasVertex vidT then removeFace s fid else s
               | none => s) := rfl
      have hstep : deleteUVFaces vidT uid (i + 1) s = deleteUVFaces vidT uid i s := by
        rw [h0, hget]
      obtain ⟨r1, r2, r3, r4, r5, r6, r7, r8⟩ := ih s hc hu
      rw [hstep]
      refine ⟨r1, r2, r3, r4, r5, r6, r7, fun _ => r8 ?_⟩
      have hlen : (s.vtx uid).faces.length ≤ i := List.get?_eq_none.mp hget
      rw [List.drop_eq_nil_of_le hlen]
      simp
    · obtain ⟨hnd0, hfwd0, hbwd0⟩ := hc.flists uid hu
      have hfidfaces : fid ∈ (s.vtx uid).faces := List.get?_mem hget
      obtain ⟨hfidlive, hfiduid⟩ := hfwd0 fid hfidfaces
      by_cases hhv : (s.fc fid).hasVertex vidT
      · have h0 : deleteUVFaces vidT uid (i + 1) s
            = deleteUVFaces vidT uid i
                (match (s.vtx uid).faces.get? i with
                 | some fid => if (s.fc fid).hasVertex vidT then removeFace s fid else s
                 | none => s) := rfl
        have hstep : deleteUVFaces vidT uid (i + 1) s
            = deleteUVFaces vidT uid i (removeFace s fid) := by
          rw [h0, hget]
          dsimp only
          rw [if_pos hhv]
        obtain ⟨q1, q2, q3, q4, q5, q6, q7, q8, q9⟩ := removeFace_spec s fid hc hfidlive
        have hu' : uid ∈ (removeFace s fid).arrVertices := by rw [q2]; exact hu
        obtain ⟨r1, r2, r3, r4, r5, r6, r7, r8⟩ := ih (removeFace s fid) q1 hu'
        have huidverts : uid ∈ fverts (s.fc fid) :=
          (hasVertex_iff_mem_fverts _ _).mp hfiduid
        have hufaces : ((removeFace s fid).vtx uid).faces
            = (s.vtx uid).faces.eraseIdx i := by
          rw [q9 uid, if_pos huidverts, nodup_erase_eq_eraseIdx hnd0 hget]
        rw [hstep]
        refine ⟨r1, r2.trans q2, r3.trans q3, r4.trans q5, ?_, ?_, ?_, ?_⟩
        · intro w
          obtain ⟨a1, a2, a3⟩ := r5 w
          obtain ⟨b1, b2, b3⟩ := q7 w
          exact ⟨a1.trans b1, a2.trans b2, a3.trans b3⟩
        · intro w x hx
          exact q8 w x (r6 w x hx)
        · intro w hwuid hwnbr
          have hwverts : w ∉ fverts (s.fc fid) := by
            intro hwv
            exact hwnbr (hc.fnbr fid hfidlive uid huidverts w hwv
              (fun hcontra => hwuid hcontra.symm))
          have hn' : w ∉ ((removeFace s fid).vtx uid).neighbors := by
            intro hx
            exact hwnbr (q8 uid w hx)
          rw [r7 w hwuid hn', q6 w hwverts]
        · intro hP f hf
          have hP' : ∀ f ∈ (((removeFace s fid).vtx uid).faces).drop i,
              ¬ ((removeFace s fid).fc f).hasVertex vidT := by
            rw [hufaces, drop_eraseIdx_same, q5]
            exact hP
          have := r8 hP' f hf
          rw [q5] at this
          exact this
      · have h0 : deleteUVFaces vidT uid (i + 1) s
            = deleteUVFaces vidT uid i
                (match (s.vtx uid).faces.get? i with
                 | some fid => if (s.fc fid).hasVertex vidT then removeFace s fid else s
                 | none => s) := rfl
        have hstep : deleteUVFaces vidT uid (i + 1) s = deleteUVFaces vidT uid i s := by
          rw [h0, hget]
          dsimp only
          rw [if_neg hhv]
        obtain ⟨r1, r2, r3, r4, r5, r6, r7, r8⟩ := ih s hc hu
        rw [hstep]
        refine ⟨r1, r2, r3, r4, r5, r6, r7, fun hP => r8 ?_⟩
        rw [drop_eq_cons_of_get? hget]
        intro f hf
        rcases List.mem_cons.mp hf with rfl | hf2
        · exact hhv
        · exact hP f hf2

/-! ## Invariance of the face-rewrite stage of collapse -/

lemma nodup_concat {l : List Nat} {x : Nat} (h : l.Nodup) (hx : x ∉ l) :
    (l ++ [x]).Nodup := by
  rw [List.nodup_append]
  exact ⟨h, List.nodup_singleton x, by simpa using hx⟩

lemma addUnique_nodup (s : VF Pos Nrm) (a b w : Nat)
    (h : ((s.vtx w).neighbors).Nodup) :
    (((addUniqueNeighbor s a b).vtx w).neighbors).Nodup := by
  unfold addUniqueNeighbor
  dsimp only
  split_ifs with hmem
  · exact h
  · by_cases hw : w = a
    · subst hw
      simp only [setVtx_vtx, if_pos rfl]
      exact nodup_concat h hmem
    · simp only [setVtx_vtx, if_neg hw]
      exact h

/-- Effect of the u-slot substitution performed on a rewritten face: the
three references stay mutually distinct and the vertex set trades u for v. -/

lemma rewriteSlots_spec (f nf : Fc Pos Nrm) (uid vid : Nat)
    (hnf : nf = if uid = f.v1 then { f with v1 := vid }
      else if uid = f.v2 then { f with v2 := vid }
      else if uid = f.v3 then { f with v3 := vid } else f)
    (h12 : f.v1 ≠ f.v2) (h23 : f.v2 ≠ f.v3) (h13 : f.v1 ≠ f.v3)
    (huid : uid ∈ fverts f) (hvid : vid ∉ fverts f) :
    (nf.v1 ≠ nf.v2 ∧ nf.v2 ≠ nf.v3 ∧ nf.v1 ≠ nf.v3) ∧
    (∀ w, w ∈ fverts nf ↔ (w = vid ∨ (w ∈ fverts f ∧ w ≠ uid))) := by
  unfold fverts at huid hvid ⊢
  simp only [List.mem_cons, List.not_mem_nil, or_false] at huid hvid ⊢
  push_neg at hvid
  obtain ⟨hv1, hv2, hv3⟩ := hvid
  rcases huid with h1 | h2 | h3
  · subst h1
    rw [if_pos rfl] at hnf
    subst hnf
    refine ⟨⟨fun h => hv2 h, h23, fun h => hv3 h⟩, fun w => ?_⟩
    constructor
    · rintro (rfl | rfl | rfl)
      · exact Or.inl rfl
      · exact Or.inr ⟨Or.inr (Or.inl rfl), fun he => h12 he.symm⟩
      · exact Or.inr ⟨Or.inr (Or.inr rfl), fun he => h13 he.symm⟩
    · rintro (rfl | ⟨(rfl | rfl | rfl), hne⟩)
      · exact Or.inl rfl
      · exact absurd rfl hne
      · exact Or.inr (Or.inl rfl)
      · exact Or.inr (Or.inr rfl)
  · have hne1 : ¬ (uid = f.v1) := by
      subst h2
      exact fun he => h12 he.symm
    subst h2
    rw [if_neg hne1, if_pos rfl] at hnf
    subst hnf
    refine ⟨⟨fun h => hv1 h.symm, fun h => hv3 h, h13⟩, fun w => ?_⟩
    constructor
    · rintro (rfl | rfl | rfl)
      · exact Or.inr ⟨Or.inl rfl, fun he => hne1 he.symm⟩
      · exact Or.inl rfl
      · exact Or.inr ⟨Or.inr (Or.inr rfl), fun he => h23 he.symm⟩
    · rintro (rfl | ⟨(rfl | rfl | rfl), hne⟩)
      · exact Or.inr (Or.inl rfl)
      · exact Or.inl rfl
      · exact absurd rfl hne
      · exact Or.inr (Or.inr rfl)
  · have hne1 : ¬ (uid = f.v1) := by
      subst h3
      exact fun he => h13 he.symm
    have hne2 : ¬ (uid = f.v2) := by
      subst h3
      exact fun he => h23 he.symm
    subst h3
    rw [if_neg hne1, if_neg hne2, if_pos rfl] at hnf
    subst hnf
    refine ⟨⟨h12, fun h => hv2 h.symm, fun h => hv1 h.symm⟩, fun w => ?_⟩
    constructor
    · rintro (rfl | rfl | rfl)
      · exact Or.inr ⟨Or.inl rfl, fun he => hne1 he.symm⟩
      · exact Or.inr ⟨Or.inr (Or.inl rfl), fun he => hne2 he.symm⟩
      · exact Or.inl rfl
    · rintro (rfl | ⟨(rfl | rfl | rfl), hne⟩)
      · exact Or.inr (Or.inr rfl)
      · exact Or.inl rfl
      · exact Or.inr (Or.inl rfl)
      · exact absurd rfl hne

lemma WFcore.pre {s : VF Pos Nrm} (hc : WFcore s) : WFpre s :=
  ⟨hc.ndV, hc.ndF, hc.idx, hc.perm, hc.face, hc.flists⟩

lemma wfcore_mk {s : VF Pos Nrm} (hp : WFpre s) (hn : NbrOk s)
    (hfn : FaceNbrOk s) : WFcore s :=
  ⟨hp.ndV, hp.ndF, hp.idx, hp.perm, hp.face, hp.flists, hn, hfn⟩

lemma nbrOnly_wfpre {s t : VF Pos Nrm} (h : NbrOnly s t) (hp : WFpre s) :
    WFpre t := by
  refine ⟨?_, ?_, nbrOnly_indexOk h hp.idx, ?_, nbrOnly_faceOk h hp.face,
    nbrOnly_facesListOk h hp.flists⟩
  · rw [h.1]; exact hp.ndV
  · rw [h.2.1]; exact hp.ndF
  · rw [h.2.2.1, h.1]; exact hp.perm

/-- Full effect of the move stage of a face rewrite on a well-formed graph:
the face migrates from u's incidence list to v's, its u-slot now references
v, and every structural invariant except the neighbor cover of the moved
face survives. -/

lemma rewriteMove_spec (s : VF Pos Nrm) (uid vid fid i : Nat)
    (hc : WFcore s) (hu : uid ∈ s.arrVertices) (hv : vid ∈ s.arrVertices)
    (huv : uid ≠ vid)
    (hget : (s.vtx uid).faces.get? i = some fid)
    (hP : ∀ f ∈ (s.vtx uid).faces, ¬ (s.fc f).hasVertex vid) :
    (rewriteMove uid vid fid i s).arrVertices = s.arrVertices ∧
    (rewriteMove uid vid fid i s).arrFaces = s.arrFaces ∧
    (rewriteMove uid vid fid i s).arrVerticesByCost = s.arrVerticesByCost ∧
    (∀ f', f' ≠ fid → (rewriteMove uid vid fid i s).fc f' = s.fc f') ∧
    (∀ w, w ≠ uid → w ≠ vid → (rewriteMove uid vid fid i s).vtx w = s.vtx w) ∧
    (∀ w, ((rewriteMove uid vid fid i s).vtx w).index = (s.vtx w).index ∧
      ((rewriteMove uid vid fid i s).vtx w).collapseNeighbor
        = (s.vtx w).collapseNeighbor ∧
      ((rewriteMove uid vid fid i s).vtx w).collapseCost = (s.vtx w).collapseCost ∧
      ((rewriteMove uid vid fid i s).vtx w).neighbors = (s.vtx w).neighbors) ∧
    ((rewriteMove uid vid fid i s).vtx uid).faces = (s.vtx uid).faces.erase fid ∧
    ((rewriteMove uid vid fid i s).vtx vid).faces = (s.vtx vid).faces ++ [fid] ∧
    (((rewriteMove uid vid fid i s).fc fid).v1
        ≠ ((rewriteMove uid vid fid i s).fc fid).v2 ∧
      ((rewriteMove uid vid fid i s).fc fid).v2
        ≠ ((rewriteMove uid vid fid i s).fc fid).v3 ∧
      ((rewriteMove uid vid fid i s).fc fid).v1
        ≠ ((rewriteMove uid vid fid i s).fc fid).v3) ∧
    (∀ w, w ∈ fverts ((rewriteMove uid vid fid i s).fc fid)
        ↔ (w = vid ∨ (w ∈ fverts (s.fc fid) ∧ w ≠ uid))) ∧
    WFpre (rewriteMove uid vid fid i s) ∧
    NbrOk (rewriteMove uid vid fid i s) ∧
    FaceNbrOkExcept (rewriteMove uid vid fid i s) fid ∧
    (∀ f' ∈ ((rewriteMove uid vid fid i s).vtx uid).faces,
      ¬ ((rewriteMove uid vid fid i s).fc f').hasVertex vid) := by
  obtain ⟨hnd0, hfwd0, hbwd0⟩ := hc.flists uid hu
  have hfidfaces : fid ∈ (s.vtx uid).faces := List.get?_mem hget
  obtain ⟨hfidlive, hfiduid⟩ := hfwd0 fid hfidfaces
  have hvidnot : vid ∉ fverts (s.fc fid) := fun hx =>
    hP fid hfidfaces ((hasVertex_iff_mem_fverts _ _).mpr hx)
  have huidmem : uid ∈ fverts (s.fc fid) := (hasVertex_iff_mem_fverts _ _).mp hfiduid
  obtain ⟨h12, h23, h13, hl1, hl2, hl3⟩ := hc.face fid hfidlive
  have hvu : vid ≠ uid := fun he => huv he.symm
  set s1 := setVtx s uid
    { s.vtx uid with faces := (s.vtx uid).faces.eraseIdx i } with hs1
  have hvv : s1.vtx vid = s.vtx vid := by
    rw [hs1, setVtx_vtx, if_neg hvu]
  set s2 := setVtx s1 vid
    { s1.vtx vid with faces := (s1.vtx vid).faces ++ [fid] } with hs2
  have hfc2 : s2.fc = s.fc := by rw [hs2, hs1]; rfl
  set nf := (if uid = (s2.fc fid).v1 then { s2.fc fid with v1 := vid }
     else if uid = (s2.fc fid).v2 then { s2.fc fid with v2 := vid }
     else if uid = (s2.fc fid).v3 then { s2.fc fid with v3 := vid }
     else s2.fc fid) with hnf
  have hnf' : nf = (if uid = (s.fc fid).v1 then { s.fc fid with v1 := vid }
     else if uid = (s.fc fid).v2 then { s.fc fid with v2 := vid }
     else if uid = (s.fc fid).v3 then { s.fc fid with v3 := vid }
     else s.fc fid) := by rw [hnf, hfc2]
  have hdef : rewriteMove uid vid fid i s = setFc s2 fid nf := rfl
  obtain ⟨hnfd, hnfmem⟩ :=
    rewriteSlots_spec (s.fc fid) nf uid vid hnf' h12 h23 h13 huidmem hvidnot
  have herase : (s.vtx uid).faces.eraseIdx i = (s.vtx uid).faces.erase fid :=
    (nodup_erase_eq_eraseIdx hnd0 hget).symm
  have hvtx3 : ∀ w, (setFc s2 fid nf).vtx w
      = if w = vid then { s.vtx vid with faces := (s.vtx vid).faces ++ [fid] }
        else if w = uid then { s.vtx uid with faces := (s.vtx uid).faces.erase fid }
        else s.vtx w := by
    intro w
    rw [setFc_vtx]
    by_cases hwv : w = vid
    · subst hwv
      rw [if_pos rfl, hs2, setVtx_vtx, if_pos rfl, hvv]
    · rw [if_neg hwv]
      by_cases hwu : w = uid
      · subst hwu
        rw [if_pos rfl, hs2, setVtx_vtx, if_neg hwv, hs1, setVtx_vtx, if_pos rfl,
          herase]
      · rw [if_neg hwu, hs2, setVtx_vtx, if_neg hwv, hs1, setVtx_vtx, if_neg hwu]
  have hfc3 : ∀ f', (setFc s2 fid nf).fc f' = if f' = fid then nf else s.fc f' := by
    intro f'
    rw [setFc_fc, hfc2]
  have hfnotvid : fid ∉ (s.vtx vid).faces := fun hx =>
    hvidnot ((hasVertex_iff_mem_fverts _ _).mp ((hc.flists vid hv).2.1 fid hx).2)
  have hfields : ∀ w, ((setFc s2 fid nf).vtx w).index = (s.vtx w).index ∧
      ((setFc s2 fid nf).vtx w).collapseNeighbor = (s.vtx w).collapseNeighbor ∧
      ((setFc s2 fid nf).vtx w).collapseCost = (s.vtx w).collapseCost ∧
      ((setFc s2 fid nf).vtx w).neighbors = (s.vtx w).neighbors := by
    intro w
    rw [hvtx3 w]
    by_cases hwv : w = vid
    · rw [if_pos hwv]
      subst hwv
      exact ⟨rfl, rfl, rfl, rfl⟩
    · rw [if_neg hwv]
      by_cases hwu : w = uid
      · rw [if_pos hwu]
        subst hwu
        exact ⟨rfl, rfl, rfl, rfl⟩
      · rw [if_neg hwu]
        exact ⟨rfl, rfl, rfl, rfl⟩
  have hnl : ∀ w ∈ fverts nf, w ∈ s.arrVertices := by
    intro w hw
    rcases (hnfmem w).mp hw with rfl | ⟨hwold, -⟩
    · exact hv
    · unfold fverts at hwold
      simp only [List.mem_cons, List.not_mem_nil, or_false] at hwold
      rcases hwold with rfl | rfl | rfl
      · exact hl1
      · exact hl2
      · exact hl3
  have hFL3 : FacesListOk (setFc s2 fid nf) := by
    intro w hw
    have hw' : w ∈ s.arrVertices := hw
    obtain ⟨hwnd, hwfwd, hwbwd⟩ := hc.flists w hw'
    rw [hvtx3 w]
    by_cases hwv : w = vid
    · rw [if_pos hwv]
      subst hwv
      dsimp only
      refine ⟨nodup_concat hwnd hfnotvid, ?_, ?_⟩
      · intro f' hf'
        rcases List.mem_append.mp hf' with hfo | hfn2
        · obtain ⟨hlive, hhv⟩ := hwfwd f' hfo
          have hne : f' ≠ fid := fun he => hfnotvid (he ▸ hfo)
          rw [hfc3 f', if_neg hne]
          exact ⟨hlive, hhv⟩
        · obtain rfl := List.mem_singleton.mp hfn2
          rw [hfc3 f', if_pos rfl]
          refine ⟨hfidlive, ?_⟩
          rw [hasVertex_iff_mem_fverts, hnfmem]
          exact Or.inl rfl
      · intro f' hlive hhv
        by_cases hne : f' = fid
        · exact List.mem_append.mpr (Or.inr (List.mem_singleton.mpr hne))
        · rw [hfc3 f', if_neg hne] at hhv
          exact List.mem_append.mpr (Or.inl (hwbwd f' hlive hhv))
    · rw [if_neg hwv]
      by_cases hwu : w = uid
      · rw [if_pos hwu]
        subst hwu
        dsimp only
        refine ⟨hwnd.erase fid, ?_, ?_⟩
        · intro f' hf'
          rw [List.Nodup.mem_erase_iff hwnd] at hf'
          obtain ⟨hne, hfo⟩ := hf'
          obtain ⟨hlive, hhv⟩ := hwfwd f' hfo
          rw [hfc3 f', if_neg hne]
          exact ⟨hlive, hhv⟩
        · intro f' hlive hhv
          by_cases hne : f' = fid
          · rw [hfc3 f', if_pos hne, hasVertex_iff_mem_fverts, hnfmem] at hhv
            rcases hhv with he | ⟨-, hne2⟩
            · exact absurd he huv
            · exact absurd rfl hne2
          · rw [hfc3 f', if_neg hne] at hhv
            rw [List.Nodup.mem_erase_iff hwnd]
            exact ⟨hne, hwbwd f' hlive hhv⟩
      · rw [if_neg hwu]
        refine ⟨hwnd, ?_, ?_⟩
        · intro f' hf'
          obtain ⟨hlive, hhv⟩ := hwfwd f' hf'
          by_cases hne : f' = fid
          · rw [hfc3 f', if_pos hne]
            refine ⟨hlive, ?_⟩
            rw [hasVertex_iff_mem_fverts, hnfmem]
            refine Or.inr ⟨?_, hwu⟩
            rw [← hne]
            exact (hasVertex_iff_mem_fverts _ _).mp hhv
          · rw [hfc3 f', if_neg hne]
            exact ⟨hlive, hhv⟩
        · intro f' hlive hhv
          by_cases hne : f' = fid
          · rw [hfc3 f', if_pos hne, hasVertex_iff_mem_fverts, hnfmem] at hhv
            rcases hhv with he | ⟨hmem0, -⟩
            · exact absurd he hwv
            · refine hwbwd f' hlive ?_
              rw [hne]
              exact (hasVertex_iff_mem_fverts _ _).mpr hmem0
          · rw [hfc3 f', if_neg hne] at hhv
            exact hwbwd f' hlive hhv
  have hN3 : NbrOk (setFc s2 fid nf) := by
    intro w hw
    have hw' : w ∈ s.arrVertices := hw
    obtain ⟨hn1, hn2, hn3⟩ := hc.nbr w hw'
    rw [(hfields w).2.2.2]
    refine ⟨hn1, hn2, ?_⟩
    intro x hx
    obtain ⟨hxl, hxs⟩ := hn3 x hx
    rw [(hfields x).2.2.2]
    exact ⟨hxl, hxs⟩
  have hEx3 : FaceNbrOkExcept (setFc s2 fid nf) fid := by
    intro f' hf' hne c hcmem d hdmem hcd
    have hf'' : f' ∈ s.arrFaces := hf'
    rw [hfc3 f', if_neg hne] at hcmem hdmem
    rw [(hfields c).2.2.2]
    exact hc.fnbr f' hf'' c hcmem d hdmem hcd
  have hpre3 : WFpre (setFc s2 fid nf) := by
    refine ⟨hc.ndV, hc.ndF, ?_, hc.perm, ?_, hFL3⟩
    · intro j hj
      rw [(hfields _).1]
      exact hc.idx j hj
    · intro f' hf'
      have hf'' : f' ∈ s.arrFaces := hf'
      by_cases hne : f' = fid
      · rw [hfc3 f', if_pos hne]
        refine ⟨hnfd.1, hnfd.2.1, hnfd.2.2, hnl _ ?_, hnl _ ?_, hnl _ ?_⟩
        · unfold fverts; simp
        · unfold fverts; simp
        · unfold fverts; simp
      · rw [hfc3 f', if_neg hne]
        exact hc.face f' hf''
  rw [hdef]
  refine ⟨rfl, rfl, rfl, ?_, ?_, hfields, ?_, ?_, ?_, ?_, hpre3, hN3, hEx3, ?_⟩
  · intro f' hne
    rw [hfc3 f', if_neg hne]
  · intro w hwu hwv
    rw [hvtx3 w, if_neg hwv, if_neg hwu]
  · rw [hvtx3 uid, if_neg huv, if_pos rfl]
  · rw [hvtx3 vid, if_pos rfl]
  · rw [hfc3 fid, if_pos rfl]
    exact hnfd
  · intro w
    rw [hfc3 fid, if_pos rfl]
    exact hnfmem w
  · intro f' hf'
    rw [hvtx3 uid, if_neg huv, if_pos rfl] at hf'
    dsimp only at hf'
    rw [List.Nodup.mem_erase_iff hnd0] at hf'
    obtain ⟨hne, hfo⟩ := hf'
    rw [hfc3 f', if_neg hne]
    exact hP f' hfo

/-- The six pruning calls of the rewrite iteration: neighbor lists only
shrink, vertices away from u and the face are untouched, and the neighbor
invariants survive. -/

lemma rewritePairs_spec (s : VF Pos Nrm) (uid fid : Nat)
    (hFL : FacesListOk s) (hN : NbrOk s)
    (hu : uid ∈ s.arrVertices)
    (hl1 : (s.fc fid).v1 ∈ s.arrVertices)
    (hl2 : (s.fc fid).v2 ∈ s.arrVertices)
    (hl3 : (s.fc fid).v3 ∈ s.arrVertices) :
    NbrOnly s (rewritePairs uid fid s) ∧
    (∀ w, w ≠ uid → w ∉ fverts (s.fc fid) →
      (rewritePairs uid fid s).vtx w = s.vtx w) ∧
    (∀ w x, x ∈ ((rewritePairs uid fid s).vtx w).neighbors
      → x ∈ (s.vtx w).neighbors) ∧
    NbrOk (rewritePairs uid fid s) ∧
    (∀ f0, FaceNbrOkExcept s f0 → FaceNbrOkExcept (rewritePairs uid fid s) f0) := by
  obtain ⟨p1no, p1un, p1sh, p1N, p1Ex⟩ :=
    removeNonNeighbors_spec s uid (s.fc fid).v1 hFL hN hu hl1
  set t1 := removeNonNeighbors s uid (s.fc fid).v1 with ht1
  have hFL1 : FacesListOk t1 := nbrOnly_facesListOk p1no hFL
  obtain ⟨p2no, p2un, p2sh, p2N, p2Ex⟩ :=
    removeNonNeighbors_spec t1 uid (s.fc fid).v2 hFL1 p1N
      (by rw [p1no.1]; exact hu) (by rw [p1no.1]; exact hl2)
  set t2 := removeNonNeighbors t1 uid (s.fc fid).v2 with ht2
  have hFL2 : FacesListOk t2 := nbrOnly_facesListOk p2no hFL1
  obtain ⟨p3no, p3un, p3sh, p3N, p3Ex⟩ :=
    removeNonNeighbors_spec t2 uid (s.fc fid).v3 hFL2 p2N
      (by rw [p2no.1, p1no.1]; exact hu) (by rw [p2no.1, p1no.1]; exact hl3)
  set t3 := removeNonNeighbors t2 uid (s.fc fid).v3 with ht3
  have hdef : rewritePairs uid fid s = t3 := rfl
  rw [hdef]
  refine ⟨nbrOnly_trans (nbrOnly_trans p1no p2no) p3no, ?_, ?_, p3N, ?_⟩
  · intro w hwu hwf
    have hw1 : w ≠ (s.fc fid).v1 := fun he => hwf (by rw [he]; unfold fverts; simp)
    have hw2 : w ≠ (s.fc fid).v2 := fun he => hwf (by rw [he]; unfold fverts; simp)
    have hw3 : w ≠ (s.fc fid).v3 := fun he => hwf (by rw [he]; unfold fverts; simp)
    rw [p3un w hwu hw3, p2un w hwu hw2, p1un w hwu hw1]
  · intro w x hx
    exact p1sh w x (p2sh w x (p3sh w x hx))
  · intro f0 h
    exact p3Ex f0 (p2Ex f0 (p1Ex f0 h))

/-- The six addUniqueNeighbor calls of the rewrite iteration: afterwards the
face's three (distinct, live) vertex references are pairwise neighbors, all
previous neighbor relations survive, and the neighbor invariants hold; with
the remaining faces already covered this restores the full neighbor cover. -/

lemma rewriteAdds_spec (s : VF Pos Nrm) (fid : Nat) (hN : NbrOk s)
    (hd12 : (s.fc fid).v1 ≠ (s.fc fid).v2)
    (hd23 : (s.fc fid).v2 ≠ (s.fc fid).v3)
    (hd13 : (s.fc fid).v1 ≠ (s.fc fid).v3)
    (hl1 : (s.fc fid).v1 ∈ s.arrVertices)
    (hl2 : (s.fc fid).v2 ∈ s.arrVertices)
    (hl3 : (s.fc fid).v3 ∈ s.arrVertices)
    (hEx : FaceNbrOkExcept s fid) :
    NbrOnly s (rewriteAdds fid s) ∧
    (∀ w, w ∉ fverts (s.fc fid) → (rewriteAdds fid s).vtx w = s.vtx w) ∧
    NbrOk (rewriteAdds fid s) ∧
    FaceNbrOk (rewriteAdds fid s) := by
  obtain ⟨q1, q1un, q1m⟩ := addUnique_nbrOnly s (s.fc fid).v1 (s.fc fid).v2
  set t1 := addUniqueNeighbor s (s.fc fid).v1 (s.fc fid).v2 with ht1
  obtain ⟨q2, q2un, q2m⟩ := addUnique_nbrOnly t1 (s.fc fid).v1 (s.fc fid).v3
  set t2 := addUniqueNeighbor t1 (s.fc fid).v1 (s.fc fid).v3 with ht2
  obtain ⟨q3, q3un, q3m⟩ := addUnique_nbrOnly t2 (s.fc fid).v2 (s.fc fid).v1
  set t3 := addUniqueNeighbor t2 (s.fc fid).v2 (s.fc fid).v1 with ht3
  obtain ⟨q4, q4un, q4m⟩ := addUnique_nbrOnly t3 (s.fc fid).v2 (s.fc fid).v3
  set t4 := addUniqueNeighbor t3 (s.fc fid).v2 (s.fc fid).v3 with ht4
  obtain ⟨q5, q5un, q5m⟩ := addUnique_nbrOnly t4 (s.fc fid).v3 (s.fc fid).v1
  set t5 := addUniqueNeighbor t4 (s.fc fid).v3 (s.fc fid).v1 with ht5
  obtain ⟨q6, q6un, q6m⟩ := addUnique_nbrOnly t5 (s.fc fid).v3 (s.fc fid).v2
  set t6 := addUniqueNeighbor t5 (s.fc fid).v3 (s.fc fid).v2 with ht6
  have hdef : rewriteAdds fid s = t6 := rfl
  have hno : NbrOnly s t6 :=
    nbrOnly_trans (nbrOnly_trans (nbrOnly_trans (nbrOnly_trans (nbrOnly_trans q1 q2) q3) q4) q5) q6
  have hmem : ∀ w x, x ∈ (t6.vtx w).neighbors ↔
      (x ∈ (s.vtx w).neighbors ∨
        (w = (s.fc fid).v1 ∧ x = (s.fc fid).v2) ∨
        (w = (s.fc fid).v1 ∧ x = (s.fc fid).v3) ∨
        (w = (s.fc fid).v2 ∧ x = (s.fc fid).v1) ∨
        (w = (s.fc fid).v2 ∧ x = (s.fc fid).v3) ∨
        (w = (s.fc fid).v3 ∧ x = (s.fc fid).v1) ∨
        (w = (s.fc fid).v3 ∧ x = (s.fc fid).v2)) := by
    intro w x
    rw [q6m w x, q5m w x, q4m w x, q3m w x, q2m w x, q1m w x]
    simp only [or_assoc]
  have hnd6 : ∀ w, ((s.vtx w).neighbors).Nodup → ((t6.vtx w).neighbors).Nodup := by
    intro w h
    rw [ht6]
    refine addUnique_nodup t5 _ _ w ?_
    rw [ht5]
    refine addUnique_nodup t4 _ _ w ?_
    rw [ht4]
    refine addUnique_nodup t3 _ _ w ?_
    rw [ht3]
    refine addUnique_nodup t2 _ _ w ?_
    rw [ht2]
    refine addUnique_nodup t1 _ _ w ?_
    rw [ht1]
    exact addUnique_nodup s _ _ w h
  have hN6 : NbrOk t6 := by
    intro w hw
    rw [hno.1] at hw
    obtain ⟨hn1, hn2, hn3⟩ := hN w hw
    refine ⟨hnd6 w hn1, ?_, ?_⟩
    · intro hx
      rw [hmem w w] at hx
      rcases hx with hx | ⟨rfl, he⟩ | ⟨rfl, he⟩ | ⟨rfl, he⟩ | ⟨rfl, he⟩ |
        ⟨rfl, he⟩ | ⟨rfl, he⟩
      · exact hn2 hx
      · exact hd12 he
      · exact hd13 he
      · exact hd12 he.symm
      · exact hd23 he
      · exact hd13 he.symm
      · exact hd23 he.symm
    · intro x hx
      rw [hmem w x] at hx
      rw [hno.1]
      rcases hx with hx | ⟨rfl, rfl⟩ | ⟨rfl, rfl⟩ | ⟨rfl, rfl⟩ | ⟨rfl, rfl⟩ |
        ⟨rfl, rfl⟩ | ⟨rfl, rfl⟩
      · obtain ⟨hxl, hxs⟩ := hn3 x hx
        refine ⟨hxl, ?_⟩
        rw [hmem x w]
        exact Or.inl hxs
      · exact ⟨hl2, by
          rw [hmem]
          exact Or.inr (Or.inr (Or.inr (Or.inl ⟨rfl, rfl⟩)))⟩
      · exact ⟨hl3, by
          rw [hmem]
          exact Or.inr (Or.inr (Or.inr (Or.inr (Or.inr (Or.inl ⟨rfl, rfl⟩)))))⟩
      · exact ⟨hl1, by
          rw [hmem]
          exact Or.inr (Or.inl ⟨rfl, rfl⟩)⟩
      · exact ⟨hl3, by
          rw [hmem]
          exact Or.inr (Or.inr (Or.inr (Or.inr (Or.inr (Or.inr ⟨rfl, rfl⟩)))))⟩
      · exact ⟨hl1, by
          rw [hmem]
          exact Or.inr (Or.inr (Or.inl ⟨rfl, rfl⟩))⟩
      · exact ⟨hl2, by
          rw [hmem]
          exact Or.inr (Or.inr (Or.inr (Or.inr (Or.inl ⟨rfl, rfl⟩))))⟩
  have hFN6 : FaceNbrOk t6 := by
    intro f hf a' ha' b' hb' hne
    rw [hno.2.1] at hf
    rw [hno.2.2.2.1] at ha' hb'
    by_cases hffid : f = fid
    · rw [hffid] at ha' hb'
      unfold fverts at ha' hb'
      simp only [List.mem_cons, List.not_mem_nil, or_false] at ha' hb'
      rw [hmem]
      rcases ha' with rfl | rfl | rfl <;> rcases hb' with rfl | rfl | rfl
      · exact absurd rfl hne
      · exact Or.inr (Or.inl ⟨rfl, rfl⟩)
      · exact Or.inr (Or.inr (Or.inl ⟨rfl, rfl⟩))
      · exact Or.inr (Or.inr (Or.inr (Or.inl ⟨rfl, rfl⟩)))
      · exact absurd rfl hne
      · exact Or.inr (Or.inr (Or.inr (Or.inr (Or.inl ⟨rfl, rfl⟩))))
      · exact Or.inr (Or.inr (Or.inr (Or.inr (Or.inr (Or.inl ⟨rfl, rfl⟩)))))
      · exact Or.inr (Or.inr (Or.inr (Or.inr (Or.inr (Or.inr ⟨rfl, rfl⟩)))))
      · exact absurd rfl hne
    · rw [hmem]
      exact Or.inl (hEx f hf hffid a' ha' b' hb' hne)
  rw [hdef]
  refine ⟨hno, ?_, hN6, hFN6⟩
  · intro w hwf
    have hw1 : w ≠ (s.fc fid).v1 := fun he => hwf (by rw [he]; unfold fverts; simp)
    have hw2 : w ≠ (s.fc fid).v2 := fun he => hwf (by rw [he]; unfold fverts; simp)
    have hw3 : w ≠ (s.fc fid).v3 := fun he => hwf (by rw [he]; unfold fverts; simp)
    rw [q6un w hw3, q5un w hw3, q4un w hw2, q3un w hw2, q2un w hw1, q1un w hw1]

lemma eraseIdx_of_le {α : Type} (l : List α) (i : Nat) (h : l.length ≤ i) :
    l.eraseIdx i = l := by
  induction l generalizing i with
  | nil => rfl
  | cons x l ih =>
    cases i with
    | zero => simp at h
    | succ i => rw [List.eraseIdx_cons_succ, ih i (by simpa using h)]

lemma nbrOnly_vtx_cost {s t : VF Pos Nrm} (h : NbrOnly s t) (w : Nat) :
    (t.vtx w).collapseCost = (s.vtx w).collapseCost := by
  obtain ⟨nb, e⟩ := h.2.2.2.2 w
  rw [e]

/-- Recomputing a face's normal and centroid changes nothing structural. -/

lemma recomputeFace_spec (g : Geom Pos Nrm) (fid : Nat) (s : VF Pos Nrm) :
    (recomputeFace g fid s).vtx = s.vtx ∧
    (recomputeFace g fid s).arrVertices = s.arrVertices ∧
    (recomputeFace g fid s).arrFaces = s.arrFaces ∧
    (recomputeFace g fid s).arrVerticesByCost = s.arrVerticesByCost ∧
    (∀ f', f' ≠ fid → (recomputeFace g fid s).fc f' = s.fc f') ∧
    (∀ f', fverts ((recomputeFace g fid s).fc f') = fverts (s.fc f')) ∧
    (WFcore s → WFcore (recomputeFace g fid s)) := by
  have hfc : ∀ f', f' ≠ fid → (recomputeFace g fid s).fc f' = s.fc f' := by
    intro f' hne
    unfold recomputeFace
    dsimp only
    rw [setFc_fc, if_neg hne]
  have hcompfid : ((recomputeFace g fid s).fc fid).v1 = (s.fc fid).v1 ∧
      ((recomputeFace g fid s).fc fid).v2 = (s.fc fid).v2 ∧
      ((recomputeFace g fid s).fc fid).v3 = (s.fc fid).v3 := by
    unfold recomputeFace
    dsimp only
    rw [setFc_fc, if_pos rfl]
    exact ⟨rfl, rfl, rfl⟩
  have hcomp : ∀ f', ((recomputeFace g fid s).fc f').v1 = (s.fc f').v1 ∧
      ((recomputeFace g fid s).fc f').v2 = (s.fc f').v2 ∧
      ((recomputeFace g fid s).fc f').v3 = (s.fc f').v3 := by
    intro f'
    by_cases hne : f' = fid
    · rw [hne]
      exact hcompfid
    · rw [hfc f' hne]
      exact ⟨rfl, rfl, rfl⟩
  have hfv : ∀ f', fverts ((recomputeFace g fid s).fc f') = fverts (s.fc f') := by
    intro f'
    unfold fverts
    rw [(hcomp f').1, (hcomp f').2.1, (hcomp f').2.2]
  have hhv : ∀ f' w, ((recomputeFace g fid s).fc f').hasVertex w
      ↔ (s.fc f').hasVertex w := by
    intro f' w
    rw [hasVertex_iff_mem_fverts, hasVertex_iff_mem_fverts, hfv f']
  refine ⟨rfl, rfl, rfl, rfl, hfc, hfv, ?_⟩
  intro hc
  refine ⟨hc.ndV, hc.ndF, hc.idx, hc.perm, ?_, ?_, hc.nbr, ?_⟩
  · intro f hf
    obtain ⟨a1, a2, a3, a4, a5, a6⟩ := hc.face f hf
    rw [(hcomp f).1, (hcomp f).2.1, (hcomp f).2.2]
    exact ⟨a1, a2, a3, a4, a5, a6⟩
  · intro w hw
    obtain ⟨b1, b2, b3⟩ := hc.flists w hw
    refine ⟨b1, ?_, ?_⟩
    · intro f hf
      obtain ⟨hl, hv⟩ := b2 f hf
      exact ⟨hl, (hhv f w).mpr hv⟩
    · intro f hl hv
      exact b3 f hl ((hhv f w).mp hv)
  · intro f hf a' ha' b' hb' hne
    rw [hfv f] at ha' hb'
    exact hc.fnbr f hf a' ha' b' hb' hne

/-- One face-rewrite iteration on a well-formed graph: position i of u's
face list disappears from it, the survivors still avoid v, all structural
invariants hold afterwards, and only u, v and u's neighbors are touched. -/

lemma rewriteFaceAt_spec (g : Geom Pos Nrm) (s : VF Pos Nrm) (uid vid i : Nat)
    (hc : WFcore s) (hu : uid ∈ s.arrVertices) (hv : vid ∈ s.arrVertices)
    (huv : uid ≠ vid)
    (hP : ∀ f ∈ (s.vtx uid).faces, ¬ (s.fc f).hasVertex vid) :
    WFcore (rewriteFaceAt g uid vid i s) ∧
    (rewriteFaceAt g uid vid i s).arrVertices = s.arrVertices ∧
    (rewriteFaceAt g uid vid i s).arrFaces = s.arrFaces ∧
    (rewriteFaceAt g uid vid i s).arrVerticesByCost = s.arrVerticesByCost ∧
    ((rewriteFaceAt g uid vid i s).vtx uid).faces = (s.vtx uid).faces.eraseIdx i ∧
    (∀ f ∈ ((rewriteFaceAt g uid vid i s).vtx uid).faces,
      ¬ ((rewriteFaceAt g uid vid i s).fc f).hasVertex vid) ∧
    (∀ w, ((rewriteFaceAt g uid vid i s).vtx w).index = (s.vtx w).index ∧
      ((rewriteFaceAt g uid vid i s).vtx w).collapseNeighbor
        = (s.vtx w).collapseNeighbor ∧
      ((rewriteFaceAt g uid vid i s).vtx w).collapseCost = (s.vtx w).collapseCost) ∧
    (∀ w, w ≠ uid → w ≠ vid → w ∉ (s.vtx uid).neighbors →
      (rewriteFaceAt g uid vid i s).vtx w = s.vtx w) ∧
    (∀ x, x ∈ ((rewriteFaceAt g uid vid i s).vtx uid).neighbors →
      x ∈ (s.vtx uid).neighbors) := by
  have h0 : rewriteFaceAt g uid vid i s
      = match (s.vtx uid).faces.get? i with
        | none => s
        | some fid => recomputeFace g fid (rewriteAdds fid (rewritePairs uid fid
            (rewriteMove uid vid fid i s))) := rfl
  obtain ⟨hnd0, hfwd0, hbwd0⟩ := hc.flists uid hu
  rcases hget : (s.vtx uid).faces.get? i with - | fid
  · have hstep : rewriteFaceAt g uid vid i s = s := by rw [h0, hget]
    have hlen : (s.vtx uid).faces.length ≤ i := List.get?_eq_none.mp hget
    rw [hstep, eraseIdx_of_le _ _ hlen]
    exact ⟨hc, rfl, rfl, rfl, rfl, hP, fun w => ⟨rfl, rfl, rfl⟩,
      fun w _ _ _ => rfl, fun x h => h⟩
  · obtain ⟨m1, m2, m3, m4, m5, m6, m7, m8, m9, m10, mpre, mN, mEx, mP⟩ :=
      rewriteMove_spec s uid vid fid i hc hu hv huv hget hP
    set s3 := rewriteMove uid vid fid i s with hs3
    obtain ⟨hfidlive, hfiduid⟩ := hfwd0 fid (List.get?_mem hget)
    have huidmem : uid ∈ fverts (s.fc fid) := (hasVertex_iff_mem_fverts _ _).mp hfiduid
    obtain ⟨-, -, -, hq1, hq2, hq3⟩ := hc.face fid hfidlive
    have hnl3 : ∀ w ∈ fverts (s3.fc fid), w ∈ s3.arrVertices := by
      intro w hw
      rw [m1]
      rcases (m10 w).mp hw with rfl | ⟨hwold, -⟩
      · exact hv
      · unfold fverts at hwold
        simp only [List.mem_cons, List.not_mem_nil, or_false] at hwold
        rcases hwold with rfl | rfl | rfl
        · exact hq1
        · exact hq2
        · exact hq3
    have hl1 : (s3.fc fid).v1 ∈ s3.arrVertices := hnl3 _ (by unfold fverts; simp)
    have hl2 : (s3.fc fid).v2 ∈ s3.arrVertices := hnl3 _ (by unfold fverts; simp)
    have hl3 : (s3.fc fid).v3 ∈ s3.arrVertices := hnl3 _ (by unfold fverts; simp)
    have hnotf3 : ∀ w, w ≠ vid → w ∉ (s.vtx uid).neighbors →
        w ∉ fverts (s3.fc fid) := by
      intro w hwv hwn hw
      rcases (m10 w).mp hw with rfl | ⟨hwold, hwu⟩
      · exact hwv rfl
      · exact hwn (hc.fnbr fid hfidlive uid huidmem w hwold
          (fun he => hwu he.symm))
    have huidnot3 : uid ∉ fverts (s3.fc fid) := by
      intro hx
      rcases (m10 uid).mp hx with he | ⟨-, hne⟩
      · exact huv he
      · exact hne rfl
    obtain ⟨pno, pun, psh, pN, pEx⟩ :=
      rewritePairs_spec s3 uid fid mpre.flists mN (by rw [m1]; exact hu) hl1 hl2 hl3
    set s9 := rewritePairs uid fid s3 with hs9
    have hpre9 : WFpre s9 := nbrOnly_wfpre pno mpre
    have hEx9 : FaceNbrOkExcept s9 fid := pEx fid mEx
    have hfc9 : s9.fc = s3.fc := pno.2.2.2.1
    obtain ⟨ano, aun, aN, aFN⟩ := rewriteAdds_spec s9 fid pN
      (by rw [hfc9]; exact m9.1) (by rw [hfc9]; exact m9.2.1)
      (by rw [hfc9]; exact m9.2.2)
      (by rw [hfc9, pno.1]; exact hl1) (by rw [hfc9, pno.1]; exact hl2)
      (by rw [hfc9, pno.1]; exact hl3) hEx9
    set s15 := rewriteAdds fid s9 with hs15
    have hpre15 : WFpre s15 := nbrOnly_wfpre ano hpre9
    have hcore15 : WFcore s15 := wfcore_mk hpre15 aN aFN
    obtain ⟨r1, r2, r3, r4, r5, r6, r7⟩ := recomputeFace_spec g fid s15
    have hstep : rewriteFaceAt g uid vid i s = recomputeFace g fid s15 := by
      rw [h0, hget]
    have herase : (s.vtx uid).faces.erase fid = (s.vtx uid).faces.eraseIdx i :=
      nodup_erase_eq_eraseIdx hnd0 hget
    have hufaces : ((recomputeFace g fid s15).vtx uid).faces
        = (s.vtx uid).faces.eraseIdx i := by
      rw [r1, nbrOnly_vtx_faces ano, nbrOnly_vtx_faces pno, m7, herase]
    rw [hstep]
    refine ⟨r7 hcore15, r2.trans (ano.1.trans (pno.1.trans m1)),
      r3.trans (ano.2.1.trans (pno.2.1.trans m2)),
      r4.trans (ano.2.2.1.trans (pno.2.2.1.trans m3)), hufaces, ?_, ?_, ?_, ?_⟩
    · intro f hf
      rw [hufaces, ← herase] at hf
      rw [List.Nodup.mem_erase_iff hnd0] at hf
      obtain ⟨hne, hfo⟩ := hf
      rw [r5 f hne]
      have hfq : f ∈ (s3.vtx uid).faces := by
        rw [m7, List.Nodup.mem_erase_iff hnd0]
        exact ⟨hne, hfo⟩
      have hmp := mP f hfq
      have hfc15 : s15.fc f = s3.fc f := by rw [ano.2.2.2.1, hfc9]
      rw [hfc15]
      exact hmp
    · intro w
      refine ⟨?_, ?_, ?_⟩
      · rw [r1, nbrOnly_vtx_index ano, nbrOnly_vtx_index pno]
        exact (m6 w).1
      · rw [r1, nbrOnly_vtx_cn ano, nbrOnly_vtx_cn pno]
        exact (m6 w).2.1
      · rw [r1, nbrOnly_vtx_cost ano, nbrOnly_vtx_cost pno]
        exact (m6 w).2.2.1
    · intro w hwu hwv hwn
      have hwf3 : w ∉ fverts (s3.fc fid) := hnotf3 w hwv hwn
      have hwf9 : w ∉ fverts (s9.fc fid) := by rw [hfc9]; exact hwf3
      rw [r1, aun w hwf9, pun w hwu hwf3, m5 w hwu hwv]
    · intro x hx
      rw [r1] at hx
      have huid9 : uid ∉ fverts (s9.fc fid) := by rw [hfc9]; exact huidnot3
      rw [aun uid huid9] at hx
      have hx3 : x ∈ (s3.vtx uid).neighbors := psh uid x hx
      rw [(m6 uid).2.2.2] at hx3
      exact hx3

/-- The downward face-rewrite loop of collapse empties u's face list while
keeping the graph well-formed and touching only u, v and u's neighbors. -/

lemma rewriteFaces_spec (g : Geom Pos Nrm) (uid vid : Nat) (huv : uid ≠ vid) :
    ∀ (n : Nat) (s : VF Pos Nrm), WFcore s → uid ∈ s.arrVertices →
      vid ∈ s.arrVertices →
      (∀ f ∈ (s.vtx uid).faces, ¬ (s.fc f).hasVertex vid) →
      (s.vtx uid).faces.length = n →
      WFcore (rewriteFaces g uid vid n s) ∧
      (rewriteFaces g uid vid n s).arrVertices = s.arrVertices ∧
      (rewriteFaces g uid vid n s).arrFaces = s.arrFaces ∧
      (rewriteFaces g uid vid n s).arrVerticesByCost = s.arrVerticesByCost ∧
      ((rewriteFaces g uid vid n s).vtx uid).faces = [] ∧
      (∀ w, ((rewriteFaces g uid vid n s).vtx w).index = (s.vtx w).index ∧
        ((rewriteFaces g uid vid n s).vtx w).collapseNeighbor
          = (s.vtx w).collapseNeighbor ∧
        ((rewriteFaces g uid vid n s).vtx w).collapseCost
          = (s.vtx w).collapseCost) ∧
      (∀ w, w ≠ uid → w ≠ vid → w ∉ (s.vtx uid).neighbors →
        (rewriteFaces g uid vid n s).vtx w = s.vtx w) ∧
      (∀ x, x ∈ ((rewriteFaces g uid vid n s).vtx uid).neighbors →
        x ∈ (s.vtx uid).neighbors) := by
  intro n
  induction n with
  | zero =>
    intro s hc hu hv hP hlen
    have h0 : rewriteFaces g uid vid 0 s = s := rfl
    rw [h0]
    exact ⟨hc, rfl, rfl, rfl, List.length_eq_zero.mp hlen,
      fun w => ⟨rfl, rfl, rfl⟩, fun w _ _ _ => rfl, fun x h => h⟩
  | succ i ih =>
    intro s hc hu hv hP hlen
    have h0 : rewriteFaces g uid vid (i + 1) s
        = rewriteFaces g uid vid i (rewriteFaceAt g uid vid i s) := rfl
    obtain ⟨a1, a2, a3, a4, a5, a6, a7, a8, a9⟩ :=
      rewriteFaceAt_spec g s uid vid i hc hu hv huv hP
    set s' := rewriteFaceAt g uid vid i s with hs'
    have hlt : i < (s.vtx uid).faces.length := by rw [hlen]; omega
    have hlen' : ((s'.vtx uid).faces).length = i := by
      have := List.length_eraseIdx_add_one hlt
      rw [a5]
      omega
    obtain ⟨b1, b2, b3, b4, b5, b6, b7, b8⟩ := ih s' a1
      (by rw [a2]; exact hu) (by rw [a2]; exact hv) a6 hlen'
    rw [h0]
    refine ⟨b1, b2.trans a2, b3.trans a3, b4.trans a4, b5, ?_, ?_, ?_⟩
    · intro w
      obtain ⟨c1, c2, c3⟩ := b6 w
      obtain ⟨d1, d2, d3⟩ := a7 w
      exact ⟨c1.trans d1, c2.trans d2, c3.trans d3⟩
    · intro w hwu hwv hwn
      have hwn' : w ∉ (s'.vtx uid).neighbors := fun hx => hwn (a9 w hx)
      rw [b7 w hwu hwv hwn', a8 w hwu hwv hwn]
    · intro x hx
      exact a9 x (b8 x hx)

/-! ## Invariance of removeVertex -/

lemma getD_eq_get?D {α : Type} (l : List α) (n : Nat) (d : α) :
    l.getD n d = (l.get? n).getD d := rfl

lemma get?_eraseIdx_lt {α : Type} (l : List α) (i j : Nat) (h : j < i) :
    (l.eraseIdx i).get? j = l.get? j := by
  induction l generalizing i j with
  | nil => rfl
  | cons x l ih =>
    cases i with
    | zero => omega
    | succ i =>
      rw [List.eraseIdx_cons_succ]
      cases j with
      | zero => rfl
      | succ j =>
        rw [List.get?_cons_succ, List.get?_cons_succ, ih i j (by omega)]

/-- Characterization of the fold that drops the removed vertex from each
of its neighbors' neighbor lists. -/

lemma eraseNbrFold_spec (uid : Nat) (ns : List Nat) (hnd : ns.Nodup) :
    ∀ t : VF Pos Nrm,
      (ns.foldl (fun t n =>
          let nv := t.vtx n
          setVtx t n { nv with neighbors := nv.neighbors.erase uid }) t).arrVertices
        = t.arrVertices ∧
      (ns.foldl (fun t n =>
          let nv := t.vtx n
          setVtx t n { nv with neighbors := nv.neighbors.erase uid }) t).arrFaces
        = t.arrFaces ∧
      (ns.foldl (fun t n =>
          let nv := t.vtx n
          setVtx t n { nv with neighbors := nv.neighbors.erase uid }) t).arrVerticesByCost
        = t.arrVerticesByCost ∧
      (ns.foldl (fun t n =>
          let nv := t.vtx n
          setVtx t n { nv with neighbors := nv.neighbors.erase uid }) t).fc = t.fc ∧
      (∀ w, w ∉ ns →
        (ns.foldl (fun t n =>
          let nv := t.vtx n
          setVtx t n { nv with neighbors := nv.neighbors.erase uid }) t).vtx w
          = t.vtx w) ∧
      (∀ w ∈ ns,
        (ns.foldl (fun t n =>
          let nv := t.vtx n
          setVtx t n { nv with neighbors := nv.neighbors.erase uid }) t).vtx w
          = { t.vtx w with neighbors := (t.vtx w).neighbors.erase uid }) := by
  induction ns with
  | nil =>
    exact fun t => ⟨rfl, rfl, rfl, rfl, fun _ _ => rfl, fun w hw => absurd hw (by simp)⟩
  | cons v rest ih =>
    intro t
    obtain ⟨hvr, hndr⟩ := List.nodup_cons.mp hnd
    obtain ⟨i1, i2, i3, i4, i5, i6⟩ := ih hndr
      (setVtx t v { t.vtx v with neighbors := (t.vtx v).neighbors.erase uid })
    rw [List.foldl_cons]
    refine ⟨by rw [i1]; rfl, by rw [i2]; rfl, by rw [i3]; rfl, by rw [i4]; rfl, ?_, ?_⟩
    · intro w hw
      have hwv : w ≠ v := fun he => hw (he ▸ List.mem_cons_self v rest)
      have hwr : w ∉ rest := fun he => hw (List.mem_cons_of_mem v he)
      rw [i5 w hwr]
      simp [setVtx, hwv]
    · intro w hw
      rcases List.mem_cons.mp hw with rfl | hwr
      · rw [i5 w hvr]
        simp [setVtx]
      · have hwv : w ≠ v := fun he => hvr (he ▸ hwr)
        rw [i6 w hwr]
        simp [setVtx, hwv]

/-- Characterization of the index-renumbering loop: it assigns consecutive
indices along the listed ids and changes nothing else. -/

lemma renumberAux_spec (ids : List Nat) :
    ∀ (k : Nat) (s : VF Pos Nrm), ids.Nodup →
      (renumberAux ids k s).arrVertices = s.arrVertices ∧
      (renumberAux ids k s).arrFaces = s.arrFaces ∧
      (renumberAux ids k s).arrVerticesByCost = s.arrVerticesByCost ∧
      (renumberAux ids k s).fc = s.fc ∧
      (∀ w, w ∉ ids → (renumberAux ids k s).vtx w = s.vtx w) ∧
      (∀ j a, ids.get? j = some a →
        (renumberAux ids k s).vtx a = { s.vtx a with index := k + j }) := by
  induction ids with
  | nil =>
    intro k s hnd
    exact ⟨rfl, rfl, rfl, rfl, fun _ _ => rfl, fun j a h => absurd h (by simp)⟩
  | cons idv rest ih =>
    intro k s hnd
    obtain ⟨hvr, hndr⟩ := List.nodup_cons.mp hnd
    have h0 : renumberAux (idv :: rest) k s
        = renumberAux rest (k + 1) (setVtx s idv { s.vtx idv with index := k }) := rfl
    obtain ⟨i1, i2, i3, i4, i5, i6⟩ :=
      ih (k + 1) (setVtx s idv { s.vtx idv with index := k }) hndr
    rw [h0]
    refine ⟨by rw [i1]; rfl, by rw [i2]; rfl, by rw [i3]; rfl, by rw [i4]; rfl, ?_, ?_⟩
    · intro w hw
      have hwv : w ≠ idv := fun he => hw (he ▸ List.mem_cons_self idv rest)
      have hwr : w ∉ rest := fun he => hw (List.mem_cons_of_mem idv he)
      rw [i5 w hwr]
      simp [setVtx, hwv]
    · intro j a hget
      cases j with
      | zero =>
        rw [List.get?_cons_zero] at hget
        obtain rfl := Option.some.inj hget
        rw [i5 idv hvr]
        simp [setVtx]
      | succ j =>
        rw [List.get?_cons_succ] at hget
        have hane : a ≠ idv := by
          intro he
          subst he
          exact hvr (List.get?_mem hget)
        rw [i6 j a hget]
        have harith : k + 1 + j = k + (j + 1) := by omega
        rw [harith]
        simp [setVtx, hane]

/-- Full effect of removeVertex on a well-formed graph whose target sits in
no live face: the vertex leaves the vertex list, later vertices slide down
one index position, the cost array is re-based, all neighbor lists drop the
vertex, and every structural invariant survives. -/

lemma removeVertex_spec (s : VF Pos Nrm) (uid : Nat)
    (hc : WFcore s) (hu : uid ∈ s.arrVertices)
    (hnoface : ∀ f ∈ s.arrFaces, ¬ (s.fc f).hasVertex uid) :
    WFcore (removeVertex s uid) ∧
    (removeVertex s uid).arrVertices = s.arrVertices.erase uid ∧
    (removeVertex s uid).arrVertices.length + 1 = s.arrVertices.length ∧
    (removeVertex s uid).arrFaces = s.arrFaces ∧
    (removeVertex s uid).fc = s.fc ∧
    (∀ w, ((removeVertex s uid).vtx w).collapseNeighbor
        = (s.vtx w).collapseNeighbor ∧
      ((removeVertex s uid).vtx w).collapseCost = (s.vtx w).collapseCost ∧
      ((removeVertex s uid).vtx w).faces = (s.vtx w).faces) ∧
    (∀ w, w ≠ uid → w ∉ (s.vtx uid).neighbors →
      ((removeVertex s uid).vtx w).neighbors = (s.vtx w).neighbors) ∧
    (∀ w x, x ∈ ((removeVertex s uid).vtx w).neighbors
        → x ∈ (s.vtx w).neighbors) := by
  obtain ⟨p, hpget⟩ := List.mem_iff_get?.mp hu
  have hplt : p < s.arrVertices.length := by
    rcases List.get?_eq_some.mp hpget with ⟨h, -⟩
    exact h
  have hgetD : s.arrVertices.getD p 0 = uid := by
    rw [getD_eq_get?D, hpget]
    rfl
  have hindex : (s.vtx uid).index = p := by
    have h := hc.idx p hplt
    rw [hgetD] at h
    exact h
  obtain ⟨hnd_u, hirr_u, hlive_u⟩ := hc.nbr uid hu
  have hndrev : ((s.vtx uid).neighbors.reverse).Nodup := List.nodup_reverse.mpr hnd_u
  obtain ⟨e1, e2, e3, e4, e5, e6⟩ :=
    eraseNbrFold_spec uid ((s.vtx uid).neighbors.reverse) hndrev s
  set s1 := ((s.vtx uid).neighbors.reverse).foldl (fun t n =>
    let nv := t.vtx n
    setVtx t n { nv with neighbors := nv.neighbors.erase uid }) s with hs1
  set s2 := setVtx s1 uid { s1.vtx uid with neighbors := [] } with hs2
  have hs2vtx : ∀ w, s2.vtx w
      = if w = uid then { s1.vtx uid with neighbors := [] } else s1.vtx w := by
    intro w
    rw [hs2, setVtx_vtx]
  have harr2 : s2.arrVertices = s.arrVertices := by rw [hs2, setVtx_arrVertices, e1]
  have harrF2 : s2.arrFaces = s.arrFaces := by rw [hs2, setVtx_arrFaces, e2]
  have hbc2 : s2.arrVerticesByCost = s.arrVerticesByCost := by
    rw [hs2, setVtx_arrVerticesByCost, e3]
  have hfc2 : s2.fc = s.fc := by rw [hs2, setVtx_fc, e4]
  set s3 : VF Pos Nrm :=
    { s2 with arrVertices := s2.arrVertices.eraseIdx (s.vtx uid).index } with hs3
  have hvtx3 : s3.vtx = s2.vtx := by rw [hs3]
  have harr3 : s3.arrVertices = s.arrVertices.eraseIdx p := by
    rw [hs3]
    show s2.arrVertices.eraseIdx (s.vtx uid).index = _
    rw [harr2, hindex]
  have harrF3 : s3.arrFaces = s.arrFaces := by
    rw [hs3]
    show s2.arrFaces = _
    exact harrF2
  have hbc3 : s3.arrVerticesByCost = s.arrVerticesByCost := by
    rw [hs3]
    show s2.arrVerticesByCost = _
    exact hbc2
  have hfc3 : s3.fc = s.fc := by
    rw [hs3]
    show s2.fc = _
    exact hfc2
  have herase_eq : s.arrVertices.erase uid = s.arrVertices.eraseIdx p :=
    nodup_erase_eq_eraseIdx hc.ndV hpget
  have hndnew : (s.arrVertices.eraseIdx p).Nodup :=
    hc.ndV.sublist (List.eraseIdx_sublist s.arrVertices p)
  have huid_not : uid ∉ s.arrVertices.eraseIdx p := by
    rw [← herase_eq]
    exact fun hx => ((List.Nodup.mem_erase_iff hc.ndV).mp hx).1 rfl
  set ids := s3.arrVertices.drop (s.vtx uid).index with hids
  have hids_eq : ids = (s.arrVertices.eraseIdx p).drop p := by
    rw [hids, harr3, hindex]
  have hidsnd : ids.Nodup := by
    rw [hids_eq]
    exact hndnew.sublist (List.drop_sublist p _)
  obtain ⟨r1, r2, r3, r4, r5, r6⟩ := renumberAux_spec ids (s.vtx uid).index s3 hidsnd
  set s4 := renumberAux ids (s.vtx uid).index s3 with hs4
  set bc1 := if (s.vtx uid).index ∈ s4.arrVerticesByCost
      then s4.arrVerticesByCost.erase (s.vtx uid).index
      else s4.arrVerticesByCost with hbc1def
  have hdef : removeVertex s uid
      = { s4 with arrVerticesByCost := bc1.map (fun j => if (s.vtx uid).index < j then j - 1 else j) } := rfl
  have hvtx_t : (removeVertex s uid).vtx = s4.vtx := by rw [hdef]
  have harr_t : (removeVertex s uid).arrVertices = s.arrVertices.erase uid := by
    rw [hdef]
    show s4.arrVertices = _
    rw [r1, harr3, herase_eq]
  have harrF_t : (removeVertex s uid).arrFaces = s.arrFaces := by
    rw [hdef]
    show s4.arrFaces = _
    rw [r2, harrF3]
  have hfc_t : (removeVertex s uid).fc = s.fc := by
    rw [hdef]
    show s4.fc = _
    rw [r4, hfc3]
  have hlen_t : (removeVertex s uid).arrVertices.length + 1
      = s.arrVertices.length := by
    rw [harr_t, List.length_erase_of_mem hu]
    have := List.length_pos_of_mem hu
    omega
  have hbc4 : s4.arrVerticesByCost = s.arrVerticesByCost := r3.trans hbc3
  have hpmem : (s.vtx uid).index ∈ s4.arrVerticesByCost := by
    rw [hbc4, hindex]
    exact hc.perm.mem_iff.mpr (List.mem_range.mpr hplt)
  have hbc_t : (removeVertex s uid).arrVerticesByCost
      = (s.arrVerticesByCost.erase p).map
          (fun j => if p < j then j - 1 else j) := by
    rw [hdef]
    show bc1.map (fun j => if (s.vtx uid).index < j then j - 1 else j) = _
    rw [hbc1def, if_pos hpmem, hbc4, hindex]
  have hs1vtx_mem : ∀ w ∈ (s.vtx uid).neighbors,
      s1.vtx w = { s.vtx w with neighbors := (s.vtx w).neighbors.erase uid } :=
    fun w hw => e6 w (List.mem_reverse.mpr hw)
  have hs1vtx_not : ∀ w, w ∉ (s.vtx uid).neighbors → s1.vtx w = s.vtx w :=
    fun w hw => e5 w (fun hx => hw (List.mem_reverse.mp hx))
  have hfields21 : ∀ w, (s2.vtx w).collapseNeighbor = (s.vtx w).collapseNeighbor ∧
      (s2.vtx w).collapseCost = (s.vtx w).collapseCost ∧
      (s2.vtx w).faces = (s.vtx w).faces ∧
      (s2.vtx w).index = (s.vtx w).index := by
    intro w
    rw [hs2vtx w]
    by_cases hwu : w = uid
    · subst hwu
      rw [if_pos rfl, hs1vtx_not w hirr_u]
      exact ⟨rfl, rfl, rfl, rfl⟩
    · rw [if_neg hwu]
      by_cases hw : w ∈ (s.vtx uid).neighbors
      · rw [hs1vtx_mem w hw]
        exact ⟨rfl, rfl, rfl, rfl⟩
      · rw [hs1vtx_not w hw]
        exact ⟨rfl, rfl, rfl, rfl⟩
  have hfields43 : ∀ w, (s4.vtx w).collapseNeighbor = (s3.vtx w).collapseNeighbor ∧
      (s4.vtx w).collapseCost = (s3.vtx w).collapseCost ∧
      (s4.vtx w).faces = (s3.vtx w).faces ∧
      (s4.vtx w).neighbors = (s3.vtx w).neighbors := by
    intro w
    by_cases hw : w ∈ ids
    · obtain ⟨j, hj⟩ := List.mem_iff_get?.mp hw
      rw [r6 j w hj]
      exact ⟨rfl, rfl, rfl, rfl⟩
    · rw [r5 w hw]
      exact ⟨rfl, rfl, rfl, rfl⟩
  have hfields_t : ∀ w, ((removeVertex s uid).vtx w).collapseNeighbor
        = (s.vtx w).collapseNeighbor ∧
      ((removeVertex s uid).vtx w).collapseCost = (s.vtx w).collapseCost ∧
      ((removeVertex s uid).vtx w).faces = (s.vtx w).faces := by
    intro w
    rw [hvtx_t]
    refine ⟨?_, ?_, ?_⟩
    · rw [(hfields43 w).1, hvtx3, (hfields21 w).1]
    · rw [(hfields43 w).2.1, hvtx3, (hfields21 w).2.1]
    · rw [(hfields43 w).2.2.1, hvtx3, (hfields21 w).2.2.1]
  have hnbrsT : ∀ w, w ≠ uid → ((removeVertex s uid).vtx w).neighbors
      = if w ∈ (s.vtx uid).neighbors then (s.vtx w).neighbors.erase uid
        else (s.vtx w).neighbors := by
    intro w hwu
    rw [hvtx_t, (hfields43 w).2.2.2, hvtx3, hs2vtx w, if_neg hwu]
    by_cases hw : w ∈ (s.vtx uid).neighbors
    · rw [if_pos hw, hs1vtx_mem w hw]
    · rw [if_neg hw, hs1vtx_not w hw]
  have hnbrsUid : ((removeVertex s uid).vtx uid).neighbors = [] := by
    rw [hvtx_t, (hfields43 uid).2.2.2, hvtx3, hs2vtx uid, if_pos rfl]
  have hnmemT : ∀ w, w ≠ uid → w ∈ s.arrVertices → ∀ x,
      (x ∈ ((removeVertex s uid).vtx w).neighbors
        ↔ (x ∈ (s.vtx w).neighbors ∧ x ≠ uid)) := by
    intro w hwu hwl x
    rw [hnbrsT w hwu]
    by_cases hw : w ∈ (s.vtx uid).neighbors
    · rw [if_pos hw, List.Nodup.mem_erase_iff (hc.nbr w hwl).1]
      exact ⟨fun h => ⟨h.2, h.1⟩, fun h => ⟨h.2, h.1⟩⟩
    · rw [if_neg hw]
      constructor
      · intro hx
        refine ⟨hx, ?_⟩
        rintro rfl
        exact hw ((hc.nbr w hwl).2.2 x hx).2
      · exact fun hx => hx.1
  have hvert_ne_uid : ∀ f ∈ s.arrFaces, ∀ a ∈ fverts (s.fc f), a ≠ uid := by
    intro f hf a ha hae
    refine hnoface f hf ?_
    rw [hasVertex_iff_mem_fverts]
    rw [hae] at ha
    exact ha
  have hvert_live : ∀ f ∈ s.arrFaces, ∀ a ∈ fverts (s.fc f),
      a ∈ s.arrVertices := by
    intro f hf a ha
    obtain ⟨-, -, -, hq1, hq2, hq3⟩ := hc.face f hf
    unfold fverts at ha
    simp only [List.mem_cons, List.not_mem_nil, or_false] at ha
    rcases ha with rfl | rfl | rfl
    · exact hq1
    · exact hq2
    · exact hq3
  have hIdx : IndexOk (removeVertex s uid) := by
    intro j hj
    rw [harr_t, herase_eq] at hj ⊢
    rcases Nat.lt_or_ge j p with hjp | hjp
    · have hgj : (s.arrVertices.eraseIdx p).get? j = s.arrVertices.get? j :=
        get?_eraseIdx_lt _ p j hjp
      have hjn : j < s.arrVertices.length := by omega
      obtain ⟨b, hb⟩ : ∃ b, s.arrVertices.get? j = some b :=
        ⟨_, List.get?_eq_get hjn⟩
      have hgd : (s.arrVertices.eraseIdx p).getD j 0 = b := by
        rw [getD_eq_get?D, hgj, hb]
        rfl
      have hgd0 : s.arrVertices.getD j 0 = b := by
        rw [getD_eq_get?D, hb]
        rfl
      have hidxb : (s.vtx b).index = j := by
        have h := hc.idx j hjn
        rw [hgd0] at h
        exact h
      have hb_ids : b ∉ ids := by
        intro hmem
        obtain ⟨jj, hjj⟩ := List.mem_iff_get?.mp hmem
        rw [hids_eq, List.get?_drop] at hjj
        have hlt2 : j < (s.arrVertices.eraseIdx p).length := hj
        have hje : j = p + jj := List.get?_inj hlt2 hndnew (by rw [hgj, hb, hjj])
        omega
      rw [hgd, hvtx_t, r5 b hb_ids, hvtx3, (hfields21 b).2.2.2]
      exact hidxb
    · have hjlt : j < (s.arrVertices.eraseIdx p).length := hj
      have hgeta : (s.arrVertices.eraseIdx p).get? j
          = some ((s.arrVertices.eraseIdx p).get ⟨j, hjlt⟩) := List.get?_eq_get hjlt
      set b := (s.arrVertices.eraseIdx p).get ⟨j, hjlt⟩ with hbdef
      have hgd : (s.arrVertices.eraseIdx p).getD j 0 = b := by
        rw [getD_eq_get?D, hgeta]
        rfl
      have hids_get : ids.get? (j - p) = some b := by
        rw [hids_eq, List.get?_drop]
        rw [show p + (j - p) = j from by omega]
        exact hgeta
      have hidx4 : s4.vtx b = { s3.vtx b with index := (s.vtx uid).index + (j - p) } :=
        r6 (j - p) b hids_get
      rw [hgd, hvtx_t, hidx4]
      show (s.vtx uid).index + (j - p) = j
      rw [hindex]
      omega
  have hPerm : (removeVertex s uid).arrVerticesByCost.Perm
      (List.range (removeVertex s uid).arrVertices.length) := by
    rw [hbc_t]
    have h1 : (s.arrVerticesByCost.erase p).Perm
        ((List.range s.arrVertices.length).erase p) := hc.perm.erase p
    have h2 := h1.map (fun j => if p < j then j - 1 else j)
    have h3 : ((List.range s.arrVertices.length).erase p).map
        (fun j => if p < j then j - 1 else j)
        = List.range (s.arrVertices.length - 1) := range_erase_map_dec hplt
    rw [h3] at h2
    have hlen2 : (removeVertex s uid).arrVertices.length
        = s.arrVertices.length - 1 := by omega
    rw [hlen2]
    exact h2
  have hFace : FaceOk (removeVertex s uid) := by
    intro f hf
    rw [harrF_t] at hf
    obtain ⟨a1, a2, a3, a4, a5, a6⟩ := hc.face f hf
    rw [hfc_t, harr_t]
    refine ⟨a1, a2, a3, ?_, ?_, ?_⟩
    · rw [List.Nodup.mem_erase_iff hc.ndV]
      exact ⟨hvert_ne_uid f hf _ (by unfold fverts; simp), a4⟩
    · rw [List.Nodup.mem_erase_iff hc.ndV]
      exact ⟨hvert_ne_uid f hf _ (by unfold fverts; simp), a5⟩
    · rw [List.Nodup.mem_erase_iff hc.ndV]
      exact ⟨hvert_ne_uid f hf _ (by unfold fverts; simp), a6⟩
  have hFL : FacesListOk (removeVertex s uid) := by
    intro w hw
    rw [harr_t] at hw
    obtain ⟨hwu, hwl⟩ := (List.Nodup.mem_erase_iff hc.ndV).mp hw
    obtain ⟨b1, b2, b3⟩ := hc.flists w hwl
    rw [(hfields_t w).2.2, harrF_t, hfc_t]
    exact ⟨b1, b2, b3⟩
  have hN : NbrOk (removeVertex s uid) := by
    intro w hw
    rw [harr_t] at hw
    obtain ⟨hwu, hwl⟩ := (List.Nodup.mem_erase_iff hc.ndV).mp hw
    obtain ⟨hn1, hn2, hn3⟩ := hc.nbr w hwl
    refine ⟨?_, ?_, ?_⟩
    · rw [hnbrsT w hwu]
      by_cases hwn : w ∈ (s.vtx uid).neighbors
      · rw [if_pos hwn]
        exact hn1.erase uid
      · rw [if_neg hwn]
        exact hn1
    · intro hcontra
      exact hn2 ((hnmemT w hwu hwl w).mp hcontra).1
    · intro x hx
      obtain ⟨hxo, hxu⟩ := (hnmemT w hwu hwl x).mp hx
      obtain ⟨hxl, hxs⟩ := hn3 x hxo
      refine ⟨?_, ?_⟩
      · rw [harr_t, List.Nodup.mem_erase_iff hc.ndV]
        exact ⟨hxu, hxl⟩
      · rw [hnmemT x hxu hxl w]
        exact ⟨hxs, hwu⟩
  have hFN : FaceNbrOk (removeVertex s uid) := by
    intro f hf a' ha' b' hb' hne
    rw [harrF_t] at hf
    rw [hfc_t] at ha' hb'
    have ha'ne : a' ≠ uid := hvert_ne_uid f hf a' ha'
    have hb'ne : b' ≠ uid := hvert_ne_uid f hf b' hb'
    have ha'l : a' ∈ s.arrVertices := hvert_live f hf a' ha'
    rw [hnmemT a' ha'ne ha'l b']
    exact ⟨hc.fnbr f hf a' ha' b' hb' hne, hb'ne⟩
  refine ⟨⟨?_, ?_, hIdx, hPerm, hFace, hFL, hN, hFN⟩, harr_t, hlen_t, harrF_t,
    hfc_t, hfields_t, ?_, ?_⟩
  · rw [harr_t]
    exact hc.ndV.erase uid
  · rw [harrF_t]
    exact hc.ndF
  · intro w hwu hwn
    rw [hnbrsT w hwu, if_neg hwn]
  · intro w x hx
    by_cases hwu : w = uid
    · subst hwu
      rw [hnbrsUid] at hx
      exact absurd hx (List.not_mem_nil x)
    · rw [hnbrsT w hwu] at hx
      by_cases hwn : w ∈ (s.vtx uid).neighbors
      · rw [if_pos hwn] at hx
        exact List.mem_of_mem_erase hx
      · rw [if_neg hwn] at hx
        exact hx

/-! ## Invariance of the cost re-insertion step -/

/-- Frame of computeEdgeCostAtVertex: only the cached cost fields and the
collapse neighbor of the target vertex change, and afterwards the cache
invariant holds at the target. -/

lemma computeEdgeCostAtVertex_spec (g : Geom Pos Nrm) (s : VF Pos Nrm) (tid : Nat) :
    (computeEdgeCostAtVertex g s tid).arrVertices = s.arrVertices ∧
    (computeEdgeCostAtVertex g s tid).arrFaces = s.arrFaces ∧
    (computeEdgeCostAtVertex g s tid).arrVerticesByCost = s.arrVerticesByCost ∧
    (computeEdgeCostAtVertex g s tid).fc = s.fc ∧
    (∀ w, w ≠ tid → (computeEdgeCostAtVertex g s tid).vtx w = s.vtx w) ∧
    ((computeEdgeCostAtVertex g s tid).vtx tid).faces = (s.vtx tid).faces ∧
    ((computeEdgeCostAtVertex g s tid).vtx tid).neighbors = (s.vtx tid).neighbors ∧
    ((computeEdgeCostAtVertex g s tid).vtx tid).index = (s.vtx tid).index ∧
    CnOk (computeEdgeCostAtVertex g s tid) tid := by
  unfold computeEdgeCostAtVertex
  dsimp only
  by_cases hn : (s.vtx tid).neighbors = []
  · rw [if_pos hn]
    refine ⟨rfl, rfl, rfl, rfl, ?_, ?_, ?_, ?_, ?_⟩
    · intro w hw
      simp [setVtx, hw]
    · simp [setVtx]
    · simp [setVtx]
    · simp [setVtx]
    · unfold CnOk
      rw [setVtx_vtx, if_pos rfl]
      show cnOkAux none (s.vtx tid).neighbors
      show (s.vtx tid).neighbors = []
      exact hn
  · rw [if_neg hn]
    obtain ⟨n0, rest, hnr⟩ : ∃ n0 rest, (s.vtx tid).neighbors = n0 :: rest := by
      rcases h : (s.vtx tid).neighbors with - | ⟨a, b⟩
      · exact absurd h hn
      · exact ⟨a, b, rfl⟩
    refine ⟨rfl, rfl, rfl, rfl, ?_, ?_, ?_, ?_, ?_⟩
    · intro w hw
      simp [setVtx, hw]
    · simp [setVtx]
    · simp [setVtx]
    · simp [setVtx]
    · have hacc : ∃ n', ((s.vtx tid).neighbors.foldl (costFoldStep g s tid)
          (none, (s.vtx tid).minCost, (s.vtx tid).totalCost)).1 = some n' ∧
          n' ∈ (s.vtx tid).neighbors := by
        rw [hnr, List.foldl_cons]
        have hstep : costFoldStep g s tid
            (none, (s.vtx tid).minCost, (s.vtx tid).totalCost) n0
            = (some n0, computeEdgeCollapseCost g s tid n0,
                computeEdgeCollapseCost g s tid n0) := rfl
        rw [hstep]
        obtain ⟨-, n', hn1, -, hn3⟩ :=
          costFold_some g s tid rest n0 (computeEdgeCollapseCost g s tid n0)
        refine ⟨n', hn1, ?_⟩
        rcases hn3 with ⟨rfl, -⟩ | ⟨l1, l2, hsplit, -, -, -⟩
        · exact List.mem_cons_self _ _
        · refine List.mem_cons_of_mem _ ?_
          rw [hsplit]
          exact List.mem_append.mpr (Or.inr (List.mem_cons_self _ _))
      obtain ⟨n', hacc1, hmemn⟩ := hacc
      unfold CnOk
      rw [setVtx_vtx, if_pos rfl]
      show cnOkAux ((s.vtx tid).neighbors.foldl (costFoldStep g s tid)
        (none, (s.vtx tid).minCost, (s.vtx tid).totalCost)).1 (s.vtx tid).neighbors
      rw [hacc1]
      show n' ∈ (s.vtx tid).neighbors
      exact hmemn

/-- One re-insertion step on a well-formed graph: the cost of the target is
recomputed (restoring its collapse-neighbor cache) and its index moves
within arrVerticesByCost, which stays a permutation of the valid
positions; everything else is untouched. -/

lemma reinsertVertex_spec (g : Geom Pos Nrm) (s : VF Pos Nrm) (tid : Nat)
    (hc : WFcore s) (ht : tid ∈ s.arrVertices) :
    WFcore (reinsertVertex g s tid) ∧
    (reinsertVertex g s tid).arrVertices = s.arrVertices ∧
    (reinsertVertex g s tid).arrFaces = s.arrFaces ∧
    (reinsertVertex g s tid).fc = s.fc ∧
    (∀ w, ((reinsertVertex g s tid).vtx w).neighbors = (s.vtx w).neighbors ∧
      ((reinsertVertex g s tid).vtx w).faces = (s.vtx w).faces ∧
      ((reinsertVertex g s tid).vtx w).index = (s.vtx w).index) ∧
    (∀ w, w ≠ tid → ((reinsertVertex g s tid).vtx w).collapseNeighbor
        = (s.vtx w).collapseNeighbor) ∧
    CnOk (reinsertVertex g s tid) tid := by
  obtain ⟨c1, c2, c3, c4, c5, c6, c7, c8, c9⟩ := computeEdgeCostAtVertex_spec g s tid
  set s1 := computeEdgeCostAtVertex g s tid with hs1
  have hvtxfields : ∀ w, (s1.vtx w).neighbors = (s.vtx w).neighbors ∧
      (s1.vtx w).faces = (s.vtx w).faces ∧ (s1.vtx w).index = (s.vtx w).index := by
    intro w
    by_cases hw : w = tid
    · subst hw
      exact ⟨c7, c6, c8⟩
    · rw [c5 w hw]
      exact ⟨rfl, rfl, rfl⟩
  obtain ⟨q, hqget⟩ := List.mem_iff_get?.mp ht
  have hqlt : q < s.arrVertices.length := by
    rcases List.get?_eq_some.mp hqget with ⟨h, -⟩
    exact h
  have hqgd : s.arrVertices.getD q 0 = tid := by
    rw [getD_eq_get?D, hqget]
    rfl
  have hidx_tid : (s.vtx tid).index = q := by
    have h := hc.idx q hqlt
    rw [hqgd] at h
    exact h
  have htindex : (s1.vtx tid).index = q := by rw [(hvtxfields tid).2.2, hidx_tid]
  have htmem : (s1.vtx tid).index ∈ s1.arrVerticesByCost := by
    rw [htindex, c3]
    exact hc.perm.mem_iff.mpr (List.mem_range.mpr hqlt)
  set cost := (s1.vtx tid).collapseCost with hcost
  set byCost1 := if (s1.vtx tid).index ∈ s1.arrVerticesByCost
      then s1.arrVerticesByCost.erase (s1.vtx tid).index
      else s1.arrVerticesByCost.dropLast with hbc1
  set low := binarySearchPos
    (fun mid => (s1.vtx (s1.arrVertices.getD (byCost1.getD mid 0) 0)).collapseCost)
    byCost1.length cost with hlow
  have hdef : reinsertVertex g s tid
      = { s1 with arrVerticesByCost := insertClamped byCost1 low (s1.vtx tid).index } := rfl
  have hvtx_t : (reinsertVertex g s tid).vtx = s1.vtx := by rw [hdef]
  have harr_t : (reinsertVertex g s tid).arrVertices = s.arrVertices := by
    rw [hdef]
    show s1.arrVertices = _
    exact c1
  have harrF_t : (reinsertVertex g s tid).arrFaces = s.arrFaces := by
    rw [hdef]
    show s1.arrFaces = _
    exact c2
  have hfc_t : (reinsertVertex g s tid).fc = s.fc := by
    rw [hdef]
    show s1.fc = _
    exact c4
  have hbc_t : (reinsertVertex g s tid).arrVerticesByCost
      = insertClamped byCost1 low (s1.vtx tid).index := by
    rw [hdef]
  have hbc1eq : byCost1 = s1.arrVerticesByCost.erase (s1.vtx tid).index := by
    rw [hbc1, if_pos htmem]
  have hperm_t : (reinsertVertex g s tid).arrVerticesByCost.Perm
      (List.range (reinsertVertex g s tid).arrVertices.length) := by
    rw [hbc_t, harr_t]
    refine ((insertClamped_perm byCost1 low (s1.vtx tid).index).trans ?_)
    rw [hbc1eq]
    refine ((List.perm_cons_erase htmem).symm.trans ?_)
    rw [c3]
    exact hc.perm
  have hfields_t : ∀ w, ((reinsertVertex g s tid).vtx w).neighbors
        = (s.vtx w).neighbors ∧
      ((reinsertVertex g s tid).vtx w).faces = (s.vtx w).faces ∧
      ((reinsertVertex g s tid).vtx w).index = (s.vtx w).index := by
    intro w
    rw [hvtx_t]
    exact hvtxfields w
  have hhv_t : ∀ f w, (((reinsertVertex g s tid).fc f).hasVertex w)
      ↔ ((s.fc f).hasVertex w) := by
    intro f w
    rw [hfc_t]
  refine ⟨⟨?_, ?_, ?_, hperm_t, ?_, ?_, ?_, ?_⟩, harr_t, harrF_t, hfc_t,
    hfields_t, ?_, ?_⟩
  · rw [harr_t]
    exact hc.ndV
  · rw [harrF_t]
    exact hc.ndF
  · intro j hj
    rw [harr_t] at hj ⊢
    rw [(hfields_t _).2.2]
    exact hc.idx j hj
  · intro f hf
    rw [harrF_t] at hf
    rw [hfc_t, harr_t]
    exact hc.face f hf
  · intro w hw
    rw [harr_t] at hw
    obtain ⟨b1, b2, b3⟩ := hc.flists w hw
    rw [(hfields_t w).2.1, harrF_t, hfc_t]
    exact ⟨b1, b2, b3⟩
  · intro w hw
    rw [harr_t] at hw
    obtain ⟨b1, b2, b3⟩ := hc.nbr w hw
    rw [(hfields_t w).1]
    refine ⟨b1, b2, ?_⟩
    intro x hx
    obtain ⟨hxl, hxs⟩ := b3 x hx
    rw [harr_t, (hfields_t x).1]
    exact ⟨hxl, hxs⟩
  · intro f hf a' ha' b' hb' hne
    rw [harrF_t] at hf
    rw [hfc_t] at ha' hb'
    rw [(hfields_t a').1]
    exact hc.fnbr f hf a' ha' b' hb' hne
  · intro w hw
    rw [hvtx_t, c5 w hw]
  · unfold CnOk
    rw [hvtx_t]
    exact c9

/-- Folding the re-insertion step over a list of live vertices keeps the
graph well-formed, repairs the collapse-neighbor cache of every processed
vertex, and preserves it everywhere else. -/

lemma reinsertFold_spec (g : Geom Pos Nrm) :
    ∀ (l : List Nat) (s : VF Pos Nrm), WFcore s → (∀ t ∈ l, t ∈ s.arrVertices) →
      WFcore (l.foldl (reinsertVertex g) s) ∧
      (l.foldl (reinsertVertex g) s).arrVertices = s.arrVertices ∧
      (l.foldl (reinsertVertex g) s).arrFaces = s.arrFaces ∧
      (l.foldl (reinsertVertex g) s).fc = s.fc ∧
      (∀ w, CnOk s w → CnOk (l.foldl (reinsertVertex g) s) w) ∧
      (∀ w ∈ l, CnOk (l.foldl (reinsertVertex g) s) w) := by
  intro l
  induction l with
  | nil =>
    intro s hc hl
    exact ⟨hc, rfl, rfl, rfl, fun w h => h, fun w hw => absurd hw (by simp)⟩
  | cons t rest ih =>
    intro s hc hl
    obtain ⟨p1, p2, p3, p4, p5, p6, p7⟩ :=
      reinsertVertex_spec g s t hc (hl t (List.mem_cons_self t rest))
    have hstep1 : ∀ w, CnOk s w → CnOk (reinsertVertex g s t) w := by
      intro w hw
      by_cases hwt : w = t
      · subst hwt
        exact p7
      · unfold CnOk at hw ⊢
        rw [p6 w hwt, (p5 w).1]
        exact hw
    obtain ⟨r1, r2, r3, r4, r5, r6⟩ := ih (reinsertVertex g s t) p1
      (fun x hx => by rw [p2]; exact hl x (List.mem_cons_of_mem t hx))
    rw [List.foldl_cons]
    refine ⟨r1, r2.trans p2, r3.trans p3, r4.trans p4, ?_, ?_⟩
    · intro w hw
      exact r5 w (hstep1 w hw)
    · intro w hw
      rcases List.mem_cons.mp hw with rfl | hwr
      · exact r5 w p7
      · exact r6 w hwr

/-! ## The collapse iteration -/

/-- Master invariance lemma for one iteration of the collapse loop: full
well-formedness is preserved, an empty cost array makes the iteration a
no-op, and otherwise exactly one vertex disappears. -/

lemma collapseStep_spec (g : Geom Pos Nrm) (s : VF Pos Nrm) (hw : WF s) :
    WF (collapseStep g s) ∧
    (s.arrVerticesByCost = [] → collapseStep g s = s) ∧
    (s.arrVerticesByCost ≠ [] →
      (collapseStep g s).arrVertices.length + 1 = s.arrVertices.length) := by
  obtain ⟨hc, hcn⟩ := (WF_iff s).mp hw
  have h0 : collapseStep g s
      = match s.arrVerticesByCost with
        | [] => s
        | pos :: _ =>
          let uid := s.arrVertices.getD pos 0
          let u := s.vtx uid
          match u.collapseNeighbor with
          | none => removeVertex s uid
          | some vid =>
            let tmpVertices := u.neighbors
            let s1 := deleteUVFaces vid uid u.faces.length s
            let s2 := rewriteFaces g uid vid ((s1.vtx uid).faces.length) s1
            let s3 := removeVertex s2 uid
            tmpVertices.foldl (reinsertVertex g) s3 := rfl
  rcases hbc : s.arrVerticesByCost with - | ⟨pos, rest⟩
  · have hstep : collapseStep g s = s := by rw [h0, hbc]
    rw [hstep]
    exact ⟨hw, fun _ => rfl, fun hne => absurd rfl hne⟩
  · have hpos_mem : pos ∈ s.arrVerticesByCost := by
      rw [hbc]
      exact List.mem_cons_self pos rest
    have hpos_lt : pos < s.arrVertices.length :=
      List.mem_range.mp (hc.perm.mem_iff.mp hpos_mem)
    set uid := s.arrVertices.getD pos 0 with huiddef
    have hg : s.arrVertices.get? pos = some (s.arrVertices.get ⟨pos, hpos_lt⟩) :=
      List.get?_eq_get hpos_lt
    have huid_mem : uid ∈ s.arrVertices := by
      rw [huiddef, getD_eq_get?D, hg]
      show s.arrVertices.get ⟨pos, hpos_lt⟩ ∈ s.arrVertices
      exact List.get_mem s.arrVertices pos hpos_lt
    rcases hcnu : (s.vtx uid).collapseNeighbor with - | vid
    · have hstep : collapseStep g s = removeVertex s uid := by
        rw [h0, hbc]
        dsimp only
        rw [← huiddef, hcnu]
      have hnb : (s.vtx uid).neighbors = [] := by
        have h := hcn uid huid_mem
        unfold CnOk at h
        rw [hcnu] at h
        exact h
      have hfaces : ∀ f ∈ s.arrFaces, ¬ (s.fc f).hasVertex uid := by
        intro f hf hhv
        obtain ⟨d12, d23, d13, -, -, -⟩ := hc.face f hf
        have huidv : uid ∈ fverts (s.fc f) := (hasVertex_iff_mem_fverts _ _).mp hhv
        have hcontra : ∃ b ∈ fverts (s.fc f), b ≠ uid := by
          unfold fverts at huidv
          simp only [List.mem_cons, List.not_mem_nil, or_false] at huidv
          rcases huidv with he | he | he
          · exact ⟨(s.fc f).v2, by unfold fverts; simp, fun hx => d12 (by rw [← he, hx])⟩
          · exact ⟨(s.fc f).v1, by unfold fverts; simp, fun hx => d12 (by rw [← he, hx])⟩
          · exact ⟨(s.fc f).v1, by unfold fverts; simp, fun hx => d13 (by rw [← he, hx])⟩
        obtain ⟨b, hbmem, hbne⟩ := hcontra
        have hbn : b ∈ (s.vtx uid).neighbors :=
          hc.fnbr f hf uid huidv b hbmem (fun he => hbne he.symm)
        rw [hnb] at hbn
        exact absurd hbn (List.not_mem_nil b)
      obtain ⟨rv1, rv2, rv3, rv4, rv5, rv6, rv7, rv8⟩ :=
        removeVertex_spec s uid hc huid_mem hfaces
      rw [hstep]
      refine ⟨?_, fun he => absurd he (List.cons_ne_nil pos rest),
        fun _ => rv3⟩
      rw [WF_iff]
      refine ⟨rv1, ?_⟩
      intro w hwmem
      rw [rv2] at hwmem
      obtain ⟨hwu, hwl⟩ := (List.Nodup.mem_erase_iff hc.ndV).mp hwmem
      have hwnn : w ∉ (s.vtx uid).neighbors := by
        rw [hnb]
        exact List.not_mem_nil w
      unfold CnOk
      rw [(rv6 w).1, rv7 w hwu hwnn]
      exact hcn w hwl
    · have hvid_nbr : vid ∈ (s.vtx uid).neighbors := by
        have h := hcn uid huid_mem
        unfold CnOk at h
        rw [hcnu] at h
        exact h
      have hvid_mem : vid ∈ s.arrVertices :=
        ((hc.nbr uid huid_mem).2.2 vid hvid_nbr).1
      have huv : uid ≠ vid := by
        intro he
        exact (hc.nbr uid huid_mem).2.1 (he ▸ hvid_nbr)
      set s1 := deleteUVFaces vid uid (s.vtx uid).faces.length s with hs1d
      set s2 := rewriteFaces g uid vid ((s1.vtx uid).faces.length) s1 with hs2d
      set s3 := removeVertex s2 uid with hs3d
      have hstep : collapseStep g s
          = ((s.vtx uid).neighbors).foldl (reinsertVertex g) s3 := by
        rw [h0, hbc]
        dsimp only
        rw [← huiddef, hcnu]
      obtain ⟨d1, d2, d3, d4, d5, d6, d7, d8⟩ :=
        deleteUVFaces_spec vid uid (s.vtx uid).faces.length s hc huid_mem
      have hP1 : ∀ f ∈ (s1.vtx uid).faces, ¬ (s1.fc f).hasVertex vid := by
        intro f hf
        rw [d4]
        refine d8 ?_ f hf
        intro f' hf'
        rw [List.drop_length] at hf'
        exact absurd hf' (List.not_mem_nil f')
      have hu1 : uid ∈ s1.arrVertices := by rw [d2]; exact huid_mem
      have hv1 : vid ∈ s1.arrVertices := by rw [d2]; exact hvid_mem
      obtain ⟨w1, w2, w3, w4, w5, w6, w7, w8⟩ :=
        rewriteFaces_spec g uid vid huv ((s1.vtx uid).faces.length) s1 d1 hu1 hv1 hP1 rfl
      have hu2 : uid ∈ s2.arrVertices := by rw [w2]; exact hu1
      have hnoface2 : ∀ f ∈ s2.arrFaces, ¬ (s2.fc f).hasVertex uid := by
        intro f hf hhv
        have h := (w1.flists uid hu2).2.2 f hf hhv
        rw [w5] at h
        exact absurd h (List.not_mem_nil f)
      obtain ⟨rv1, rv2, rv3, rv4, rv5, rv6, rv7, rv8⟩ :=
        removeVertex_spec s2 uid w1 hu2 hnoface2
      have harr2 : s2.arrVertices = s.arrVertices := w2.trans d2
      have htmp_mem : ∀ t ∈ (s.vtx uid).neighbors, t ∈ s3.arrVertices := by
        intro t htm
        have htl : t ∈ s.arrVertices := ((hc.nbr uid huid_mem).2.2 t htm).1
        have htne : t ≠ uid := by
          intro he
          exact (hc.nbr uid huid_mem).2.1 (he ▸ htm)
        rw [hs3d]
        rw [rv2, harr2, List.Nodup.mem_erase_iff hc.ndV]
        exact ⟨htne, htl⟩
      obtain ⟨f1, f2, f3, f4, f5, f6⟩ :=
        reinsertFold_spec g ((s.vtx uid).neighbors) s3 rv1 htmp_mem
      rw [hstep]
      refine ⟨?_, fun he => absurd he (List.cons_ne_nil pos rest),
        fun _ => ?_⟩
      · rw [WF_iff]
        refine ⟨f1, ?_⟩
        intro w hwmem
        rw [f2, hs3d, rv2, harr2] at hwmem
        obtain ⟨hwu, hwl⟩ := (List.Nodup.mem_erase_iff hc.ndV).mp hwmem
        by_cases hwt : w ∈ (s.vtx uid).neighbors
        · exact f6 w hwt
        · refine f5 w ?_
          have hwv : w ≠ vid := by
            intro he
            exact hwt (he ▸ hvid_nbr)
          have hvtx1 : s1.vtx w = s.vtx w := d7 w hwu hwt
          have hwn1 : w ∉ (s1.vtx uid).neighbors := fun hx => hwt (d6 uid w hx)
          have hvtx2 : s2.vtx w = s1.vtx w := w7 w hwu hwv hwn1
          have hwn2 : w ∉ (s2.vtx uid).neighbors :=
            fun hx => hwn1 (w8 w hx)
          unfold CnOk
          rw [hs3d, (rv6 w).1, rv7 w hwu hwn2, hvtx2, hvtx1]
          exact hcn w hwl
      · have hl3 : s3.arrVertices.length + 1 = s.arrVertices.length := by
          have := rv3
          rw [harr2] at this
          rw [hs3d]
          exact this
        rw [f2]
        exact hl3

/-- Iterating the collapse step k ≤ n times removes exactly k vertices and
keeps the graph well-formed. -/

lemma collapseIter_spec (g : Geom Pos Nrm) :
    ∀ (k : Nat) (s : VF Pos Nrm), WF s → k ≤ s.arrVertices.length →
      WF ((collapseStep g)^[k] s) ∧
      ((collapseStep g)^[k] s).arrVertices.length = s.arrVertices.length - k := by
  intro k
  induction k with
  | zero =>
    intro s hw hk
    exact ⟨hw, by simp⟩
  | succ k ih =>
    intro s hw hk
    have hne : s.arrVerticesByCost ≠ [] := by
      intro h
      obtain ⟨-, -, -, hperm, -, -, -, -, -⟩ := hw
      rw [h] at hperm
      have hr : List.range s.arrVertices.length = [] := List.nil_perm.mp hperm
      have hn0 : s.arrVertices.length = 0 := List.range_eq_nil.mp hr
      omega
    obtain ⟨hWF1, -, hlen'⟩ := collapseStep_spec g s hw
    have hlen1 := hlen' hne
    rw [Function.iterate_succ_apply]
    have hk' : k ≤ (collapseStep g s).arrVertices.length := by omega
    obtain ⟨ha, hb⟩ := ih (collapseStep g s) hWF1 hk'
    refine ⟨ha, ?_⟩
    rw [hb]
    omega

/-- Iterating the collapse step any number of times preserves full
well-formedness. -/

lemma collapseIter_wf (g : Geom Pos Nrm) :
    ∀ (k : Nat) (s : VF Pos Nrm), WF s → WF ((collapseStep g)^[k] s) := by
  intro k
  induction k with
  | zero => exact fun s hw => hw
  | succ k ih =>
    intro s hw
    rw [Function.iterate_succ_apply]
    exact ih _ (collapseStep_spec g s hw).1

/-- C1: on a populated well-formed mesh graph with at least one vertex and
one face, collapse(k) with 0 ≤ k ≤ the current vertex count removes
exactly k vertices: the vertex count afterwards is the count before minus
k, each loop iteration (isolated-vertex removal or edge collapse) removing
exactly one vertex. -/

theorem collapse_removes_exactly (g : Geom Pos Nrm) (s : VF Pos Nrm)
    (hw : WF s) (hv1 : 1 ≤ s.arrVertices.length) (hf1 : 1 ≤ s.arrFaces.length)
    (k : Nat) (hk : k ≤ s.arrVertices.length) :
    (collapse g s k).arrVertices.length = s.arrVertices.length - k := by
  unfold collapse
  dsimp only
  rw [if_neg (by omega)]
  exact (collapseIter_spec g k s hw hk).2

theorem collapse_removes_exactly_witness :
    WF sStrip ∧ 1 ≤ sStrip.arrVertices.length ∧ 1 ≤ sStrip.arrFaces.length ∧
    2 ≤ sStrip.arrVertices.length ∧
    (collapse gUnit sStrip 2).arrVertices.length = sStrip.arrVertices.length - 2 :=
  ⟨by decide, by decide, by decide, by decide,
    collapse_removes_exactly gUnit sStrip (by decide) (by decide) (by decide) 2
      (by decide)⟩

/-- C2: collapse(count) with count exceeding the vertex count does not
fail: the loop bound becomes half the vertex count (the float division of
the source makes the loop run ceil(n/2) iterations), the graph stays
well-formed, and in particular a 4-vertex mesh loses exactly 2 vertices. -/

theorem collapse_overflow_clamps (g : Geom Pos Nrm) (s : VF Pos Nrm)
    (hw : WF s) (count : Nat) (hcount : s.arrVertices.length < count) :
    (collapse g s count).arrVertices.length
      = s.arrVertices.length - (s.arrVertices.length + 1) / 2 ∧
    WF (collapse g s count) ∧
    (s.arrVertices.length = 4 → (collapse g s count).arrVertices.length = 2) := by
  unfold collapse
  dsimp only
  rw [if_pos hcount]
  have hhalf : (s.arrVertices.length + 1) / 2 ≤ s.arrVertices.length := by omega
  obtain ⟨ha, hb⟩ := collapseIter_spec g ((s.arrVertices.length + 1) / 2) s hw hhalf
  refine ⟨hb, ha, ?_⟩
  intro h4
  rw [hb]
  omega

theorem collapse_overflow_clamps_witness :
    WF sStrip ∧ sStrip.arrVertices.length < 5 ∧ sStrip.arrVertices.length = 4 ∧
    (collapse gUnit sStrip 5).arrVertices.length = 2 :=
  ⟨by decide, by decide, by decide,
    (collapse_overflow_clamps gUnit sStrip (by decide) 5 (by decide)).2.2
      (by decide)⟩

/-- C8: no iteration of decimation produces a face with two identical
vertex references: after every collapse step each surviving face's v1, v2,
v3 are mutually distinct. -/

theorem faces_distinct_invariant (g : Geom Pos Nrm) (s : VF Pos Nrm)
    (hw : WF s) (k : Nat) :
    ∀ fid ∈ ((collapseStep g)^[k] s).arrFaces,
      (((collapseStep g)^[k] s).fc fid).v1 ≠ (((collapseStep g)^[k] s).fc fid).v2 ∧
      (((collapseStep g)^[k] s).fc fid).v2 ≠ (((collapseStep g)^[k] s).fc fid).v3 ∧
      (((collapseStep g)^[k] s).fc fid).v1 ≠ (((collapseStep g)^[k] s).fc fid).v3 := by
  intro fid hfid
  have hwk := collapseIter_wf g k s hw
  obtain ⟨-, -, -, -, hface, -, -, -, -⟩ := hwk
  obtain ⟨a1, a2, a3, -, -, -⟩ := hface fid hfid
  exact ⟨a1, a2, a3⟩

theorem faces_distinct_invariant_witness :
    WF sStrip ∧
    ∀ fid ∈ ((collapseStep gUnit)^[1] sStrip).arrFaces,
      (((collapseStep gUnit)^[1] sStrip).fc fid).v1
        ≠ (((collapseStep gUnit)^[1] sStrip).fc fid).v2 ∧
      (((collapseStep gUnit)^[1] sStrip).fc fid).v2
        ≠ (((collapseStep gUnit)^[1] sStrip).fc fid).v3 ∧
      (((collapseStep gUnit)^[1] sStrip).fc fid).v1
        ≠ (((collapseStep gUnit)^[1] sStrip).fc fid).v3 :=
  ⟨by decide, faces_distinct_invariant gUnit sStrip (by decide) 1⟩

lemma getNextPoint_deg (g : PGeom Pt Vec) (f : SFc Pt Vec) (st : SSt Pt Vec) :
    ((getNextPoint g f st).2).deg = st.deg := by
  unfold getNextPoint
  rcases st.prevPoint with - | pp
  · rfl
  · rcases st.prevVector with - | pv
    · rfl
    · rfl

lemma resetPrev_deg (st : SSt Pt Vec) : (resetPrev st).deg = st.deg := rfl

lemma bumpDeg_self (d : Nat → Nat) (i : Nat) : bumpDeg d i i = d i + 1 := by
  unfold bumpDeg
  rw [if_pos rfl]

lemma bumpDeg_mono (d : Nat → Nat) (i j : Nat) : d j ≤ bumpDeg d i j := by
  unfold bumpDeg
  by_cases h : j = i
  · rw [if_pos h, h]
    omega
  · rw [if_neg h]

lemma countP_pointwise_le (p q : Nat → Bool) :
    ∀ l : List Nat, (∀ a ∈ l, p a = true → q a = true) →
      l.countP p ≤ l.countP q := by
  intro l
  induction l with
  | nil => intro h; simp
  | cons x l ih =>
    intro h
    rw [List.countP_cons, List.countP_cons]
    have h1 := ih (fun a ha => h a (List.mem_cons_of_mem x ha))
    by_cases hx : p x = true
    · rw [if_pos hx, if_pos (h x (List.mem_cons_self x l) hx)]
      omega
    · rw [if_neg hx]
      by_cases hq : q x = true
      · rw [if_pos hq]; omega
      · rw [if_neg hq]; omega

lemma countP_pointwise_eq (p q : Nat → Bool) :
    ∀ l : List Nat, (∀ a ∈ l, p a = q a) → l.countP p = l.countP q := by
  intro l h
  have h1 := countP_pointwise_le p q l (fun a ha hp => by rw [← h a ha]; exact hp)
  have h2 := countP_pointwise_le q p l (fun a ha hq => by rw [h a ha]; exact hq)
  omega

lemma zc_mono (m : SMesh Pt Vec) (d1 d2 : Nat → Nat) (h : ∀ i, d1 i ≤ d2 i) :
    zCount m d1 ≤ zCount m d2 := by
  unfold zCount
  refine countP_pointwise_le _ _ _ ?_
  intro a ha hp
  simp only [decide_eq_true_eq] at hp ⊢
  exact le_trans hp (h a)

lemma countP_range_update (n i : Nat) (h : i < n) (p q : Nat → Bool)
    (hpq : ∀ j, j ≠ i → p j = q j) (hpi : p i = false) (hqi : q i = true) :
    (List.range n).countP q = (List.range n).countP p + 1 := by
  induction n with
  | zero => omega
  | succ n ih =>
    rw [List.range_succ, List.countP_append, List.countP_append]
    rcases Nat.lt_or_ge i n with hi | hi
    · have hne : n ≠ i := by omega
      rw [ih hi]
      simp only [List.countP_cons, List.countP_nil, hpq n hne]
      omega
    · have hin : i = n := by omega
      subst hin
      have : (List.range i).countP q = (List.range i).countP p := by
        refine countP_pointwise_eq _ _ _ ?_
        intro a ha
        rw [hpq a (by simp only [List.mem_range] at ha; omega)]
      rw [this]
      simp [List.countP_cons, hpi, hqi]

lemma zc_bump_zero (m : SMesh Pt Vec) (d : Nat → Nat) (i : Nat)
    (hi : i < m.count) (hd : d i = 0) :
    zCount m (bumpDeg d i) = zCount m d + 1 := by
  unfold zCount
  refine countP_range_update m.count i hi _ _ ?_ ?_ ?_
  · intro j hj
    unfold bumpDeg
    rw [if_neg hj]
  · simp [hd]
  · unfold bumpDeg
    simp

lemma zc_bump_pos (m : SMesh Pt Vec) (d : Nat → Nat) (i : Nat) (hd : 1 ≤ d i) :
    zCount m (bumpDeg d i) = zCount m d := by
  unfold zCount
  refine countP_pointwise_eq _ _ _ ?_
  intro a ha
  unfold bumpDeg
  by_cases hai : a = i
  · subst hai
    rw [if_pos rfl]
    simp only [decide_eq_decide]
    omega
  · rw [if_neg hai]

lemma zc_le_count (m : SMesh Pt Vec) (d : Nat → Nat) : zCount m d ≤ m.count := by
  unfold zCount
  have := List.countP_le_length (l := List.range m.count)
    (p := fun i => decide (1 ≤ d i))
  simpa using this

lemma zc_full (m : SMesh Pt Vec) (d : Nat → Nat) (h : m.count ≤ zCount m d) :
    ∀ i, i < m.count → 1 ≤ d i := by
  intro i hi
  have hlen : (List.range m.count).length = m.count := List.length_range m.count
  have heq : (List.range m.count).countP (fun i => decide (1 ≤ d i))
      = (List.range m.count).length := by
    have h1 := List.countP_le_length (l := List.range m.count)
      (p := fun i => decide (1 ≤ d i))
    unfold zCount at h
    omega
  have hall := List.countP_eq_length.mp heq i (List.mem_range.mpr hi)
  simpa using hall

lemma nnScanNoVec_fold_spec (g : PGeom Pt Vec) (m : SMesh Pt Vec)
    (d : Nat → Nat) (fn : Vec) :
    ∀ (ns : List Nat) (acc : Option Nat × ℚ) (b : Nat),
      (ns.foldl (nnScanNoVecStep g m d fn) acc).1 = some b →
      acc.1 = some b ∨ (b ∈ ns ∧ d b = 0) := by
  intro ns
  induction ns with
  | nil => exact fun acc b h => Or.inl h
  | cons nb rest ih =>
    intro acc b h
    rw [List.foldl_cons] at h
    rcases ih (nnScanNoVecStep g m d fn acc nb) b h with hacc | ⟨hmem, hdb⟩
    · unfold nnScanNoVecStep at hacc
      by_cases hdg : d nb < 1
      · rw [if_pos hdg] at hacc
        dsimp only at hacc
        by_cases hc : acc.2 < g.dotv fn (m.fc nb).normal
        · rw [if_pos hc] at hacc
          obtain rfl : nb = b := Option.some.inj hacc
          exact Or.inr ⟨List.mem_cons_self _ _, by omega⟩
        · rw [if_neg hc] at hacc
          exact Or.inl hacc
      · rw [if_neg hdg] at hacc
        exact Or.inl hacc
    · exact Or.inr ⟨List.mem_cons_of_mem _ hmem, hdb⟩

lemma nnScanVec_fold_spec (g : PGeom Pt Vec) (m : SMesh Pt Vec)
    (d : Nat → Nat) (fc : Pt) (pv : Vec) :
    ∀ (ns : List Nat) (acc : Option Nat) (b : Nat),
      ns.foldl (nnScanVecStep g m d fc pv) acc = some b →
      acc = some b ∨ (b ∈ ns ∧ d b = 0) := by
  intro ns
  induction ns with
  | nil => exact fun acc b h => Or.inl h
  | cons nb rest ih =>
    intro acc b h
    rw [List.foldl_cons] at h
    rcases ih (nnScanVecStep g m d fc pv acc nb) b h with hacc | ⟨hmem, hdb⟩
    · unfold nnScanVecStep at hacc
      by_cases hdg : d nb < 1
      · rw [if_pos hdg] at hacc
        dsimp only at hacc
        by_cases hc : 1 - g.dotv pv (g.normalize (g.sub (m.fc nb).center fc)) < 1
        · rw [if_pos hc] at hacc
          obtain rfl : nb = b := Option.some.inj hacc
          exact Or.inr ⟨List.mem_cons_self _ _, by omega⟩
        · rw [if_neg hc] at hacc
          exact Or.inl hacc
      · rw [if_neg hdg] at hacc
        exact Or.inl hacc
    · exact Or.inr ⟨List.mem_cons_of_mem _ hmem, hdb⟩

/-- Effect of getNearestNeighbor: it either leaves the state unchanged or
picks an unvisited neighbor of the face and increments its degree. -/

lemma getNearestNeighbor_spec (g : PGeom Pt Vec) (m : SMesh Pt Vec)
    (st : SSt Pt Vec) (fid : Nat) :
    ((getNearestNeighbor g m st fid).1 = none →
      (getNearestNeighbor g m st fid).2 = st) ∧
    (∀ nb, (getNearestNeighbor g m st fid).1 = some nb →
      nb ∈ (m.fc fid).neighbors ∧ st.deg nb = 0 ∧
      (getNearestNeighbor g m st fid).2 = { st with deg := bumpDeg st.deg nb }) := by
  unfold getNearestNeighbor
  dsimp only
  by_cases hne : (m.fc fid).neighbors = []
  · rw [if_pos hne]
    exact ⟨fun _ => rfl, fun nb h => absurd h (by simp)⟩
  · rw [if_neg hne]
    rcases hpv : st.prevVector with - | pv
    · dsimp only
      rcases hbest : (nnScanNoVec g m st.deg (m.fc fid).normal
          (m.fc fid).neighbors).1 with - | nb0
      · exact ⟨fun _ => rfl, fun nb h => absurd h (by simp)⟩
      · refine ⟨fun h => absurd h (by simp), fun nb h => ?_⟩
        obtain rfl : nb0 = nb := Option.some.inj h
        unfold nnScanNoVec at hbest
        rcases nnScanNoVec_fold_spec g m st.deg (m.fc fid).normal
            (m.fc fid).neighbors (none, 0) nb0 hbest with hacc | ⟨hmem, hdb⟩
        · exact absurd hacc (by simp)
        · exact ⟨hmem, hdb, rfl⟩
    · dsimp only
      rcases hbest : nnScanVec g m st.deg (m.fc fid).center (g.normalize pv)
          (m.fc fid).neighbors with - | nb0
      · exact ⟨fun _ => rfl, fun nb h => absurd h (by simp)⟩
      · refine ⟨fun h => absurd h (by simp), fun nb h => ?_⟩
        obtain rfl : nb0 = nb := Option.some.inj h
        unfold nnScanVec at hbest
        rcases nnScanVec_fold_spec g m st.deg (m.fc fid).center (g.normalize pv)
            (m.fc fid).neighbors none nb0 hbest with hacc | ⟨hmem, hdb⟩
        · exact absurd hacc (by simp)
        · exact ⟨hmem, hdb, rfl⟩

/-- Selected-count bookkeeping of one directed walk: the number of visits
is bounded by the growth of the visited-face count (plus one when the walk
enters a face that was already visited, which happens for the backward
walk whose start was pre-visited by getNearestNeighbor). -/

lemma nnWalkGo_spec (g : PGeom Pt Vec) (m : SMesh Pt Vec)
    (hnbr : ∀ i, i < m.count → ∀ j ∈ (m.fc i).neighbors, j < m.count) :
    ∀ (fuel fid : Nat) (st : SSt Pt Vec) (pts : List Pt) (st' : SSt Pt Vec),
      fid < m.count →
      nnWalkGo g m fuel fid st = some (pts, st') →
      pts.length + zCount m st.deg
        ≤ zCount m st'.deg + (if st.deg fid = 0 then 0 else 1) := by
  intro fuel
  induction fuel with
  | zero =>
    intro fid st pts st' hfid h
    exact absurd h (by simp [nnWalkGo])
  | succ fuel ih =>
    intro fid st pts st' hfid h
    unfold nnWalkGo at h
    dsimp only at h
    have hrdeg : ((getNextPoint g (m.fc fid)
        { st with deg := bumpDeg st.deg fid }).2).deg = bumpDeg st.deg fid := by
      rw [getNextPoint_deg]
    obtain ⟨hnone, hsome⟩ := getNearestNeighbor_spec g m
      (getNextPoint g (m.fc fid) { st with deg := bumpDeg st.deg fid }).2 fid
    rcases hgn : getNearestNeighbor g m
        (getNextPoint g (m.fc fid) { st with deg := bumpDeg st.deg fid }).2 fid
      with ⟨onb, st3⟩
    rw [hgn] at h hnone hsome
    rcases onb with - | nid
    · dsimp only at h
      obtain he := Option.some.inj h
      injection he with h1 h2
      subst h1
      subst h2
      have hst3 := hnone rfl
      dsimp only at hst3
      have hdeg3 : st3.deg = bumpDeg st.deg fid := by rw [hst3, hrdeg]
      by_cases h0 : st.deg fid = 0
      · rw [if_pos h0]
        have := zc_bump_zero m st.deg fid hfid h0
        rw [hdeg3]
        simp only [List.length_cons, List.length_nil]
        omega
      · rw [if_neg h0]
        have := zc_bump_pos m st.deg fid (by omega)
        rw [hdeg3]
        simp only [List.length_cons, List.length_nil]
        omega
    · dsimp only at h
      rcases hrec : nnWalkGo g m fuel nid st3 with - | ⟨pts2, st4⟩
      · rw [hrec] at h
        exact absurd h (by simp)
      · rw [hrec] at h
        dsimp only at h
        obtain he := Option.some.inj h
        injection he with h1 h2
        subst h1
        subst h2
        obtain ⟨hmem, hdeg_nid, hst3⟩ := hsome nid rfl
        dsimp only at hst3
        have hnid_lt : nid < m.count := hnbr fid hfid nid hmem
        rw [hrdeg] at hdeg_nid
        have hdeg3 : st3.deg = bumpDeg (bumpDeg st.deg fid) nid := by
          rw [hst3]
          dsimp only
          rw [hrdeg]
        have hst3nid : st3.deg nid = 1 := by
          rw [hdeg3, bumpDeg_self, hdeg_nid]
        have hih := ih nid st3 pts2 st4 hnid_lt hrec
        rw [if_neg (by rw [hst3nid]; omega)] at hih
        have hz3 : zCount m st3.deg = zCount m (bumpDeg st.deg fid) + 1 := by
          rw [hdeg3]
          exact zc_bump_zero m (bumpDeg st.deg fid) nid hnid_lt hdeg_nid
        simp only [List.length_cons]
        by_cases h0 : st.deg fid = 0
        · rw [if_pos h0]
          have hz1 := zc_bump_zero m st.deg fid hfid h0
          omega
        · rw [if_neg h0]
          have hz1 := zc_bump_pos m st.deg fid (by omega)
          omega

lemma getStartFace_spec (m : SMesh Pt Vec) (st : SSt Pt Vec) :
    (∀ f, getStartFace m st = some f → f < m.count ∧ st.deg f = 0) ∧
    (getStartFace m st = none → ∀ i, i < m.count → ¬ st.deg i = 0) := by
  constructor
  · intro f h
    unfold getStartFace at h
    have hp := List.find?_some h
    have hmem := List.mem_of_find?_eq_some h
    simp only [List.mem_range] at hmem
    simp only [decide_eq_true_eq] at hp
    exact ⟨hmem, hp⟩
  · intro h i hi
    unfold getStartFace at h
    have := List.find?_eq_none.mp h i (List.mem_range.mpr hi)
    simpa using this

/-- Every path the outer selection loop returns was pushed under the
length-greater-than-one guard. -/

lemma nnOuter_paths (g : PGeom Pt Vec) (m : SMesh Pt Vec) :
    ∀ (fuel : Nat) (cur : Option Nat) (st : SSt Pt Vec) (sc : Nat)
      (paths : List (List Pt)) (res : List (List Pt) × SSt Pt Vec),
      nnOuter g m fuel cur st sc paths = some res →
      (∀ p ∈ paths, 2 ≤ p.length) →
      ∀ p ∈ res.1, 2 ≤ p.length := by
  intro fuel
  induction fuel with
  | zero =>
    intro cur st sc paths res h
    exact absurd h (by simp [nnOuter])
  | succ fuel ih =>
    intro cur st sc paths res h hpaths
    unfold nnOuter at h
    rcases cur with - | fid
    · dsimp only at h
      obtain rfl := Option.some.inj h
      exact hpaths
    · dsimp only at h
      by_cases hsc : sc < m.count
      · rw [if_pos hsc] at h
        rcases hw : nnWalkGo g m (m.count + 1) fid (resetPrev st) with - | ⟨fwdPts, st1⟩
        · rw [hw] at h
          exact absurd h (by simp)
        · rw [hw] at h
          dsimp only at h
          rcases hgn : getNearestNeighbor g m
              (getNextPoint g (m.fc fid) (resetPrev st1)).2 fid with ⟨onb, st3⟩
          rw [hgn] at h
          rcases onb with - | nid
          · dsimp only at h
            refine ih _ _ _ _ _ h ?_
            intro p hp
            by_cases hlen : 1 < fwdPts.length
            · rw [if_pos hlen] at hp
              rcases List.mem_append.mp hp with hp1 | hp2
              · exact hpaths p hp1
              · obtain rfl := List.mem_singleton.mp hp2
                omega
            · rw [if_neg hlen] at hp
              exact hpaths p hp
          · dsimp only at h
            rcases hw2 : nnWalkGo g m (m.count + 1) nid st3 with - | ⟨bwdPts, st4⟩
            · rw [hw2] at h
              exact absurd h (by simp)
            · rw [hw2] at h
              dsimp only at h
              refine ih _ _ _ _ _ h ?_
              intro p hp
              by_cases hlen : 1 < (bwdPts.reverse ++ fwdPts).length
              · rw [if_pos hlen] at hp
                rcases List.mem_append.mp hp with hp1 | hp2
                · exact hpaths p hp1
                · obtain rfl := List.mem_singleton.mp hp2
                  omega
              · rw [if_neg hlen] at hp
                exact hpaths p hp
      · rw [if_neg hsc] at h
        obtain rfl := Option.some.inj h
        exact hpaths

/-- Coverage of the outer selection loop: when it completes, every face of
the array has been visited. -/

lemma nnOuter_deg (g : PGeom Pt Vec) (m : SMesh Pt Vec)
    (hnbr : ∀ i, i < m.count → ∀ j ∈ (m.fc i).neighbors, j < m.count) :
    ∀ (fuel : Nat) (cur : Option Nat) (st : SSt Pt Vec) (sc : Nat)
      (paths : List (List Pt)) (res : List (List Pt) × SSt Pt Vec),
      nnOuter g m fuel cur st sc paths = some res →
      sc ≤ zCount m st.deg →
      (∀ f, cur = some f → f < m.count ∧ st.deg f = 0) →
      (cur = none → ∀ i, i < m.count → 1 ≤ st.deg i) →
      ∀ i, i < m.count → 1 ≤ res.2.deg i := by
  intro fuel
  induction fuel with
  | zero =>
    intro cur st sc paths res h
    exact absurd h (by simp [nnOuter])
  | succ fuel ih =>
    intro cur st sc paths res h hJ hcur hnone
    unfold nnOuter at h
    rcases cur with - | fid
    · dsimp only at h
      obtain rfl := Option.some.inj h
      exact hnone rfl
    · dsimp only at h
      by_cases hsc : sc < m.count
      · rw [if_pos hsc] at h
        obtain ⟨hfid_lt, hfid0⟩ := hcur fid rfl
        rcases hw : nnWalkGo g m (m.count + 1) fid (resetPrev st) with - | ⟨fwdPts, st1⟩
        · rw [hw] at h
          exact absurd h (by simp)
        · rw [hw] at h
          dsimp only at h
          have hwineq := nnWalkGo_spec g m hnbr (m.count + 1) fid (resetPrev st)
            fwdPts st1 hfid_lt hw
          rw [resetPrev_deg, if_pos hfid0] at hwineq
          have hr2deg : ((getNextPoint g (m.fc fid) (resetPrev st1)).2).deg
              = st1.deg := by
            rw [getNextPoint_deg, resetPrev_deg]
          obtain ⟨hgnone, hgsome⟩ := getNearestNeighbor_spec g m
            (getNextPoint g (m.fc fid) (resetPrev st1)).2 fid
          rcases hgn : getNearestNeighbor g m
              (getNextPoint g (m.fc fid) (resetPrev st1)).2 fid with ⟨onb, st3⟩
          rw [hgn] at h hgnone hgsome
          rcases onb with - | nid
          · dsimp only at h
            have hst3 := hgnone rfl
            dsimp only at hst3
            have hdeg3 : st3.deg = st1.deg := by rw [hst3, hr2deg]
            obtain ⟨hsf_some, hsf_none⟩ := getStartFace_spec m st3
            refine ih _ _ _ _ _ h ?_ hsf_some ?_
            · rw [hdeg3]
              omega
            · intro hnn i hi
              have := hsf_none hnn i hi
              omega
          · dsimp only at h
            obtain ⟨hmem, hdeg_nid, hst3⟩ := hgsome nid rfl
            dsimp only at hst3
            have hnid_lt : nid < m.count := hnbr fid hfid_lt nid hmem
            rw [hr2deg] at hdeg_nid
            have hdeg3 : st3.deg = bumpDeg st1.deg nid := by
              rw [hst3]
              dsimp only
              rw [hr2deg]
            have hst3nid : st3.deg nid = 1 := by
              rw [hdeg3, bumpDeg_self, hdeg_nid]
            have hz3 : zCount m st3.deg = zCount m st1.deg + 1 := by
              rw [hdeg3]
              exact zc_bump_zero m st1.deg nid hnid_lt hdeg_nid
            rcases hw2 : nnWalkGo g m (m.count + 1) nid st3 with - | ⟨bwdPts, st4⟩
            · rw [hw2] at h
              exact absurd h (by simp)
            · rw [hw2] at h
              dsimp only at h
              have hwineq2 := nnWalkGo_spec g m hnbr (m.count + 1) nid st3
                bwdPts st4 hnid_lt hw2
              rw [if_neg (by rw [hst3nid]; omega)] at hwineq2
              obtain ⟨hsf_some, hsf_none⟩ := getStartFace_spec m st4
              refine ih _ _ _ _ _ h ?_ hsf_some ?_
              · omega
              · intro hnn i hi
                have := hsf_none hnn i hi
                omega
      · rw [if_neg hsc] at h
        obtain rfl := Option.some.inj h
        exact zc_full m st.deg (by omega)

lemma wpGetNextGo_spec (d : Nat → Nat) (n : Nat) :
    ∀ (fuel k : Nat),
      (∀ i, wpGetNextGo d n fuel k = some i →
        k ≤ i ∧ i < n ∧ d i = 0 ∧ ∀ j, k ≤ j → j < i → ¬ d j = 0) ∧
      (n ≤ k + fuel → wpGetNextGo d n fuel k = none →
        ∀ j, k ≤ j → j < n → ¬ d j = 0) := by
  intro fuel
  induction fuel with
  | zero =>
    intro k
    refine ⟨fun i h => absurd h (by simp [wpGetNextGo]), fun hn h j hj1 hj2 => ?_⟩
    omega
  | succ fuel ih =>
    intro k
    constructor
    · intro i h
      unfold wpGetNextGo at h
      by_cases hk : k < n
      · rw [if_pos hk] at h
        by_cases hd : d k = 0
        · rw [if_pos hd] at h
          obtain rfl := Option.some.inj h
          exact ⟨Nat.le_refl _, hk, hd, fun j hj1 hj2 => by omega⟩
        · rw [if_neg hd] at h
          obtain ⟨h1, h2, h3, h4⟩ := (ih (k + 1)).1 i h
          refine ⟨by omega, h2, h3, ?_⟩
          intro j hj1 hj2
          rcases Nat.eq_or_lt_of_le hj1 with rfl | hgt
          · exact hd
          · exact h4 j (by omega) hj2
      · rw [if_neg hk] at h
        exact absurd h (by simp)
    · intro hn h j hj1 hj2
      unfold wpGetNextGo at h
      by_cases hk : k < n
      · rw [if_pos hk] at h
        by_cases hd : d k = 0
        · rw [if_pos hd] at h
          exact absurd h (by simp)
        · rw [if_neg hd] at h
          rcases Nat.eq_or_lt_of_le hj1 with rfl | hgt
          · exact hd
          · exact (ih (k + 1)).2 (by omega) h j (by omega) hj2
      · omega

lemma fpInner_deg_mono (g : PGeom Pt Vec) (m : SMesh Pt Vec) :
    ∀ (fuel cur : Nat) (cns act : List Nat) (d : Nat → Nat) (path : List Nat),
      ∀ i, d i ≤ (fpInner g m fuel cur cns act d path).2.2.2 i := by
  intro fuel
  induction fuel with
  | zero =>
    intro cur cns act d path i
    exact le_refl _
  | succ fuel ih =>
    intro cur cns act d path i
    unfold fpInner
    by_cases hcns : cns = []
    · rw [if_pos hcns]
    · rw [if_neg hcns]
      rcases hr : removeNearestNeighbor g m cns cur with ⟨otf, cns'⟩
      rcases otf with - | tf
      · exact le_refl _
      · dsimp only
        exact le_trans (bumpDeg_mono d tf i) (ih tf cns' act (bumpDeg d tf) (path ++ [tf]) i)

lemma fpOuter_deg_mono (g : PGeom Pt Vec) (m : SMesh Pt Vec) :
    ∀ (fuel cur : Nat) (act : List Nat) (d : Nat → Nat) (path : List Nat)
      (res : List Nat × (Nat → Nat)),
      fpOuter g m fuel cur act d path = some res →
      ∀ i, d i ≤ res.2 i := by
  intro fuel
  induction fuel with
  | zero =>
    intro cur act d path res h
    exact absurd h (by simp [fpOuter])
  | succ fuel ih =>
    intro cur act d path res h i
    unfold fpOuter at h
    by_cases hact : act = []
    · rw [if_pos hact] at h
      obtain rfl := Option.some.inj h
      exact le_refl _
    · rw [if_neg hact] at h
      dsimp only at h
      refine le_trans (fpInner_deg_mono g m _ cur _ _ d path i) (ih _ _ _ _ _ h i)

lemma findPathFromFace_deg (g : PGeom Pt Vec) (m : SMesh Pt Vec)
    (fuel startFid : Nat) (d : Nat → Nat) (res : List Nat × (Nat → Nat))
    (h : findPathFromFace g m fuel startFid d = some res) :
    (∀ i, d i ≤ res.2 i) ∧ 1 ≤ res.2 startFid := by
  unfold findPathFromFace at h
  have hmono := fpOuter_deg_mono g m fuel startFid [startFid] (bumpDeg d startFid)
    [startFid] res h
  constructor
  · intro i
    exact le_trans (bumpDeg_mono d startFid i) (hmono i)
  · have := hmono startFid
    rw [bumpDeg_self] at this
    omega

lemma collectPoints_deg (g : PGeom Pt Vec) (m : SMesh Pt Vec) :
    ∀ (l : List Nat) (st : SSt Pt Vec),
      ((collectPoints g m l st).2).deg = st.deg := by
  intro l
  induction l with
  | nil => intro st; rfl
  | cons fid rest ih =>
    intro st
    unfold collectPoints
    dsimp only
    rw [ih, getNextPoint_deg]

/-- Coverage of the wrapping-search outer loop: when it completes, every
face with an index position below the scan point was already visited, and
afterwards every face of the array is visited. -/

lemma wpOuter_deg (g : PGeom Pt Vec) (m : SMesh Pt Vec) (innerFuel : Nat) :
    ∀ (fuel startIdx : Nat) (st : SSt Pt Vec) (paths : List (List Pt))
      (res : List (List Pt) × SSt Pt Vec),
      wpOuter g m innerFuel fuel startIdx st paths = some res →
      (∀ j, j < startIdx → j < m.count → 1 ≤ st.deg j) →
      ∀ i, i < m.count → 1 ≤ res.2.deg i := by
  intro fuel
  induction fuel with
  | zero =>
    intro startIdx st paths res h
    exact absurd h (by simp [wpOuter])
  | succ fuel ih =>
    intro startIdx st paths res h hpre
    unfold wpOuter at h
    rcases hscan : wpGetNext m st.deg startIdx with - | i0
    · rw [hscan] at h
      obtain rfl := Option.some.inj h
      intro i hi
      show 1 ≤ st.deg i
      rcases Nat.lt_or_ge i startIdx with hlt | hge
      · exact hpre i hlt hi
      · unfold wpGetNext at hscan
        have := (wpGetNextGo_spec st.deg m.count (m.count - startIdx) startIdx).2
          (by omega) hscan i hge hi
        omega
    · rw [hscan] at h
      dsimp only at h
      unfold wpGetNext at hscan
      obtain ⟨hki, hin, hd0, hskip⟩ :=
        (wpGetNextGo_spec st.deg m.count (m.count - startIdx) startIdx).1 i0 hscan
      rcases hfp : findPathFromFace g m innerFuel i0 st.deg with - | r0
      · rw [hfp] at h
        exact absurd h (by simp)
      · rw [hfp] at h
        dsimp only at h
        obtain ⟨hmono, hstart⟩ := findPathFromFace_deg g m innerFuel i0 st.deg r0 hfp
        refine ih _ _ _ _ h ?_
        intro j hj1 hj2
        have hdeg' : ((collectPoints g m r0.1
            (resetPrev { st with deg := r0.2 })).2).deg = r0.2 := by
          rw [collectPoints_deg]
          rfl
        rw [hdeg']
        rcases Nat.lt_or_ge j startIdx with hlt | hge
        · exact le_trans (hpre j hlt hj2) (hmono j)
        · rcases Nat.lt_or_ge j i0 with hji | hji
          · have := hskip j hge hji
            have h1 : 1 ≤ st.deg j := by omega
            exact le_trans h1 (hmono j)
          · have hji0 : j = i0 := by omega
            rw [hji0]
            exact hstart

lemma seqFold_paths (g : PGeom Pt Vec) (m : SMesh Pt Vec) :
    ∀ (l : List Nat) (acc : List (List Pt) × List Pt × Option Nat × SSt Pt Vec),
      (∀ p ∈ acc.1, 2 ≤ p.length) →
      ∀ p ∈ (l.foldl (seqStep g m) acc).1, 2 ≤ p.length := by
  intro l
  induction l with
  | nil => exact fun acc h => h
  | cons i rest ih =>
    intro acc hacc
    rw [List.foldl_cons]
    refine ih (seqStep g m acc i) ?_
    unfold seqStep
    dsimp only
    rcases acc.2.2.1 with - | pf
    · exact hacc
    · dsimp only
      by_cases hconn : ((m.fc i).neighbors.any
          (fun nb => (m.fc nb).shash = (m.fc pf).shash)) = true
      · rw [if_pos hconn]
        exact hacc
      · rw [if_neg hconn]
        dsimp only
        intro p hp
        by_cases hlen : 1 < acc.2.1.length
        · rw [if_pos hlen] at hp
          rcases List.mem_append.mp hp with hp1 | hp2
          · exact hacc p hp1
          · obtain rfl := List.mem_singleton.mp hp2
            omega
        · rw [if_neg hlen] at hp
          exact hacc p hp

/-- C7: on a mesh whose faces all start with degree 0 (and whose neighbor
references stay inside the faces array), whenever nearestNeighborSearch
(given at least two faces) or WrappingPathSearch runs to completion, every
face of the mesh ends with degree at least 1 - no face is left completely
unvisited. -/

theorem search_covers_all_faces (g : PGeom Pt Vec) (m : SMesh Pt Vec)
    (st0 : SSt Pt Vec)
    (hdeg0 : ∀ i, st0.deg i = 0)
    (hnbr : ∀ i, i < m.count → ∀ j ∈ (m.fc i).neighbors, j < m.count) :
    (2 ≤ m.count → ∀ paths st',
      nearestNeighborSearch g m st0 = some (paths, st') →
      ∀ i, i < m.count → 1 ≤ st'.deg i) ∧
    (∀ fuel paths st',
      WrappingPathSearch g m fuel st0 = some (paths, st') →
      ∀ i, i < m.count → 1 ≤ st'.deg i) := by
  constructor
  · intro h2 paths st' hsearch
    unfold nearestNeighborSearch at hsearch
    rw [if_neg (by omega)] at hsearch
    exact nnOuter_deg g m hnbr (m.count + 2) (some 0) st0 0 [] (paths, st') hsearch
      (Nat.zero_le _)
      (fun f hf => by
        obtain rfl := Option.some.inj hf
        exact ⟨by omega, hdeg0 0⟩)
      (fun hc => absurd hc (by simp))
  · intro fuel paths st' hsearch
    unfold WrappingPathSearch at hsearch
    exact wpOuter_deg g m fuel (fuel + 1) 0 st0 [] (paths, st') hsearch
      (fun j hj _ => absurd hj (by omega))

/-- C10: every path sequentialWalk returns and, whenever
nearestNeighborSearch completes, every path it returns holds at least two
points; a run that collects a single point is discarded by the
length-greater-than-one guard and never appears in the result. -/

theorem returned_paths_have_two_points (g : PGeom Pt Vec) (m : SMesh Pt Vec)
    (st0 : SSt Pt Vec) :
    (∀ p ∈ sequentialWalk g m st0, 2 ≤ p.length) ∧
    (∀ paths st', nearestNeighborSearch g m st0 = some (paths, st') →
      ∀ p ∈ paths, 2 ≤ p.length) := by
  constructor
  · unfold sequentialWalk
    dsimp only
    intro p hp
    by_cases hlen : 1 < ((List.range m.count).foldl (seqStep g m)
        ([], [], none, resetPrev st0)).2.1.length
    · rw [if_pos hlen] at hp
      rcases List.mem_append.mp hp with hp1 | hp2
      · exact seqFold_paths g m (List.range m.count) ([], [], none, resetPrev st0)
          (fun q hq => absurd hq (List.not_mem_nil q)) p hp1
      · obtain rfl := List.mem_singleton.mp hp2
        omega
    · rw [if_neg hlen] at hp
      exact seqFold_paths g m (List.range m.count) ([], [], none, resetPrev st0)
        (fun q hq => absurd hq (List.not_mem_nil q)) p hp
  · intro paths st' hsearch
    unfold nearestNeighborSearch at hsearch
    by_cases h2 : m.count < 2
    · rw [if_pos h2] at hsearch
      obtain he := Option.some.inj hsearch
      injection he with h1 h2'
      rw [← h1]
      exact fun p hp => absurd hp (List.not_mem_nil p)
    · rw [if_neg h2] at hsearch
      exact nnOuter_paths g m (m.count + 2) (some 0) st0 0 [] (paths, st') hsearch
        (fun p hp => absurd hp (List.not_mem_nil p))

section ConcreteSearchEvaluation

attribute [local semireducible] Rat.add Rat.sub Rat.mul Rat.inv

theorem search_covers_all_faces_witness :
    (∀ i, stZero.deg i = 0) ∧
    (∀ i, i < wMesh.count → ∀ j ∈ (wMesh.fc i).neighbors, j < wMesh.count) ∧
    (nearestNeighborSearch gUnitP wMesh stZero).isSome = true ∧
    (WrappingPathSearch gUnitP wMesh 5 stZero).isSome = true ∧
    ((2 ≤ wMesh.count → ∀ paths st',
        nearestNeighborSearch gUnitP wMesh stZero = some (paths, st') →
        ∀ i, i < wMesh.count → 1 ≤ st'.deg i) ∧
      (∀ fuel paths st',
        WrappingPathSearch gUnitP wMesh fuel stZero = some (paths, st') →
        ∀ i, i < wMesh.count → 1 ≤ st'.deg i)) :=
  ⟨fun _ => rfl, by decide, by decide, by decide,
    search_covers_all_faces gUnitP wMesh stZero (fun _ => rfl) (by decide)⟩

theorem returned_paths_have_two_points_witness :
    (nearestNeighborSearch gUnitP wMesh stZero).isSome = true ∧
    ((∀ p ∈ sequentialWalk gUnitP wMesh stZero, 2 ≤ p.length) ∧
      (∀ paths st',
        nearestNeighborSearch gUnitP wMesh stZero = some (paths, st') →
        ∀ p ∈ paths, 2 ≤ p.length)) :=
  ⟨by decide, returned_paths_have_two_points gUnitP wMesh stZero⟩

end ConcreteSearchEvaluation

/-! ### Path-decomposition toolkit and the selection-loop invariant -/

lemma chainPairs_components (q : List Nat) : ∀ ab ∈ chainPairs q, ab.1 ∈ q ∧ ab.2 ∈ q := by
  induction q with
  | nil => simp [chainPairs]
  | cons a t ih =>
    cases t with
    | nil => simp [chainPairs]
    | cons b rest =>
      intro ab hab
      rcases List.mem_cons.mp hab with h | h
      · subst h
        exact ⟨List.mem_cons_self a _, List.mem_cons_of_mem _ (List.mem_cons_self b _)⟩
      · have := ih ab h
        exact ⟨List.mem_cons_of_mem _ this.1, List.mem_cons_of_mem _ this.2⟩

lemma pnorm_symm (a b : Nat) : pnorm (a, b) = pnorm (b, a) := by
  simp [pnorm, Nat.min_comm, Nat.max_comm]

lemma pnorm_eq_pair {a b c d : Nat} (h : pnorm (a, b) = pnorm (c, d)) :
    (a = c ∧ b = d) ∨ (a = d ∧ b = c) := by
  have h1 : min a b = min c d := congrArg Prod.fst h
  have h2 : max a b = max c d := congrArg Prod.snd h
  omega

lemma compMem_pnorm (v : Nat) (ab : Nat × Nat) : compMem v (pnorm ab) ↔ compMem v ab := by
  rcases ab with ⟨a, b⟩
  unfold compMem pnorm
  simp only
  omega

lemma chainPairs_append (A : List Nat) (a : Nat) (B : List Nat) :
    chainPairs (A ++ a :: B) = chainPairs (A ++ [a]) ++ chainPairs (a :: B) := by
  induction A with
  | nil => simp [chainPairs]
  | cons x A' ih =>
    cases A' with
    | nil => simp [chainPairs]
    | cons y A'' =>
      show chainPairs (x :: ((y :: A'') ++ a :: B)) =
        chainPairs (x :: ((y :: A'') ++ [a])) ++ chainPairs (a :: B)
      rw [show chainPairs (x :: ((y :: A'') ++ a :: B)) =
        (x, y) :: chainPairs ((y :: A'') ++ a :: B) from rfl]
      rw [show chainPairs (x :: ((y :: A'') ++ [a])) =
        (x, y) :: chainPairs ((y :: A'') ++ [a]) from rfl]
      rw [ih]
      simp

lemma chainPairs_snoc (S : List Nat) (y x : Nat) :
    chainPairs ((S ++ [y]) ++ [x]) = chainPairs (S ++ [y]) ++ [(y, x)] := by
  induction S with
  | nil => simp [chainPairs]
  | cons s S' ih =>
    rcases hSW : S' ++ [y] with _ | ⟨w, W⟩
    · exact absurd hSW (by simp)
    · show chainPairs (s :: ((S' ++ [y]) ++ [x])) =
        chainPairs (s :: (S' ++ [y])) ++ [(y, x)]
      rw [hSW]
      rw [show chainPairs (s :: ((w :: W) ++ [x])) =
        (s, w) :: chainPairs ((w :: W) ++ [x]) from rfl]
      rw [show chainPairs (s :: (w :: W)) = (s, w) :: chainPairs (w :: W) from rfl]
      rw [← hSW, ih]
      simp

lemma chainPairs_reverse (p : List Nat) :
    chainPairs p.reverse = ((chainPairs p).map Prod.swap).reverse := by
  induction p with
  | nil => simp [chainPairs]
  | cons a t ih =>
    cases t with
    | nil => simp [chainPairs]
    | cons b t' =>
      rw [List.reverse_cons]
      rw [show (b :: t').reverse = t'.reverse ++ [b] from List.reverse_cons b t']
      rw [chainPairs_snoc]
      rw [← List.reverse_cons b t', ih]
      rw [show chainPairs (a :: b :: t') = (a, b) :: chainPairs (b :: t') from rfl]
      simp

lemma chainPairs_reverse_perm (p : List Nat) :
    ((chainPairs p.reverse).map pnorm).Perm ((chainPairs p).map pnorm) := by
  rw [chainPairs_reverse, List.map_reverse]
  refine (List.reverse_perm _).trans ?_
  rw [List.map_map]
  have : pnorm ∘ Prod.swap = pnorm := by
    funext ab
    rcases ab with ⟨a, b⟩
    exact pnorm_symm b a
  rw [this]

lemma countP_one_unique {A : Type} (l : List A) (pr : A → Bool) (h : l.countP pr = 1) :
    ∀ a ∈ l, pr a = true → ∀ b ∈ l, pr b = true → a = b := by
  induction l with
  | nil => simp
  | cons x t ih =>
    intro a ha hpa b hb hpb
    rw [List.countP_cons] at h
    by_cases hx : pr x = true
    · rw [if_pos hx] at h
      have ht : t.countP pr = 0 := by omega
      have ha' : a = x := by
        rcases List.mem_cons.mp ha with h1 | h1
        · exact h1
        · exact absurd hpa (List.countP_eq_zero.mp ht a h1)
      have hb' : b = x := by
        rcases List.mem_cons.mp hb with h1 | h1
        · exact h1
        · exact absurd hpb (List.countP_eq_zero.mp ht b h1)
      rw [ha', hb']
    · rw [if_neg hx] at h
      have ha' : a ∈ t := by
        rcases List.mem_cons.mp ha with h1 | h1
        · rw [h1] at hpa
          exact absurd hpa hx
        · exact h1
      have hb' : b ∈ t := by
        rcases List.mem_cons.mp hb with h1 | h1
        · rw [h1] at hpb
          exact absurd hpb hx
        · exact h1
      exact ih h a ha' hpa b hb' hpb

lemma chainPairs_incident_count (pre : List Nat) :
    ∀ (v : Nat) (suf : List Nat), (pre ++ v :: suf).Nodup →
    (chainPairs (pre ++ v :: suf)).countP (fun ab => decide (compMem v ab)) =
      (if pre = [] then 0 else 1) + (if suf = [] then 0 else 1) := by
  induction pre with
  | nil =>
    intro v suf hnd
    cases suf with
    | nil => simp [chainPairs]
    | cons v1 suf' =>
      rw [show ([] : List Nat) ++ v :: v1 :: suf' = v :: v1 :: suf' from rfl] at hnd ⊢
      rw [show chainPairs (v :: v1 :: suf') = (v, v1) :: chainPairs (v1 :: suf') from rfl]
      rw [List.countP_cons]
      have hhead : decide (compMem v (v, v1)) = true := by simp [compMem]
      rw [if_pos hhead]
      have hvnot : v ∉ v1 :: suf' := (List.nodup_cons.mp hnd).1
      have htail : (chainPairs (v1 :: suf')).countP (fun ab => decide (compMem v ab)) = 0 := by
        rw [List.countP_eq_zero]
        intro ab hab
        have hcomp := chainPairs_components _ ab hab
        simp only [decide_eq_true_eq]
        intro hcm
        rcases hcm with h | h
        · exact hvnot (h ▸ hcomp.1)
        · exact hvnot (h ▸ hcomp.2)
      rw [htail]
      simp
  | cons x pre' ih =>
    intro v suf hnd
    cases pre' with
    | nil =>
      rw [show ([x] : List Nat) ++ v :: suf = x :: v :: suf from rfl] at hnd ⊢
      rw [show chainPairs (x :: v :: suf) = (x, v) :: chainPairs (v :: suf) from rfl]
      rw [List.countP_cons]
      have hhead : decide (compMem v (x, v)) = true := by simp [compMem]
      rw [if_pos hhead]
      have h2 := ih v suf (List.nodup_cons.mp hnd).2
      rw [show ([] : List Nat) ++ v :: suf = v :: suf from rfl] at h2
      rw [h2]
      cases suf <;> simp
    | cons y pre'' =>
      have hnd' : (x :: (y :: (pre'' ++ v :: suf))).Nodup := hnd
      have hnd2 := List.nodup_cons.mp hnd'
      show (chainPairs (x :: y :: (pre'' ++ v :: suf))).countP
        (fun ab => decide (compMem v ab)) = _
      rw [show chainPairs (x :: y :: (pre'' ++ v :: suf)) =
        (x, y) :: chainPairs (y :: (pre'' ++ v :: suf)) from rfl]
      rw [List.countP_cons]
      have hvmem : v ∈ y :: (pre'' ++ v :: suf) := by simp
      have hvx : v ≠ x := fun h => hnd2.1 (h ▸ hvmem)
      have hvy : v ≠ y := by
        have h1 := (List.nodup_cons.mp hnd2.2).1
        intro h
        exact h1 (by rw [← h]; simp)
      have hhead : ¬ (decide (compMem v (x, y)) = true) := by
        simp [compMem]
        exact ⟨hvx, hvy⟩
      rw [if_neg hhead]
      have h2 := ih v suf hnd2.2
      rw [show (y :: pre'') ++ v :: suf = y :: (pre'' ++ v :: suf) from rfl] at h2
      rw [h2]
      simp

lemma chainPairs_pair_count (pre : List Nat) :
    ∀ (v v1 : Nat) (suf' : List Nat), (pre ++ v :: v1 :: suf').Nodup →
    (chainPairs (pre ++ v :: v1 :: suf')).countP
      (fun ab => decide (pnorm ab = pnorm (v, v1))) = 1 := by
  induction pre with
  | nil =>
    intro v v1 suf' hnd
    rw [show ([] : List Nat) ++ v :: v1 :: suf' = v :: v1 :: suf' from rfl] at hnd ⊢
    rw [show chainPairs (v :: v1 :: suf') = (v, v1) :: chainPairs (v1 :: suf') from rfl]
    rw [List.countP_cons]
    rw [if_pos (by simp)]
    have hvnot : v ∉ v1 :: suf' := (List.nodup_cons.mp hnd).1
    have htail : (chainPairs (v1 :: suf')).countP
        (fun ab => decide (pnorm ab = pnorm (v, v1))) = 0 := by
      rw [List.countP_eq_zero]
      intro ab hab
      have hcomp := chainPairs_components _ ab hab
      simp only [decide_eq_true_eq]
      intro hpe
      rcases ab with ⟨c, d⟩
      rcases pnorm_eq_pair hpe with ⟨h1, h2⟩ | ⟨h1, h2⟩
      · exact hvnot (h1 ▸ hcomp.1)
      · exact hvnot (h2 ▸ hcomp.2)
    rw [htail]
  | cons x pre' ih =>
    intro v v1 suf' hnd
    have hmem1 : v ∈ pre' ++ v :: v1 :: suf' := by simp
    have hmem2 : v1 ∈ pre' ++ v :: v1 :: suf' := by simp
    cases pre' with
    | nil =>
      rw [show ([x] : List Nat) ++ v :: v1 :: suf' = x :: v :: v1 :: suf' from rfl] at hnd ⊢
      rw [show chainPairs (x :: v :: v1 :: suf') =
        (x, v) :: chainPairs (v :: v1 :: suf') from rfl]
      rw [List.countP_cons]
      have hnd2 := List.nodup_cons.mp hnd
      have hxv : x ≠ v := fun h => hnd2.1 (by rw [h]; simp)
      have hxv1 : x ≠ v1 := fun h => hnd2.1 (by rw [h]; simp)
      have hhead : ¬ (decide (pnorm (x, v) = pnorm (v, v1)) = true) := by
        simp only [decide_eq_true_eq]
        intro hpe
        rcases pnorm_eq_pair hpe with ⟨h1, h2⟩ | ⟨h1, h2⟩
        · exact hxv h1
        · exact hxv1 h1
      rw [if_neg hhead]
      have h2 := ih v v1 suf' hnd2.2
      rw [show ([] : List Nat) ++ v :: v1 :: suf' = v :: v1 :: suf' from rfl] at h2
      rw [h2]
    | cons y pre'' =>
      have hnd' : (x :: (y :: (pre'' ++ v :: v1 :: suf'))).Nodup := hnd
      have hnd2 := List.nodup_cons.mp hnd'
      show (chainPairs (x :: y :: (pre'' ++ v :: v1 :: suf'))).countP
        (fun ab => decide (pnorm ab = pnorm (v, v1))) = 1
      rw [show chainPairs (x :: y :: (pre'' ++ v :: v1 :: suf')) =
        (x, y) :: chainPairs (y :: (pre'' ++ v :: v1 :: suf')) from rfl]
      rw [List.countP_cons]
      have hxv : x ≠ v := fun h => hnd2.1 (by rw [h]; simp)
      have hxv1 : x ≠ v1 := fun h => hnd2.1 (by rw [h]; simp)
      have hhead : ¬ (decide (pnorm (x, y) = pnorm (v, v1)) = true) := by
        simp only [decide_eq_true_eq]
        intro hpe
        rcases pnorm_eq_pair hpe with ⟨h1, h2⟩ | ⟨h1, h2⟩
        · exact hxv h1
        · exact hxv1 h1
      rw [if_neg hhead]
      have h2 := ih v v1 suf' hnd2.2
      rw [show (y :: pre'') ++ v :: v1 :: suf' = y :: (pre'' ++ v :: v1 :: suf') from rfl] at h2
      rw [h2]

lemma chainPairs_incident_char (pre : List Nat) :
    ∀ (v : Nat) (suf : List Nat), (pre ++ v :: suf).Nodup →
    ∀ ab ∈ chainPairs (pre ++ v :: suf), compMem v ab →
    (∃ prev pre', pre = pre' ++ [prev] ∧ pnorm ab = pnorm (prev, v)) ∨
    (∃ v1 suf', suf = v1 :: suf' ∧ pnorm ab = pnorm (v, v1)) := by
  induction pre with
  | nil =>
    intro v suf hnd ab hab hcm
    cases suf with
    | nil => simp [chainPairs] at hab
    | cons v1 suf' =>
      rw [show ([] : List Nat) ++ v :: v1 :: suf' = v :: v1 :: suf' from rfl] at hnd hab
      rw [show chainPairs (v :: v1 :: suf') = (v, v1) :: chainPairs (v1 :: suf') from rfl] at hab
      rcases List.mem_cons.mp hab with h | h
      · exact Or.inr ⟨v1, suf', rfl, by rw [h]⟩
      · exfalso
        have hvnot : v ∉ v1 :: suf' := (List.nodup_cons.mp hnd).1
        have hcomp := chainPairs_components _ ab h
        rcases hcm with h1 | h1
        · exact hvnot (h1 ▸ hcomp.1)
        · exact hvnot (h1 ▸ hcomp.2)
  | cons x pre' ih =>
    intro v suf hnd ab hab hcm
    have hvmem : v ∈ pre' ++ v :: suf := by simp
    cases pre' with
    | nil =>
      rw [show ([x] : List Nat) ++ v :: suf = x :: v :: suf from rfl] at hnd hab
      rw [show chainPairs (x :: v :: suf) = (x, v) :: chainPairs (v :: suf) from rfl] at hab
      rcases List.mem_cons.mp hab with h | h
      · exact Or.inl ⟨x, [], by simp, by rw [h]⟩
      · have h2 := ih v suf (List.nodup_cons.mp hnd).2 ab h hcm
        rcases h2 with ⟨prev, pre2, hp, he⟩ | h2
        · exact absurd hp (by simp)
        · exact Or.inr h2
    | cons y pre'' =>
      have hnd' : (x :: (y :: (pre'' ++ v :: suf))).Nodup := hnd
      have hnd2 := List.nodup_cons.mp hnd'
      have hab' : ab ∈ chainPairs (x :: y :: (pre'' ++ v :: suf)) := hab
      rw [show chainPairs (x :: y :: (pre'' ++ v :: suf)) =
        (x, y) :: chainPairs (y :: (pre'' ++ v :: suf)) from rfl] at hab'
      have hvx : v ≠ x := fun h => hnd2.1 (by rw [← h]; simp)
      have hvy : v ≠ y := by
        have h1 := (List.nodup_cons.mp hnd2.2).1
        intro h
        exact h1 (by rw [← h]; simp)
      rcases List.mem_cons.mp hab' with h | h
      · exfalso
        rw [h] at hcm
        rcases hcm with h1 | h1
        · exact hvx h1
        · exact hvy h1
      · have h2 := ih v suf hnd2.2 ab h hcm
        rcases h2 with ⟨prev, pre2, hp, he⟩ | h2
        · refine Or.inl ⟨prev, x :: pre2, ?_, he⟩
          rw [show (x :: y :: pre'') = x :: (y :: pre'') from rfl, hp]
          simp
        · exact Or.inr h2

lemma pathset_disjoint {sel : List GEdge} {paths : List (List Nat)}
    (hps : IsPathSet sel paths) {p q : List Nat} (hp : p ∈ paths) (hq : q ∈ paths)
    (hne : p ≠ q) : ∀ v ∈ p, v ∉ q := by
  have hsym : Symmetric (fun (p q : List Nat) => ∀ v ∈ p, v ∉ q) := by
    intro a b h v hv hva
    exact h v hva hv
  exact List.Pairwise.forall hsym hps.2.1 hp hq hne

lemma sel_pair_mem {sel : List GEdge} {paths : List (List Nat)}
    (hps : IsPathSet sel paths) {e : GEdge} (he : e ∈ sel) :
    ∃ p ∈ paths, ∃ ab ∈ chainPairs p, pnorm ab = enorm e := by
  have h1 : enorm e ∈ (paths.map chainPairs).join.map pnorm :=
    hps.2.2.mem_iff.mp (List.mem_map_of_mem _ he)
  rcases List.mem_map.mp h1 with ⟨ab, habj, habe⟩
  rcases List.mem_join.mp habj with ⟨cp, hcpm, habcp⟩
  rcases List.mem_map.mp hcpm with ⟨p, hpm, hcp⟩
  exact ⟨p, hpm, ab, hcp ▸ habcp, habe⟩

lemma enorm_compMem {e : GEdge} {v : Nat} :
    compMem v (enorm e) ↔ (v = e.gf1.gid ∨ v = e.gf2.gid) :=
  compMem_pnorm v (e.gf1.gid, e.gf2.gid)

lemma mem_path_of_incident {sel : List GEdge} {paths : List (List Nat)}
    (hps : IsPathSet sel paths) {e : GEdge} (he : e ∈ sel) {v : Nat}
    (hv : v = e.gf1.gid ∨ v = e.gf2.gid) : ∃ p ∈ paths, v ∈ p := by
  rcases sel_pair_mem hps he with ⟨p, hp, ab, habp, habe⟩
  have hcm : compMem v ab := by
    have : compMem v (pnorm ab) := by
      rw [habe]
      exact enorm_compMem.mpr hv
    exact (compMem_pnorm v ab).mp this
  have hcomp := chainPairs_components p ab habp
  rcases hcm with h | h
  · exact ⟨p, hp, h ▸ hcomp.1⟩
  · exact ⟨p, hp, h ▸ hcomp.2⟩

lemma path_extract {sel : List GEdge} {paths : List (List Nat)}
    (hps : IsPathSet sel paths) {p : List Nat} (hp : p ∈ paths) :
    ∃ l1 l2, paths = l1 ++ p :: l2 ∧ p ∉ l1 ∧ p ∉ l2 := by
  rcases List.append_of_mem hp with ⟨l1, l2, hsplit⟩
  refine ⟨l1, l2, hsplit, ?_, ?_⟩
  · intro hmem
    have hlen := (hps.1 p hp).1
    have hpair := hps.2.1
    rw [hsplit, List.pairwise_append] at hpair
    have := hpair.2.2 p hmem p (List.mem_cons_self p l2)
    cases p with
    | nil => simp at hlen
    | cons a t => exact this a (List.mem_cons_self a t) (List.mem_cons_self a t)
  · intro hmem
    have hlen := (hps.1 p hp).1
    have hpair := hps.2.1
    rw [hsplit, List.pairwise_append] at hpair
    have h2 := (List.pairwise_cons.mp hpair.2.1).1 p hmem
    cases p with
    | nil => simp at hlen
    | cons a t => exact h2 a (List.mem_cons_self a t) (List.mem_cons_self a t)

lemma pathset_perm_paths {sel : List GEdge} {paths paths' : List (List Nat)}
    (hpp : paths.Perm paths') (hps : IsPathSet sel paths) : IsPathSet sel paths' := by
  refine ⟨fun p hp => hps.1 p (hpp.mem_iff.mpr hp), ?_, ?_⟩
  · exact (hpp.pairwise_iff (fun h v hv hva => h v hva hv)).mp hps.2.1
  · exact hps.2.2.trans (((hpp.map chainPairs).join).map pnorm)

lemma pathset_perm_sel {sel sel' : List GEdge} {paths : List (List Nat)}
    (hss : sel.Perm sel') (hps : IsPathSet sel paths) : IsPathSet sel' paths :=
  ⟨hps.1, hps.2.1, (hss.map enorm).symm.trans hps.2.2⟩

lemma pathset_reverse_member {sel : List GEdge} {l1 l2 : List (List Nat)} {p : List Nat}
    (hps : IsPathSet sel (l1 ++ p :: l2)) : IsPathSet sel (l1 ++ p.reverse :: l2) := by
  obtain ⟨h1, h2, h3⟩ := hps
  refine ⟨?_, ?_, ?_⟩
  · intro q hq
    rcases List.mem_append.mp hq with h | h
    · exact h1 q (List.mem_append_left _ h)
    · rcases List.mem_cons.mp h with h | h
      · subst h
        have := h1 p (by simp)
        exact ⟨by simpa using this.1, by simp [this.2]⟩
      · exact h1 q (by simp [h])
  · rw [List.pairwise_append] at h2 ⊢
    obtain ⟨ha, hb, hc⟩ := h2
    rw [List.pairwise_cons] at hb ⊢
    refine ⟨ha, ⟨?_, hb.2⟩, ?_⟩
    · intro q hq v hv
      exact hb.1 q hq v (List.mem_reverse.mp hv)
    · intro a haa b hbb
      rcases List.mem_cons.mp hbb with h | h
      · subst h
        intro v hv hvb
        exact hc a haa p (List.mem_cons_self p l2) v hv (List.mem_reverse.mp hvb)
      · exact hc a haa b (List.mem_cons_of_mem _ h)
  · have hj : ∀ (A B : List (List (Nat × Nat))) (x : List (Nat × Nat)),
        (A ++ x :: B).join = A.join ++ (x ++ B.join) := by
      intro A B x
      simp
    rw [List.map_append, List.map_cons, hj, List.map_append, List.map_append] at h3 ⊢
    refine h3.trans ?_
    refine List.Perm.append_left _ ?_
    exact List.Perm.append_right _ (chainPairs_reverse_perm p).symm

lemma sel_countP_path {sel : List GEdge} {paths : List (List Nat)}
    (hps : IsPathSet sel paths) {p : List Nat} (hp : p ∈ paths)
    (pr : Nat × Nat → Bool)
    (hzero : ∀ q ∈ paths, q ≠ p → ∀ ab ∈ chainPairs q, ¬ (pr (pnorm ab) = true)) :
    sel.countP (fun e => pr (enorm e)) =
      (chainPairs p).countP (fun ab => pr (pnorm ab)) := by
  rcases path_extract hps hp with ⟨l1, l2, hpa, hn1, hn2⟩
  have h0 : sel.countP (fun e => pr (enorm e)) = (sel.map enorm).countP pr :=
    (List.countP_map pr enorm sel).symm
  rw [h0, hps.2.2.countP_eq]
  have hj : ∀ (A B : List (List (Nat × Nat))) (x : List (Nat × Nat)),
      (A ++ x :: B).join = A.join ++ (x ++ B.join) := by
    intro A B x
    simp
  rw [hpa, List.map_append, List.map_cons, hj, List.map_append, List.map_append,
    List.countP_append, List.countP_append]
  have hz : ∀ l : List (List Nat), (∀ q ∈ l, q ∈ paths ∧ q ≠ p) →
      (((l.map chainPairs).join).map pnorm).countP pr = 0 := by
    intro l hl
    rw [List.countP_eq_zero]
    intro x hx
    rcases List.mem_map.mp hx with ⟨ab, habj, habx⟩
    rcases List.mem_join.mp habj with ⟨cp, hcpm, habcp⟩
    rcases List.mem_map.mp hcpm with ⟨q, hqm, hcq⟩
    have := hzero q (hl q hqm).1 (hl q hqm).2 ab (hcq ▸ habcp)
    rw [habx] at this
    exact this
  rw [hz l1 (fun q hq => ⟨by rw [hpa]; exact List.mem_append_left _ hq,
    fun h => hn1 (h ▸ hq)⟩)]
  rw [hz l2 (fun q hq => ⟨by rw [hpa]; simp [hq],
    fun h => hn2 (h ▸ hq)⟩)]
  have hfin : (((chainPairs p).map pnorm).countP pr) =
      (chainPairs p).countP (fun ab => pr (pnorm ab)) :=
    List.countP_map pr pnorm (chainPairs p)
  rw [hfin]
  omega

lemma degOfE_split {sel : List GEdge} {paths : List (List Nat)}
    (hps : IsPathSet sel paths) {p : List Nat} (hp : p ∈ paths)
    {pre suf : List Nat} {v : Nat} (hsplit : p = pre ++ v :: suf) :
    degOfE sel v = (if pre = [] then 0 else 1) + (if suf = [] then 0 else 1) := by
  have h0 : degOfE sel v = sel.countP (fun e => decide (compMem v (enorm e))) := by
    unfold degOfE
    refine List.countP_congr ?_
    intro e _
    simp only [decide_eq_true_eq]
    rw [enorm_compMem]
    constructor
    · intro h
      rcases h with h | h
      · exact Or.inl h.symm
      · exact Or.inr h.symm
    · intro h
      rcases h with h | h
      · exact Or.inl h.symm
      · exact Or.inr h.symm
  rw [h0]
  have h1 := sel_countP_path hps hp (fun ab => decide (compMem v ab)) (by
    intro q hq hqp ab hab
    simp only [decide_eq_true_eq]
    rw [compMem_pnorm]
    intro hcm
    have hvq : v ∈ q := by
      have hcomp := chainPairs_components q ab hab
      rcases hcm with h | h
      · exact h ▸ hcomp.1
      · exact h ▸ hcomp.2
    have hvp : v ∈ p := by rw [hsplit]; simp
    exact pathset_disjoint hps hq hp hqp v hvq hvp)
  refine h1.trans ?_
  have h2 : (chainPairs p).countP (fun ab => decide (compMem v (pnorm ab))) =
      (chainPairs p).countP (fun ab => decide (compMem v ab)) := by
    refine List.countP_congr ?_
    intro ab _
    simp only [decide_eq_true_eq]
    exact compMem_pnorm v ab
  refine h2.trans ?_
  rw [hsplit]
  exact chainPairs_incident_count pre v suf (hsplit ▸ (hps.1 p hp).2)

lemma sel_pair_countP {sel : List GEdge} {paths : List (List Nat)}
    (hps : IsPathSet sel paths) {p : List Nat} (hp : p ∈ paths)
    {pre suf' : List Nat} {v v1 : Nat} (hsplit : p = pre ++ v :: v1 :: suf') :
    sel.countP (fun e => decide (enorm e = pnorm (v, v1))) = 1 := by
  have h1 := sel_countP_path hps hp (fun ab => decide (ab = pnorm (v, v1))) (by
    intro q hq hqp ab hab
    simp only [decide_eq_true_eq]
    intro hpe
    have hvp : v ∈ p := by rw [hsplit]; simp
    have hvq : v ∈ q := by
      have hcm : compMem v ab := (compMem_pnorm v ab).mp (by
        rw [hpe]
        exact (compMem_pnorm v (v, v1)).mpr (Or.inl rfl))
      have hcomp := chainPairs_components q ab hab
      rcases hcm with h | h
      · exact h ▸ hcomp.1
      · exact h ▸ hcomp.2
    exact pathset_disjoint hps hq hp hqp v hvq hvp)
  refine h1.trans ?_
  rw [hsplit]
  exact chainPairs_pair_count pre v v1 suf' (hsplit ▸ (hps.1 p hp).2)

lemma sel_incident_char {sel : List GEdge} {paths : List (List Nat)}
    (hps : IsPathSet sel paths) {p : List Nat} (hp : p ∈ paths)
    {pre suf : List Nat} {v : Nat} (hsplit : p = pre ++ v :: suf)
    {e : GEdge} (he : e ∈ sel) (hinc : v = e.gf1.gid ∨ v = e.gf2.gid) :
    (∃ prev pre', pre = pre' ++ [prev] ∧ enorm e = pnorm (prev, v)) ∨
    (∃ v1 suf', suf = v1 :: suf' ∧ enorm e = pnorm (v, v1)) := by
  rcases sel_pair_mem hps he with ⟨q, hq, ab, habq, habe⟩
  have hcm : compMem v ab := by
    have h1 : compMem v (pnorm ab) := by
      rw [habe]
      exact enorm_compMem.mpr hinc
    exact (compMem_pnorm v ab).mp h1
  have hvq : v ∈ q := by
    have hcomp := chainPairs_components q ab habq
    rcases hcm with h | h
    · exact h ▸ hcomp.1
    · exact h ▸ hcomp.2
  have hvp : v ∈ p := by rw [hsplit]; simp
  have hqp : q = p := by
    by_contra hne
    exact pathset_disjoint hps hq hp hne v hvq hvp
  rw [hqp, hsplit] at habq
  have := chainPairs_incident_char pre v suf (hsplit ▸ (hps.1 p hp).2) ab habq hcm
  rcases this with ⟨prev, pre', hpp, hpe⟩ | ⟨v1, suf', hss, hpe⟩
  · exact Or.inl ⟨prev, pre', hpp, habe ▸ hpe ▸ rfl⟩
  · exact Or.inr ⟨v1, suf', hss, habe ▸ hpe ▸ rfl⟩

lemma deg_pos_of_mem_path {sel : List GEdge} {paths : List (List Nat)}
    (hps : IsPathSet sel paths) {p : List Nat} (hp : p ∈ paths) {v : Nat}
    (hv : v ∈ p) : 1 ≤ degOfE sel v := by
  rcases List.append_of_mem hv with ⟨pre, suf, hsplit⟩
  rw [degOfE_split hps hp hsplit]
  have hlen := (hps.1 p hp).1
  rw [hsplit, List.length_append, List.length_cons] at hlen
  cases pre with
  | nil =>
    cases suf with
    | nil => simp at hlen
    | cons a t => simp
  | cons a t => simp

lemma deg_le_two_of_pathset {sel : List GEdge} {paths : List (List Nat)}
    (hps : IsPathSet sel paths) (v : Nat) : degOfE sel v ≤ 2 := by
  by_cases h : degOfE sel v = 0
  · omega
  · have hpos : 0 < sel.countP (fun e => decide (e.gf1.gid = v ∨ e.gf2.gid = v)) := by
      unfold degOfE at h
      omega
    rcases List.countP_pos.mp hpos with ⟨e, he, hpe⟩
    simp only [decide_eq_true_eq] at hpe
    have hinc : v = e.gf1.gid ∨ v = e.gf2.gid := by
      rcases hpe with h1 | h1
      · exact Or.inl h1.symm
      · exact Or.inr h1.symm
    rcases mem_path_of_incident hps he hinc with ⟨p, hp, hvp⟩
    rcases List.append_of_mem hvp with ⟨pre, suf, hsplit⟩
    rw [degOfE_split hps hp hsplit]
    split <;> split <;> omega

lemma endpoint_normalize {sel : List GEdge} {paths : List (List Nat)}
    (hps : IsPathSet sel paths) {v : Nat} (hdeg : degOfE sel v = 1) :
    ∃ rest paths₀, IsPathSet sel ((v :: rest) :: paths₀) ∧ v ∉ rest ∧
      (∀ q ∈ paths, v ∉ q → q ∈ paths₀) := by
  have hpos : 0 < sel.countP (fun e => decide (e.gf1.gid = v ∨ e.gf2.gid = v)) := by
    unfold degOfE at hdeg
    omega
  rcases List.countP_pos.mp hpos with ⟨e, he, hpe⟩
  simp only [decide_eq_true_eq] at hpe
  have hinc : v = e.gf1.gid ∨ v = e.gf2.gid := by
    rcases hpe with h | h
    · exact Or.inl h.symm
    · exact Or.inr h.symm
  rcases mem_path_of_incident hps he hinc with ⟨p, hp, hvp⟩
  rcases List.append_of_mem hvp with ⟨pre, suf, hsplit⟩
  have hd := degOfE_split hps hp hsplit
  rw [hdeg] at hd
  by_cases hpre : pre = []
  · subst hpre
    have hs2 : p = v :: suf := hsplit
    rcases path_extract hps hp with ⟨l1, l2, hpa, hn1, hn2⟩
    have hperm : paths.Perm (p :: (l1 ++ l2)) := by
      rw [hpa]
      exact List.perm_middle
    have hps' := pathset_perm_paths hperm hps
    rw [hs2] at hps'
    refine ⟨suf, l1 ++ l2, hps', ?_, ?_⟩
    · have hnd := (hps.1 p hp).2
      rw [hs2] at hnd
      exact (List.nodup_cons.mp hnd).1
    · intro q hq hvq
      have hqnp : q ≠ p := fun h => hvq (h ▸ hvp)
      rw [hpa] at hq
      rcases List.mem_append.mp hq with h | h
      · exact List.mem_append_left _ h
      · rcases List.mem_cons.mp h with h | h
        · exact absurd h hqnp
        · exact List.mem_append_right _ h
  · have hsuf : suf = [] := by
      by_contra hsc
      rw [if_neg hpre, if_neg hsc] at hd
      omega
    subst hsuf
    have hs2 : p = pre ++ [v] := hsplit
    rcases path_extract hps hp with ⟨l1, l2, hpa, hn1, hn2⟩
    have hps2 : IsPathSet sel (l1 ++ p.reverse :: l2) := pathset_reverse_member (hpa ▸ hps)
    have hps' := pathset_perm_paths (List.perm_middle) hps2
    have hrev : p.reverse = v :: pre.reverse := by
      rw [hs2]
      simp
    rw [hrev] at hps'
    refine ⟨pre.reverse, l1 ++ l2, hps', ?_, ?_⟩
    · have hnd := (hps.1 p hp).2
      rw [hs2] at hnd
      intro hmem
      rw [List.mem_reverse] at hmem
      rcases List.nodup_append.mp hnd with ⟨_, _, hdisj⟩
      exact hdisj hmem (by simp)
    · intro q hq hvq
      have hqnp : q ≠ p := fun h => hvq (h ▸ hvp)
      rw [hpa] at hq
      rcases List.mem_append.mp hq with h | h
      · exact List.mem_append_left _ h
      · rcases List.mem_cons.mp h with h | h
        · exact absurd h hqnp
        · exact List.mem_append_right _ h

lemma pathset_new_path {sel : List GEdge} {paths : List (List Nat)}
    (hps : IsPathSet sel paths) {e : GEdge}
    (hab : e.gf1.gid ≠ e.gf2.gid) (hda : degOfE sel e.gf1.gid = 0)
    (hdb : degOfE sel e.gf2.gid = 0) :
    ∃ paths', IsPathSet (e :: sel) paths' := by
  refine ⟨[e.gf1.gid, e.gf2.gid] :: paths, ?_, ?_, ?_⟩
  · intro q hq
    rcases List.mem_cons.mp hq with h | h
    · subst h
      exact ⟨by simp, by simp [hab]⟩
    · exact hps.1 q h
  · rw [List.pairwise_cons]
    refine ⟨?_, hps.2.1⟩
    intro q hq w hw hwq
    have hdeg := deg_pos_of_mem_path hps hq hwq
    rcases List.mem_cons.mp hw with h | h
    · rw [h] at hdeg
      omega
    · rcases List.mem_cons.mp h with h1 | h1
      · rw [h1] at hdeg
        omega
      · simp at h1
  · rw [List.map_cons]
    have hj : (([e.gf1.gid, e.gf2.gid] :: paths).map chainPairs).join =
        (e.gf1.gid, e.gf2.gid) :: (paths.map chainPairs).join := by
      simp [chainPairs]
    rw [hj, List.map_cons]
    exact hps.2.2.cons _

lemma pathset_extend {sel : List GEdge} {paths : List (List Nat)}
    (hps : IsPathSet sel paths) {e : GEdge} {a b : Nat}
    (hda : degOfE sel a = 1) (hdb : degOfE sel b = 0)
    (hee : enorm e = pnorm (a, b)) :
    ∃ paths', IsPathSet (e :: sel) paths' := by
  rcases endpoint_normalize hps hda with ⟨rest, paths₀, hps', hanr, hkeep⟩
  refine ⟨(b :: a :: rest) :: paths₀, ?_, ?_, ?_⟩
  · intro q hq
    rcases List.mem_cons.mp hq with h | h
    · subst h
      have hold := hps'.1 (a :: rest) (List.mem_cons_self _ _)
      refine ⟨by simp, ?_⟩
      rw [List.nodup_cons]
      refine ⟨?_, hold.2⟩
      intro hbmem
      have := deg_pos_of_mem_path hps' (List.mem_cons_self (a :: rest) paths₀) hbmem
      omega
    · exact hps'.1 q (List.mem_cons_of_mem _ h)
  · rw [List.pairwise_cons]
    have hp2 := List.pairwise_cons.mp hps'.2.1
    refine ⟨?_, hp2.2⟩
    intro q hq w hw hwq
    rcases List.mem_cons.mp hw with h | h
    · subst h
      have := deg_pos_of_mem_path hps' (List.mem_cons_of_mem _ hq) hwq
      omega
    · exact hp2.1 q hq w h hwq
  · rw [List.map_cons]
    have hj : (((b :: a :: rest) :: paths₀).map chainPairs).join =
        (b, a) :: (((a :: rest) :: paths₀).map chainPairs).join := by
      simp [chainPairs]
    rw [hj, List.map_cons]
    rw [show pnorm (b, a) = pnorm (a, b) from pnorm_symm b a]
    rw [hee]
    exact hps'.2.2.cons _

lemma pathset_join {sel : List GEdge} {b : Nat} {rest : List Nat}
    {paths₀ : List (List Nat)}
    (hps' : IsPathSet sel ((b :: rest) :: paths₀)) {e : GEdge} {a : Nat}
    (hda : degOfE sel a = 1) (hnab : a ∉ b :: rest)
    (hee : enorm e = pnorm (a, b)) :
    ∃ paths', IsPathSet (e :: sel) paths' := by
  rcases endpoint_normalize hps' hda with ⟨resta, paths₁, hps2, hanr, hkeep⟩
  have hbp : (b :: rest) ∈ paths₁ := hkeep (b :: rest) (List.mem_cons_self _ _) hnab
  rcases List.append_of_mem hbp with ⟨m1, m2, hm⟩
  have hperm : ((a :: resta) :: paths₁).Perm
      ((a :: resta) :: (b :: rest) :: (m1 ++ m2)) := by
    refine List.Perm.cons _ ?_
    rw [hm]
    exact List.perm_middle
  have hps3 := pathset_perm_paths hperm hps2
  have hdisjAB : ∀ v ∈ a :: resta, v ∉ b :: rest :=
    (List.pairwise_cons.mp hps3.2.1).1 (b :: rest) (List.mem_cons_self _ _)
  refine ⟨((a :: resta).reverse ++ b :: rest) :: (m1 ++ m2), ?_, ?_, ?_⟩
  · intro q hq
    rcases List.mem_cons.mp hq with h | h
    · subst h
      constructor
      · simp
        omega
      · rw [List.nodup_append]
        refine ⟨?_, ?_, ?_⟩
        · exact (List.nodup_reverse).mpr (hps3.1 (a :: resta) (by simp)).2
        · exact (hps3.1 (b :: rest) (by simp)).2
        · intro w hw
          exact hdisjAB w (List.mem_reverse.mp hw)
    · exact hps3.1 q (by simp [h])
  · rw [List.pairwise_cons]
    have hp2 := List.pairwise_cons.mp hps3.2.1
    have hp3 := List.pairwise_cons.mp hp2.2
    refine ⟨?_, hp3.2⟩
    intro q hq w hw hwq
    rcases List.mem_append.mp hw with h | h
    · exact hp2.1 q (by simp [hq]) w (List.mem_reverse.mp h) hwq
    · exact hp3.1 q hq w h hwq
  · rw [List.map_cons]
    have hj : ∀ (x : List Nat) (L : List (List Nat)),
        ((x :: L).map chainPairs).join = chainPairs x ++ (L.map chainPairs).join := by
      intro x L
      simp
    rw [hj, List.map_append]
    have hcp : chainPairs ((a :: resta).reverse ++ b :: rest) =
        (chainPairs ((a :: resta).reverse) ++ [(a, b)]) ++ chainPairs (b :: rest) := by
      rw [chainPairs_append _ b rest]
      congr 1
      rw [show (a :: resta).reverse = resta.reverse ++ [a] from List.reverse_cons a resta]
      exact chainPairs_snoc resta.reverse a b
    rw [hcp]
    have hsel := hps3.2.2
    rw [hj, List.map_append, hj, List.map_append] at hsel
    rw [hee]
    refine List.Perm.trans (List.Perm.cons _ (hsel.trans (List.Perm.append
      (chainPairs_reverse_perm (a :: resta)).symm (List.Perm.refl _)))) ?_
    simp only [List.map_append, List.map_cons, List.map_nil, List.append_assoc,
      List.singleton_append]
    exact List.perm_middle.symm

lemma sel_edge_of_consecutive {sel : List GEdge} {paths : List (List Nat)}
    (hps : IsPathSet sel paths) {p : List Nat} (hp : p ∈ paths)
    {pre suf' : List Nat} {v v1 : Nat} (hsplit : p = pre ++ v :: v1 :: suf') :
    ∃ e ∈ sel, enorm e = pnorm (v, v1) := by
  have hmemcp : (v, v1) ∈ chainPairs p := by
    rw [hsplit, chainPairs_append pre v (v1 :: suf')]
    refine List.mem_append_right _ ?_
    rw [show chainPairs (v :: v1 :: suf') = (v, v1) :: chainPairs (v1 :: suf') from rfl]
    exact List.mem_cons_self _ _
  have h1 : pnorm (v, v1) ∈ (paths.map chainPairs).join.map pnorm :=
    List.mem_map_of_mem _ (List.mem_join.mpr
      ⟨chainPairs p, List.mem_map_of_mem _ hp, hmemcp⟩)
  have h2 : pnorm (v, v1) ∈ sel.map enorm := hps.2.2.mem_iff.mpr h1
  rcases List.mem_map.mp h2 with ⟨e, hes, hee⟩
  exact ⟨e, hes, hee⟩

lemma snoc_inj_last {l1 l2 : List Nat} {a b : Nat} (h : l1 ++ [a] = l2 ++ [b]) :
    a = b := by
  have h1 : (l1 ++ [a]).getLast? = some a := by simp
  rw [h] at h1
  have h2 : (l2 ++ [b]).getLast? = some b := by simp
  exact Option.some.inj (h1.symm.trans h2)

lemma cleanPair_of {es : List GEdge} (hclean : CleanHashes es) {e : GEdge}
    (he : e ∈ es) {k : GFace} (hk : EsFaceOf es k) : CleanPair e k := by
  rcases hk with ⟨f, hf, hor⟩
  rcases hor with h | h
  · exact h ▸ (hclean e he f hf).1
  · exact h ▸ (hclean e he f hf).2

lemma hashInjPair_of {es : List GEdge} (hinj : FaceHashInj es) {k l : GFace}
    (hk : EsFaceOf es k) (hl : EsFaceOf es l) : HashInjPair k l := by
  rcases hk with ⟨e, he, hek⟩
  rcases hl with ⟨f, hf, hfl⟩
  have h4 := hinj e he f hf
  rcases hek with h | h <;> rcases hfl with h2 | h2 <;>
    rw [h, h2]
  · exact h4.1
  · exact h4.2.1
  · exact h4.2.2.1
  · exact h4.2.2.2

lemma aINLGo_avoid {es sel : List GEdge} {paths : List (List Nat)} {d : Nat → Nat}
    (hclean : CleanHashes es) (hinj : FaceHashInj es)
    (hdist : ∀ e ∈ es, e.gf1.gid ≠ e.gf2.gid)
    (hsub : ∀ e ∈ sel, e ∈ es)
    (hndh : (sel.map (fun e => e.eh)).Nodup)
    (hdc : ∀ i, d i = degOfE sel i)
    (hps : IsPathSet sel paths) {p : List Nat} (hp : p ∈ paths)
    (testFace : GFace) (htf : EsFaceOf es testFace) :
    ∀ (suf pre : List Nat) (k : GFace) (e0 : String) (fuel : Nat),
    p = pre ++ k.gid :: suf →
    EsFaceOf es k →
    (∀ e ∈ sel, (k.gid = e.gf1.gid ∨ k.gid = e.gf2.gid) → e.eh ≠ e0 →
      ∃ v1 suf', suf = v1 :: suf' ∧ enorm e = pnorm (k.gid, v1)) →
    (∀ v1 suf', suf = v1 :: suf' → ∀ e ∈ sel, enorm e = pnorm (k.gid, v1) → e.eh ≠ e0) →
    aINLGo d sel testFace fuel e0 k = true →
    testFace.gid ∉ suf := by
  intro suf
  induction suf with
  | nil =>
    intro pre k e0 fuel hsplit hkf hexcl hfwd hrun
    simp
  | cons v1 suf' ih =>
    intro pre k e0 fuel hsplit hkf hexcl hfwd hrun
    rcases fuel with _ | fuel
    · simp [aINLGo] at hrun
    have hnd : (k.gid :: v1 :: suf').Nodup := by
      have := (hps.1 p hp).2
      rw [hsplit] at this
      exact this.of_append_right
    have hknotin : k.gid ∉ v1 :: suf' := (List.nodup_cons.mp hnd).1
    have hkv1 : k.gid ≠ v1 := fun h => hknotin (by rw [h]; simp)
    rw [show aINLGo d sel testFace (fuel + 1) e0 k =
      (match getMatchingEdgeE sel e0 k.fh with
      | none => true
      | some ce =>
        let nextFace := if ce.gf1.fh = k.fh then ce.gf2 else ce.gf1
        if d nextFace.gid = 1 ∧ nextFace.fh ≠ testFace.fh then true
        else if nextFace.fh = testFace.fh then false
        else aINLGo d sel testFace fuel ce.eh nextFace) from rfl] at hrun
    rcases hmatch : getMatchingEdgeE sel e0 k.fh with _ | ce
    · -- no matching edge: contradiction with the forward edge
      exfalso
      rcases sel_edge_of_consecutive hps hp hsplit with ⟨e1, he1, henorm⟩
      have hinc1 : k.gid = e1.gf1.gid ∨ k.gid = e1.gf2.gid :=
        enorm_compMem.mp (by rw [henorm]; exact (compMem_pnorm _ _).mpr (Or.inl rfl))
      have hfh : e1.gf1.fh = k.fh ∨ e1.gf2.fh = k.fh := by
        rcases hinc1 with h | h
        · exact Or.inl ((hashInjPair_of hinj ⟨e1, hsub e1 he1, Or.inl rfl⟩ hkf).mpr h.symm)
        · exact Or.inr ((hashInjPair_of hinj ⟨e1, hsub e1 he1, Or.inr rfl⟩ hkf).mpr h.symm)
      have hstr := (cleanPair_of hclean (hsub e1 he1) hkf).mpr hfh
      have hne := hfwd v1 suf' rfl e1 he1 henorm
      unfold getMatchingEdgeE at hmatch
      have := List.find?_eq_none.mp hmatch e1 he1
      simp only [decide_eq_true_eq] at this
      exact this ⟨hstr, hne⟩
    · rw [hmatch] at hrun
      dsimp only at hrun
      have hce_mem : ce ∈ sel := List.mem_of_find?_eq_some (by
        unfold getMatchingEdgeE at hmatch
        exact hmatch)
      have hce_pred := List.find?_some (show sel.find? _ = some ce from by
        unfold getMatchingEdgeE at hmatch
        exact hmatch)
      simp only [decide_eq_true_eq] at hce_pred
      obtain ⟨hmstr, hne0⟩ := hce_pred
      have hce_es : ce ∈ es := hsub ce hce_mem
      have hincc : k.gid = ce.gf1.gid ∨ k.gid = ce.gf2.gid := by
        rcases (cleanPair_of hclean hce_es hkf).mp hmstr with h | h
        · exact Or.inl ((hashInjPair_of hinj ⟨ce, hce_es, Or.inl rfl⟩ hkf).mp h).symm
        · exact Or.inr ((hashInjPair_of hinj ⟨ce, hce_es, Or.inr rfl⟩ hkf).mp h).symm
      rcases hexcl ce hce_mem hincc hne0 with ⟨v1x, sufx, heqx, henormce⟩
      injection heqx with he1 he2
      subst he1
      subst he2
      have hcases := pnorm_eq_pair
        (show pnorm (ce.gf1.gid, ce.gf2.gid) = pnorm (k.gid, v1) from henormce)
      have hcont : ∀ nf : GFace, nf.gid = v1 → EsFaceOf es nf →
          ((if d nf.gid = 1 ∧ nf.fh ≠ testFace.fh then true
            else if nf.fh = testFace.fh then false
            else aINLGo d sel testFace fuel ce.eh nf) = true) →
          testFace.gid ∉ v1 :: suf' := by
        intro nf hnfgid hnfes hrun2
        have hsplit2 : p = (pre ++ [k.gid]) ++ v1 :: suf' := by
          rw [hsplit]
          simp
        split_ifs at hrun2 with h1 h2
        · obtain ⟨hd1, hfne⟩ := h1
          rw [hdc, hnfgid] at hd1
          have hds := degOfE_split hps hp hsplit2
          rw [hd1] at hds
          have hsuf0 : suf' = [] := by
            rcases hsc : suf' with _ | ⟨w, W⟩
            · rfl
            · rw [hsc, if_neg (by simp), if_neg (by simp)] at hds
              omega
          subst hsuf0
          simp only [List.mem_cons, List.not_mem_nil, or_false]
          intro he
          exact hfne ((hashInjPair_of hinj hnfes htf).mpr (by rw [hnfgid, he]))
        · have htest_ne : testFace.gid ≠ v1 := by
            intro he
            exact h2 ((hashInjPair_of hinj hnfes htf).mpr (by rw [hnfgid, he]))
          have hsplit3 : p = (pre ++ [k.gid]) ++ nf.gid :: suf' := by
            rw [hnfgid, hsplit]
            simp
          have hexcl2 : ∀ e ∈ sel, (nf.gid = e.gf1.gid ∨ nf.gid = e.gf2.gid) →
              e.eh ≠ ce.eh →
              ∃ w W, suf' = w :: W ∧ enorm e = pnorm (nf.gid, w) := by
            intro e he hince hnece
            rw [hnfgid] at hince
            rcases sel_incident_char hps hp hsplit2 he hince with
              ⟨prev, pre2, hpp, hpe⟩ | ⟨w, W, hwW, hpe⟩
            · exfalso
              have hprev : k.gid = prev := snoc_inj_last hpp
              have hcnt := sel_pair_countP hps hp hsplit
              have heq : e = ce := countP_one_unique _ _ hcnt e he
                (by simp only [decide_eq_true_eq]; rw [hpe, ← hprev])
                ce hce_mem (by simp only [decide_eq_true_eq]; exact henormce)
              exact hnece (by rw [heq])
            · exact ⟨w, W, hwW, by rw [hnfgid]; exact hpe⟩
          have hfwd2 : ∀ w W, suf' = w :: W → ∀ e ∈ sel,
              enorm e = pnorm (nf.gid, w) → e.eh ≠ ce.eh := by
            intro w W hwW e he hpe2 heq
            have hece : e = ce := List.inj_on_of_nodup_map hndh he hce_mem heq
            rw [hece, hnfgid] at hpe2
            rcases pnorm_eq_pair (henormce.symm.trans hpe2) with ⟨ha, hb⟩ | ⟨ha, hb⟩
            · exact hkv1 ha
            · exact hknotin (by rw [ha, hwW]; simp)
          have hnotin := ih (pre ++ [k.gid]) nf ce.eh fuel hsplit3 hnfes hexcl2
            hfwd2 hrun2
          intro hmem
          rcases List.mem_cons.mp hmem with h | h
          · exact htest_ne h
          · exact hnotin h
      rcases hcases with ⟨ha, hb⟩ | ⟨ha, hb⟩
      · have hcond : ce.gf1.fh = k.fh :=
          (hashInjPair_of hinj ⟨ce, hce_es, Or.inl rfl⟩ hkf).mpr ha
        rw [if_pos hcond] at hrun
        exact hcont ce.gf2 hb ⟨ce, hce_es, Or.inr rfl⟩ hrun
      · have hcond : ¬ (ce.gf1.fh = k.fh) := by
          intro h
          have hv1k : v1 = k.gid :=
            ha.symm.trans ((hashInjPair_of hinj ⟨ce, hce_es, Or.inl rfl⟩ hkf).mp h)
          exact hkv1 hv1k.symm
        rw [if_neg hcond] at hrun
        exact hcont ce.gf1 ha ⟨ce, hce_es, Or.inl rfl⟩ hrun

lemma bsGo_le_max (f : Nat → ℚ) (c : ℚ) :
    ∀ (fuel low high : Nat), bsGo f c fuel low high ≤ max low high := by
  intro fuel
  induction fuel with
  | zero =>
    intro low high
    simp [bsGo]
  | succ n ih =>
    intro low high
    by_cases h : low < high
    · simp only [bsGo, if_pos h]
      by_cases h2 : f ((low + high) / 2) < c
      · simp only [if_pos h2]
        exact le_trans (ih _ _) (by omega)
      · simp only [if_neg h2]
        exact le_trans (ih _ _) (by omega)
    · simp [bsGo, if_neg h]

lemma ecAdd_perm {sel : List GEdge} {e : GEdge}
    (hfresh : ∀ e2 ∈ sel, e2.eh ≠ e.eh) : (ecAdd sel e).Perm (e :: sel) := by
  unfold ecAdd
  rw [if_neg (by
    rw [List.any_eq_true]
    rintro ⟨e2, he2, heq⟩
    exact hfresh e2 he2 (by simpa using heq))]
  refine sel.perm_insertIdx e ?_
  refine le_trans (bsGo_le_max _ _ _ _ _) ?_
  omega

lemma degOfE_perm {sel sel' : List GEdge} (h : sel.Perm sel') (i : Nat) :
    degOfE sel i = degOfE sel' i := h.countP_eq _

lemma degOfE_cons (e : GEdge) (sel : List GEdge) (i : Nat) :
    degOfE (e :: sel) i =
      degOfE sel i + (if e.gf1.gid = i ∨ e.gf2.gid = i then 1 else 0) := by
  unfold degOfE
  rw [List.countP_cons]
  by_cases h : e.gf1.gid = i ∨ e.gf2.gid = i
  · rw [if_pos h, if_pos (by simpa using h)]
  · rw [if_neg h, if_neg (by simpa using h)]

lemma selStep_inv {es done : List GEdge} {st : (Nat → Nat) × List GEdge}
    (hclean : CleanHashes es) (hinj : FaceHashInj es)
    (hdist : ∀ e ∈ es, e.gf1.gid ≠ e.gf2.gid)
    {target : GEdge} (htmem : target ∈ es)
    (htfresh : target.eh ∉ done.map (fun x => x.eh))
    (hsi : SelectionInv es done st) :
    SelectionInv es (done ++ [target]) (selStep st target) := by
  obtain ⟨hdc, hmem, hndh, paths, hps⟩ := hsi
  have hmemT : ∀ e ∈ st.2, e ∈ es ∧ e.eh ∈ (done ++ [target]).map (fun x => x.eh) := by
    intro e he
    exact ⟨(hmem e he).1, by
      rw [List.map_append]
      exact List.mem_append_left _ (hmem e he).2⟩
  have hfresh : ∀ e2 ∈ st.2, e2.eh ≠ target.eh := by
    intro e2 he2 heq
    exact htfresh (heq ▸ (hmem e2 he2).2)
  have hsub : ∀ e ∈ st.2, e ∈ es := fun e he => (hmem e he).1
  have hdistT := hdist target htmem
  have henormT : enorm target = pnorm (target.gf1.gid, target.gf2.gid) := rfl
  unfold selStep
  by_cases hvalid : st.1 target.gf1.gid < 2 ∧ st.1 target.gf2.gid < 2
  case neg =>
    rw [if_neg hvalid]
    exact ⟨hdc, hmemT, hndh, paths, hps⟩
  rw [if_pos hvalid]
  rw [hdc, hdc] at hvalid
  have haddInv : (∃ paths', IsPathSet (target :: st.2) paths') →
      SelectionInv es (done ++ [target])
        (bumpEdgeDegrees st.1 target, ecAdd st.2 target) := by
    rintro ⟨paths', hps'⟩
    have hperm := ecAdd_perm hfresh
    refine ⟨?_, ?_, ?_, ?_⟩
    · intro i
      show bumpEdgeDegrees st.1 target i = degOfE (ecAdd st.2 target) i
      rw [degOfE_perm hperm i, degOfE_cons]
      unfold bumpEdgeDegrees bumpDeg
      by_cases h1 : i = target.gf1.gid <;> by_cases h2 : i = target.gf2.gid
      · exact absurd (h1.symm.trans h2) hdistT
      · rw [if_neg h2, if_pos h1, hdc, if_pos (Or.inl h1.symm), h1]
      · rw [if_pos h2, if_neg (fun h => hdistT h.symm), hdc,
          if_pos (Or.inr h2.symm), h2]
      · rw [if_neg h2, if_neg h1, hdc, if_neg (by
          rintro (h | h)
          · exact h1 h.symm
          · exact h2 h.symm)]
        omega
    · intro e he
      rcases List.mem_cons.mp (hperm.mem_iff.mp he) with h | h
      · subst h
        exact ⟨htmem, by rw [List.map_append]; simp⟩
      · exact hmemT e h
    · have hpm : ((ecAdd st.2 target).map (fun e => e.eh)).Perm
          ((target :: st.2).map (fun e => e.eh)) := hperm.map _
      rw [hpm.nodup_iff, List.map_cons, List.nodup_cons]
      refine ⟨?_, hndh⟩
      intro hmem2
      rcases List.mem_map.mp hmem2 with ⟨e2, he2, heq⟩
      exact hfresh e2 he2 heq
    · exact ⟨paths', pathset_perm_sel hperm.symm hps'⟩
  by_cases hiso : st.1 target.gf1.gid = 0 ∧ st.1 target.gf2.gid = 0
  · rw [if_pos hiso]
    rw [hdc, hdc] at hiso
    exact haddInv (pathset_new_path hps hdistT hiso.1 hiso.2)
  · rw [if_neg hiso]
    unfold addIfNonLooping
    by_cases hwalk : aINLGo st.1 st.2 target.gf1 (st.2.length + 1) target.eh
        target.gf2 = true
    case neg =>
      rw [if_neg hwalk]
      exact ⟨hdc, hmemT, hndh, paths, hps⟩
    rw [if_pos hwalk]
    refine haddInv ?_
    have hd2lt : degOfE st.2 target.gf2.gid < 2 := hvalid.2
    rcases hb : degOfE st.2 target.gf2.gid with _ | n2
    · rcases ha : degOfE st.2 target.gf1.gid with _ | n1
      · rw [hdc, hdc] at hiso
        exact absurd ⟨ha, hb⟩ hiso
      · have ha1 : degOfE st.2 target.gf1.gid = 1 := by
          have := hvalid.1
          omega
        exact pathset_extend hps ha1 hb henormT
    · have hb1 : degOfE st.2 target.gf2.gid = 1 := by omega
      rcases endpoint_normalize hps hb1 with ⟨rest, paths₀, hps', hbnr, hkeep⟩
      have hsplit0 : target.gf2.gid :: rest = [] ++ target.gf2.gid :: rest := rfl
      have hexcl0 : ∀ e ∈ st.2,
          (target.gf2.gid = e.gf1.gid ∨ target.gf2.gid = e.gf2.gid) →
          e.eh ≠ target.eh →
          ∃ v1 suf', rest = v1 :: suf' ∧ enorm e = pnorm (target.gf2.gid, v1) := by
        intro e he hince hnee
        rcases sel_incident_char hps' (List.mem_cons_self _ _) hsplit0 he hince with
          ⟨prev, pre', hpp, hpe⟩ | ⟨w, W, hwW, hpe⟩
        · simp at hpp
        · exact ⟨w, W, hwW, hpe⟩
      have hfwd0 : ∀ v1 suf', rest = v1 :: suf' → ∀ e ∈ st.2,
          enorm e = pnorm (target.gf2.gid, v1) → e.eh ≠ target.eh := by
        intro w W hwW e he hpe
        exact hfresh e he
      have hnin := aINLGo_avoid hclean hinj hdist hsub hndh hdc hps'
        (List.mem_cons_self _ _) target.gf1
        ⟨target, htmem, Or.inl rfl⟩ rest [] target.gf2 target.eh
        (st.2.length + 1) hsplit0 ⟨target, htmem, Or.inr rfl⟩ hexcl0 hfwd0 hwalk
      have hnotin2 : target.gf1.gid ∉ target.gf2.gid :: rest := by
        intro hmem2
        rcases List.mem_cons.mp hmem2 with h | h
        · exact hdistT h
        · exact hnin h
      rcases ha : degOfE st.2 target.gf1.gid with _ | n1
      · exact pathset_extend hps hb1 ha (henormT.trans (pnorm_symm _ _))
      · have ha1 : degOfE st.2 target.gf1.gid = 1 := by
          have := hvalid.1
          omega
        exact pathset_join hps' ha1 hnotin2 henormT

lemma greedy_fold {es : List GEdge}
    (hclean : CleanHashes es) (hinj : FaceHashInj es)
    (hdist : ∀ e ∈ es, e.gf1.gid ≠ e.gf2.gid)
    (hnd : (es.map (fun e => e.eh)).Nodup) :
    ∀ (rest done : List GEdge) (st : (Nat → Nat) × List GEdge),
    es = done ++ rest → SelectionInv es done st →
    SelectionInv es (done ++ rest) (rest.foldl selStep st) := by
  intro rest
  induction rest with
  | nil =>
    intro done st hsplit hsi
    simpa using hsi
  | cons t rest' ih =>
    intro done st hsplit hsi
    have htmem : t ∈ es := by
      rw [hsplit]
      simp
    have htfresh : t.eh ∉ done.map (fun x => x.eh) := by
      have hnd2 : ((done.map (fun x => x.eh)) ++
          t.eh :: (rest'.map (fun x => x.eh))).Nodup := by
        rw [← List.map_cons, ← List.map_append, ← hsplit]
        exact hnd
      intro hmemd
      rcases List.nodup_append.mp hnd2 with ⟨_, _, hdisj⟩
      exact hdisj hmemd (by simp)
    have hstep := selStep_inv hclean hinj hdist htmem htfresh hsi
    have hres := ih (done ++ [t]) (selStep st t) (by rw [hsplit]; simp) hstep
    rw [show (done ++ [t]) ++ rest' = done ++ t :: rest' from by simp] at hres
    exact hres

lemma greedy_init (es : List GEdge) (d0 : Nat → Nat) (hd0 : ∀ i, d0 i = 0) :
    SelectionInv es [] (d0, []) := by
  refine ⟨?_, by simp, by simp, ⟨[], ?_, ?_, ?_⟩⟩
  · intro i
    show d0 i = degOfE [] i
    rw [hd0]
    rfl
  · simp
  · simp
  · simp

/-- C6: during greedy search, a popped edge is accepted into the selected
collection only when both of its faces currently have degree below two and
accepting it closes no cycle among the already-accepted edges; consequently,
after every prefix of the selection loop the accepted face-dual edges form a
disjoint union of simple paths, and the maintained face degrees equal the
true incidence counts, which never exceed two.  The hash-matching of
getMatchingEdge is assumed clean: prefix/suffix hash tests and face-hash
equality identify faces exactly, and the popped registry edges carry
distinct hashes and two distinct faces each, as populateFromFaces
guarantees. -/

theorem greedy_selection_acyclic (es : List GEdge) (d0 : Nat → Nat)
    (hd0 : ∀ i, d0 i = 0)
    (hclean : CleanHashes es) (hinj : FaceHashInj es)
    (hdist : ∀ e ∈ es, e.gf1.gid ≠ e.gf2.gid)
    (hnd : (es.map (fun e => e.eh)).Nodup) :
    ∀ k : Nat,
      (∃ paths, IsPathSet (greedySelect (es.take k) d0).2 paths) ∧
      (∀ i, (greedySelect (es.take k) d0).1 i =
          degOfE (greedySelect (es.take k) d0).2 i ∧
        degOfE (greedySelect (es.take k) d0).2 i ≤ 2) := by
  intro k
  have hsubk : ∀ e ∈ es.take k, e ∈ es := fun e he => List.take_subset _ _ he
  have hclean' : CleanHashes (es.take k) :=
    fun e he f hf => hclean e (hsubk e he) f (hsubk f hf)
  have hinj' : FaceHashInj (es.take k) :=
    fun e he f hf => hinj e (hsubk e he) f (hsubk f hf)
  have hdist' : ∀ e ∈ es.take k, e.gf1.gid ≠ e.gf2.gid :=
    fun e he => hdist e (hsubk e he)
  have hnd' : ((es.take k).map (fun e => e.eh)).Nodup := by
    rw [List.map_take]
    exact hnd.sublist (List.take_sublist _ _)
  have hfold := greedy_fold hclean' hinj' hdist' hnd' (es.take k) [] (d0, [])
    (by simp) (greedy_init _ d0 hd0)
  have hfold2 : SelectionInv (es.take k) (es.take k) (greedySelect (es.take k) d0) := by
    unfold greedySelect
    simpa using hfold
  obtain ⟨hdc, _, _, paths, hps⟩ := hfold2
  exact ⟨⟨paths, hps⟩, fun i => ⟨hdc i, deg_le_two_of_pathset hps i⟩⟩

theorem greedy_selection_acyclic_witness :
    (∀ i, (fun _ : Nat => 0) i = 0) ∧ CleanHashes wgEs ∧ FaceHashInj wgEs ∧
    (∀ e ∈ wgEs, e.gf1.gid ≠ e.gf2.gid) ∧ ((wgEs.map (fun e => e.eh)).Nodup) ∧
    (∀ k : Nat,
      (∃ paths, IsPathSet (greedySelect (wgEs.take k) (fun _ => 0)).2 paths) ∧
      (∀ i, (greedySelect (wgEs.take k) (fun _ => 0)).1 i =
          degOfE (greedySelect (wgEs.take k) (fun _ => 0)).2 i ∧
        degOfE (greedySelect (wgEs.take k) (fun _ => 0)).2 i ≤ 2)) :=
  ⟨fun _ => rfl, by decide, by decide, by decide, by decide,
    greedy_selection_acyclic wgEs (fun _ => 0) (fun _ => rfl) (by decide) (by decide)
      (by decide) (by decide)⟩

end PenCraft
